import Mathlib

/-!
Verification of miromotl/statistics: number parsing and descriptive statistics.

A shallow embedding of `src/statistics.go`.

* Go `string`s are Lean `String`s (valid UTF-8 text); `[]float64` slices are
  lists.
* `float64` arithmetic is read as exact arithmetic: the statistics functions
  are written over an arbitrary linearly ordered field, with `math.Sqrt`
  passed in as a function, so they evaluate on `ℚ` and are reasoned about on
  `ℝ` with `Real.sqrt`.
* A run-time panic (index out of range) is the value `none`.
* `homePage` returns the text it writes to the response writer; the result of
  `request.ParseForm()` is an argument.
* The standard-library functions called by the program (`strings.Replace`,
  `strings.Fields`, `unicode.IsSpace`, `strconv.ParseFloat`, `sort.Float64s`)
  are modelled from their documented behaviour.
-/

namespace Statistics

/-! ## Standard-library text functions -/

/-- Model of `unicode.IsSpace`: the characters with Unicode's White Space
property. -/
def IsSpace (c : Char) : Bool :=
  let n := c.toNat
  (0x09 ≤ n && n ≤ 0x0D) || n == 0x20 || n == 0x85 || n == 0xA0 || n == 0x1680 ||
  (0x2000 ≤ n && n ≤ 0x200A) || n == 0x2028 || n == 0x2029 || n == 0x202F ||
  n == 0x205F || n == 0x3000

/-- Scan of `strings.Replace` for a non-empty `old`: `skip` counts the
characters of a matched occurrence still to be dropped, `n` is the number of
replacements still allowed (`none`: no limit). -/
def replaceScan (old new : List Char) : Nat → Option Nat → List Char → List Char
  | _, _, [] => []
  | skip + 1, n, _ :: cs => replaceScan old new skip n cs
  | 0, n, c :: cs =>
    if n ≠ some 0 ∧ old <+: c :: cs then
      new ++ replaceScan old new (old.length - 1) (n.map (· - 1)) cs
    else c :: replaceScan old new 0 n cs

/-- Model of `strings.Replace(s, old, new, n)` for a non-empty `old`: a copy of
`s` with the first `n` non-overlapping instances of `old` replaced by `new`,
all of them when `n < 0`. -/
def Replace (s old new : String) (n : Int) : String :=
  ⟨replaceScan old.data new.data 0 (if n < 0 then none else some n.toNat) s.data⟩

/-- Scan of `strings.Fields`: `cur` holds, reversed, the characters of the
field being read (empty when no field is open). -/
def fieldsScan : List Char → List Char → List String
  | cur, [] => if cur = [] then [] else [⟨cur.reverse⟩]
  | cur, c :: cs =>
    if IsSpace c then
      if cur = [] then fieldsScan [] cs else ⟨cur.reverse⟩ :: fieldsScan [] cs
    else fieldsScan (c :: cur) cs

/-- Model of `strings.Fields`: splits the string around each instance of one
or more consecutive white space characters, as defined by `unicode.IsSpace`,
returning the substrings, or an empty slice if `s` contains only white
space. -/
def Fields (s : String) : List String := fieldsScan [] s.data

/-! ## Request handling -/

/-- The part of `http.Request` the program reads: the parsed form, a map from
field names to the list of values submitted under that name. -/
structure Request where
  Form : String → Option (List String)

/-- The loop of `processRequest` over the white space separated text fields:
`numbers` is the slice built so far. -/
def processFields {F : Type} (ParseFloat : String → Option F) :
    List F → List String → List F × String × Bool
  | numbers, [] =>
    if numbers.length = 0 then
      -- No data, page has just been called and shown
      (numbers, "", false)
    else
      -- A slice of float64 numbers
      (numbers, "", true)
  | numbers, field :: fields =>
    match ParseFloat field with
    | none =>
      -- Could not convert text to float64
      (numbers, "'" ++ field ++ "' is invalid", false)
    | some x =>
      -- We have a valid float64 number
      processFields ParseFloat (numbers ++ [x]) fields

/-- Process the http request (`func processRequest`).  `ParseFloat field` is
`strconv.ParseFloat(field, 64)`: `some x` when it returns `x` with a nil
error, `none` when it returns an error. -/
def processRequest {F : Type} (ParseFloat : String → Option F) (request : Request) :
    List F × String × Bool :=
  match request.Form "numbers" with
  | some (first :: _) =>
    -- There has been entered some text in the "numbers" input box
    -- Replace commas with space
    let text := Replace first "," " " (-1)
    processFields ParseFloat [] (Fields text)
  | _ => processFields ParseFloat [] []

/-! ## The claims' reading of the input -/

/-- A delimiter of the input text: a white space character or a comma. -/
def isDelimiter (c : Char) : Bool := IsSpace c || c == ','

/-- The effect of `strings.Replace(s, ",", " ", -1)` on one character. -/
def commaToSpace (c : Char) : Char := if c = ',' then ' ' else c

/-- The tokens of an input text, as the specification describes them: the text
is split at every delimiter and the empty pieces are discarded, which leaves
the maximal runs of non-delimiter characters. -/
def tokens (text : String) : List String :=
  ((text.data.splitOnP isDelimiter).filter (fun t => t ≠ [])).map String.mk

/-- The text a request submits: the first value of its "numbers" field, the
empty text when the field is absent or has no value. -/
def requestText (request : Request) : String :=
  match request.Form "numbers" with
  | some (first :: _) => first
  | _ => ""

/-- A request whose form holds the single field "numbers" with one value. -/
def formRequest (text : String) : Request :=
  ⟨fun name => if name = "numbers" then some [text] else none⟩

/-! ## `strconv.ParseFloat` -/

/-- The values of a `float64` in the exact reading: a number, an infinity
with its sign, or not-a-number. -/
inductive Float64 where
  | num (q : ℚ)
  | inf (neg : Bool)
  | nan
deriving DecidableEq, Repr

/-- Byte-wise ASCII lower-casing of `strconv` (`c | ('x' ^ 'X')`), as a code. -/
def lower (c : Char) : Nat := c.toNat ||| 0x20

/-- A decimal digit `'0'..'9'`. -/
def isDigit (c : Char) : Bool := 48 ≤ c.toNat && c.toNat ≤ 57

/-- A hexadecimal letter `'a'..'f'` or `'A'..'F'`. -/
def isHexLetter (c : Char) : Bool := 97 ≤ lower c && lower c ≤ 102

/-- Model of `commonPrefixLenIgnoreCase`: the number of leading characters of
`s` that match the lower-case word `w`, ignoring the case of `s`. -/
def commonPrefixLenIgnoreCase : List Char → List Char → Nat
  | c :: s, p :: w =>
    let c := if 65 ≤ c.toNat ∧ c.toNat ≤ 90 then Char.ofNat (c.toNat + 32) else c
    if c = p then commonPrefixLenIgnoreCase s w + 1 else 0
  | _, _ => 0

/-- Model of `special`: recognises the (possibly signed) words "inf" and
"infinity" and the word "nan", ignoring case; returns the value and the number
of characters consumed. -/
def special (s : List Char) : Option (Float64 × Nat) :=
  let infinity (neg : Bool) (nsign : Nat) (s : List Char) : Option (Float64 × Nat) :=
    let n := commonPrefixLenIgnoreCase s "infinity".data
    -- Anything longer than "inf" is ok, but only "inf" is consumed then
    let n := if 3 < n ∧ n < 8 then 3 else n
    if n = 3 ∨ n = 8 then some (Float64.inf neg, nsign + n) else none
  match s with
  | [] => none
  | c :: rest =>
    if c = '+' ∨ c = '-' then infinity (c == '-') 1 rest
    else if c = 'i' ∨ c = 'I' then infinity false 0 s
    else if c = 'n' ∨ c = 'N' then
      if commonPrefixLenIgnoreCase s "nan".data = 3 then some (Float64.nan, 3) else none
    else none

/-- What the digit loop of `readFloat` has seen. -/
structure Digits where
  sawdot : Bool
  sawdigits : Bool
  underscores : Bool
  /-- The digits read so far, as a number in the base. -/
  mantissa : Nat
  /-- The number of digits read after the point. -/
  frac : Nat
deriving DecidableEq, Repr

/-- The digit loop of `readFloat`: reads digits, underscores and at most one
point, and stops at the first other character; returns the rest. -/
def scanDigits (base : Nat) : Digits → List Char → Digits × List Char
  | d, [] => (d, [])
  | d, c :: cs =>
    if c = '_' then scanDigits base { d with underscores := true } cs
    else if c = '.' then
      if d.sawdot then (d, c :: cs) else scanDigits base { d with sawdot := true } cs
    else if isDigit c then
      scanDigits base { d with sawdigits := true, mantissa := d.mantissa * base + (c.toNat - 48),
                               frac := if d.sawdot then d.frac + 1 else d.frac } cs
    else if base = 16 ∧ isHexLetter c then
      scanDigits base { d with sawdigits := true, mantissa := d.mantissa * 16 + (lower c - 97 + 10),
                               frac := if d.sawdot then d.frac + 1 else d.frac } cs
    else (d, c :: cs)

/-- The exponent loop of `readFloat`: reads decimal digits and underscores;
the exponent stops growing once it has reached 10000. -/
def scanExp : Nat → Bool → List Char → Nat × Bool × List Char
  | e, u, [] => (e, u, [])
  | e, u, c :: cs =>
    if c = '_' then scanExp e true cs
    else if isDigit c then scanExp (if e < 10000 then e * 10 + (c.toNat - 48) else e) u cs
    else (e, u, c :: cs)

/-- The loop of `underscoreOK`: `saw` is the kind of the last character seen,
`'0'` for a digit (or the base prefix), `'_'` for an underscore, `'!'` for
anything else and `'^'` at the start. -/
def underscoreScan (hex : Bool) : Char → List Char → Bool
  | saw, [] => saw != '_'
  | saw, c :: cs =>
    -- Digits are always okay.
    if isDigit c || (hex && isHexLetter c) then underscoreScan hex '0' cs
    -- Underscore must follow digit.
    else if c = '_' then
      if saw != '0' then false else underscoreScan hex '_' cs
    -- Underscore must also be followed by digit.
    else if saw = '_' then false
    -- Saw non-digit, non-underscore.
    else underscoreScan hex '!' cs

/-- Model of `underscoreOK`: underscores must appear only between digits or
between a base prefix and a digit. -/
def underscoreOK (s : List Char) : Bool :=
  -- Optional sign.
  let s := match s with
    | c :: rest => if c = '-' ∨ c = '+' then rest else s
    | [] => s
  -- Optional base prefix.
  match s with
  | c0 :: c1 :: rest =>
    if c0 = '0' ∧ (lower c1 = 98 ∨ lower c1 = 111 ∨ lower c1 = 120) then
      underscoreScan (lower c1 == 120) '0' rest
    else underscoreScan false '^' s
  | _ => underscoreScan false '^' s

/-- What `readFloat` returns on success: sign, base, digits and exponent,
with the characters left unread. -/
structure Literal where
  neg : Bool
  hex : Bool
  mantissa : Nat
  /-- The power of ten (of two for a hexadecimal literal) scaling the mantissa. -/
  exp : Int
  rest : List Char
deriving DecidableEq, Repr

/-- Model of `readFloat`: reads a decimal or hexadecimal mantissa and exponent
from the start of `s`; `none` is `ok = false`. -/
def readFloat (s : List Char) : Option Literal :=
  -- optional sign
  if s = [] then none else
  let (neg, s1) := match s with
    | c :: rest => if c = '+' then (false, rest) else if c = '-' then (true, rest) else (false, s)
    | [] => (false, s)
  -- digits
  let (hex, s2) := match s1 with
    | c0 :: c1 :: c2 :: rest => if c0 = '0' ∧ lower c1 = 120 then (true, c2 :: rest) else (false, s1)
    | _ => (false, s1)
  let (d, s3) := scanDigits (if hex then 16 else 10) ⟨false, false, false, 0, 0⟩ s2
  if !d.sawdigits then none else
  let dp : Int := if hex then -(4 * d.frac : Nat) else -(d.frac : Nat)
  -- optional exponent moves decimal point
  let finish (underscores : Bool) (exp : Int) (rest : List Char) : Option Literal :=
    if underscores && !underscoreOK (s.take (s.length - rest.length)) then none
    else some ⟨neg, hex, d.mantissa, exp, rest⟩
  match s3 with
  | c :: s4 =>
    if lower c = (if hex then 112 else 101) then
      match s4 with
      | [] => none
      | c1 :: s5 =>
        let (esign, s6) : Int × List Char :=
          if c1 = '+' then (1, s5) else if c1 = '-' then (-1, s5) else (1, s4)
        match s6 with
        | [] => none
        | c2 :: _ =>
          if !isDigit c2 then none else
          let (e, u, rest) := scanExp 0 d.underscores s6
          finish u (dp + e * esign) rest
    else if hex then none -- Must have exponent.
    else finish d.underscores dp s3
  | [] => if hex then none else finish d.underscores dp s3

/-- The exact value of a literal. -/
def Literal.value (l : Literal) : ℚ :=
  let b : ℚ := if l.hex then 2 else 10
  let m : ℚ := if l.exp < 0 then l.mantissa / b ^ l.exp.natAbs else l.mantissa * b ^ l.exp.natAbs
  if l.neg then -m else m

/-- The least magnitude that rounds (to nearest, ties to even) beyond the
largest finite `float64`: half-way between `MaxFloat64` and `2^1024`. -/
def overflowThreshold : ℚ := 2 ^ 1024 - 2 ^ 970

/-- Model of `strconv.ParseFloat(s, 64)`, as of Go 1.13 and later: `some x`
when the call returns `x` with a nil error, `none` when it returns an error.
The text must be, in full, a special word or a decimal or hexadecimal
floating-point literal (syntax error otherwise), and a literal whose value
rounds beyond the largest finite `float64` is a range error.  The value of an
accepted literal is kept exact: the rounding to the nearest `float64` that the
library performs is not modelled, so that this model tells which texts are
accepted, and the value only of a literal that a `float64` holds exactly. -/
def ParseFloat (s : String) : Option Float64 :=
  match special s.data with
  | some (val, n) => if n = s.length then some val else none
  | none =>
    match readFloat s.data with
    | none => none
    | some l =>
      if l.rest ≠ [] then none
      else if overflowThreshold ≤ |l.value| then none
      else some (Float64.num l.value)

/-! ## The steps of `readFloat` -/

/-- The infinity branch of `special`, read from `s` after `nsign` sign
characters. -/
def specialInfinity (neg : Bool) (nsign : Nat) (s : List Char) : Option (Float64 × Nat) :=
  let n := commonPrefixLenIgnoreCase s "infinity".data
  let n := if 3 < n ∧ n < 8 then 3 else n
  if n = 3 ∨ n = 8 then some (Float64.inf neg, nsign + n) else none

/-- The optional sign of `readFloat`: whether a minus sign was read, and the
text after the sign. -/
def readSign (s : List Char) : Bool × List Char :=
  match s with
  | c :: rest => if c = '+' then (false, rest) else if c = '-' then (true, rest) else (false, s)
  | [] => (false, s)

/-- The base of `readFloat`: whether the text starts with "0x" or "0X"
followed by a character, and the text after this start. -/
def readBase (s1 : List Char) : Bool × List Char :=
  match s1 with
  | c0 :: c1 :: c2 :: rest => if c0 = '0' ∧ lower c1 = 120 then (true, c2 :: rest) else (false, s1)
  | _ => (false, s1)

/-- The end of `readFloat`: the check of the underscores of the text read,
`rest` being the text left unread. -/
def readFinish (s : List Char) (neg hex : Bool) (mantissa : Nat) (underscores : Bool)
    (exp : Int) (rest : List Char) : Option Literal :=
  if underscores && !underscoreOK (s.take (s.length - rest.length)) then none
  else some ⟨neg, hex, mantissa, exp, rest⟩

/-- The exponent of `readFloat`, read from the text `s3` left by the digit
loop. -/
def readExponent (s : List Char) (neg hex : Bool) (d : Digits) (s3 : List Char) :
    Option Literal :=
  let dp : Int := if hex then -(4 * d.frac : Nat) else -(d.frac : Nat)
  match s3 with
  | c :: s4 =>
    if lower c = (if hex then 112 else 101) then
      match s4 with
      | [] => none
      | c1 :: s5 =>
        let (esign, s6) : Int × List Char :=
          if c1 = '+' then (1, s5) else if c1 = '-' then (-1, s5) else (1, s4)
        match s6 with
        | [] => none
        | c2 :: _ =>
          if !isDigit c2 then none else
          let (e, u, rest) := scanExp 0 d.underscores s6
          readFinish s neg hex d.mantissa u (dp + e * esign) rest
    else if hex then none
    else readFinish s neg hex d.mantissa d.underscores dp s3
  | [] => if hex then none else readFinish s neg hex d.mantissa d.underscores dp s3

/-! ## The claims' reading of a number -/

/-- A sign character. -/
def isSign (c : Char) : Bool := c == '+' || c == '-'

/-- The text after an optional sign. -/
def dropSign : List Char → List Char
  | c :: r => if isSign c then r else c :: r
  | [] => []

/-- A hexadecimal digit. -/
def isHexDigit (c : Char) : Bool := isDigit c || isHexLetter c

/-- A digit of the base, for the bases 10 and 16 of `readFloat`. -/
def isDigitOf (base : Nat) (c : Char) : Bool :=
  isDigit c || (decide (base = 16) && isHexLetter c)

/-- The shape of a mantissa: digits, with at most one point, at least one
digit, and possibly underscores. -/
def mantissaShape (digit : Char → Bool) (m : List Char) : Bool :=
  m.all (fun c => digit c || c == '.' || c == '_') && m.any digit && decide (m.count '.' ≤ 1)

/-- The shape of an exponent after its letter: an optional sign, then decimal
digits, the first character a digit, possibly with underscores after it. -/
def exponentShape (x : List Char) : Bool :=
  (match dropSign x with
    | c :: _ => isDigit c
    | [] => false) &&
  (dropSign x).all (fun c => isDigit c || c == '_')

/-- The shape of a base-10 floating-point literal: an optional sign, a decimal
mantissa and an optional exponent introduced by `e` or `E`. -/
def decimalShape (s : List Char) : Bool :=
  let m := (dropSign s).takeWhile (fun c => !(c == 'e' || c == 'E'))
  let x := (dropSign s).dropWhile (fun c => !(c == 'e' || c == 'E'))
  mantissaShape isDigit m &&
    (match x with
      | [] => true
      | _ :: e => exponentShape e)

/-- The shape of a hexadecimal floating-point literal: an optional sign, `0x`
or `0X`, a hexadecimal mantissa and an exponent introduced by `p` or `P`. -/
def hexShape (s : List Char) : Bool :=
  match dropSign s with
  | c0 :: c1 :: b =>
    c0 == '0' && (c1 == 'x' || c1 == 'X') &&
    mantissaShape isHexDigit (b.takeWhile (fun c => !(c == 'p' || c == 'P'))) &&
    (match b.dropWhile (fun c => !(c == 'p' || c == 'P')) with
      | [] => false
      | _ :: e => exponentShape e)
  | _ => false

/-- An ASCII letter in lower case, any other character unchanged. -/
def foldCase (c : Char) : Char :=
  if 65 ≤ c.toNat ∧ c.toNat ≤ 90 then Char.ofNat (c.toNat + 32) else c

/-- One of the words "inf" and "infinity", with an optional sign, or the word
"nan", in any letter case. -/
def specialWord (s : List Char) : Bool :=
  let w := s.map foldCase
  w == "nan".data || dropSign w == "inf".data || dropSign w == "infinity".data

/-- Whether every underscore of a text stands between two digits; `before`
tells whether the character before the text counts as a digit. -/
def underscoresPlaced (digit : Char → Bool) : Bool → List Char → Bool
  | _, [] => true
  | before, c :: cs =>
    if c = '_' then
      before &&
      (match cs with
        | d :: _ => digit d
        | [] => false) &&
      underscoresPlaced digit false cs
    else underscoresPlaced digit (digit c) cs

/-- The number a digit character stands for, a letter `a` to `f` in either
case counting for 10 to 15. -/
def digitValue (c : Char) : Nat := if isDigit c then c.toNat - 48 else lower c - 97 + 10

/-- The number written in the base by the digits of a mantissa, its point and
its underscores left out. -/
def mantissaNumber (base : Nat) (m : List Char) : Nat :=
  (m.filter (isDigitOf base)).foldl (fun n c => n * base + digitValue c) 0

/-- The number of digits of a mantissa after its point. -/
def fractionDigits (base : Nat) (m : List Char) : Nat :=
  ((m.dropWhile (fun c => c != '.')).filter (isDigitOf base)).length

/-- The number written by the digits of an exponent, its sign and its
underscores left out, as `strconv` reads it: the digits that come once the
number has reached 10000 are ignored. -/
def exponentNumber (x : List Char) : Nat :=
  ((dropSign x).filter isDigit).foldl
    (fun e c => if e < 10000 then e * 10 + digitValue c else e) 0

/-- The exponent written after the exponent letter, with its sign. -/
def exponentSigned (x : List Char) : Int :=
  match x with
  | c :: _ => if c = '-' then -(exponentNumber x : Int) else (exponentNumber x : Int)
  | [] => 0

/-- The number `M` times the base `b` to the power `E`. -/
def scaled (M b : Nat) (E : Int) : ℚ :=
  if E < 0 then (M : ℚ) / ((b ^ E.natAbs : Nat) : ℚ) else ((M * b ^ E.natAbs : Nat) : ℚ)

/-- The magnitude of a text of the shape of a base-10 literal: its mantissa
times ten to the power of its exponent. -/
def decimalMagnitude (s : List Char) : ℚ :=
  let m := (dropSign s).takeWhile (fun c => !(c == 'e' || c == 'E'))
  let x := ((dropSign s).dropWhile (fun c => !(c == 'e' || c == 'E'))).tail
  scaled (mantissaNumber 10 m) 10 (exponentSigned x - (fractionDigits 10 m : Nat))

/-- The magnitude of a text of the shape of a hexadecimal literal: its
mantissa times two to the power of its exponent. -/
def hexMagnitude (s : List Char) : ℚ :=
  let b := (dropSign s).drop 2
  let m := b.takeWhile (fun c => !(c == 'p' || c == 'P'))
  let x := (b.dropWhile (fun c => !(c == 'p' || c == 'P'))).tail
  scaled (mantissaNumber 16 m) 2 (exponentSigned x - (4 * fractionDigits 16 m : Nat))

/-- A base-10 floating-point literal, with underscores only between digits,
of a magnitude that rounds to a finite `float64`. -/
def decimalNumber (s : List Char) : Bool :=
  decimalShape s && underscoresPlaced isDigit false (dropSign s) &&
    decide (decimalMagnitude s < overflowThreshold)

/-- A hexadecimal floating-point literal, with underscores only between digits
or between the prefix and a digit, of a magnitude that rounds to a finite
`float64`. -/
def hexNumber (s : List Char) : Bool :=
  hexShape s && underscoresPlaced isHexDigit true ((dropSign s).drop 2) &&
    decide (hexMagnitude s < overflowThreshold)

/-- The tokens that are read as a number: the base-10 literals and the
hexadecimal literals with their underscores between digits and a magnitude in
range, and the special words. -/
def numberShape (t : String) : Bool :=
  decimalNumber t.data || hexNumber t.data || specialWord t.data

/-! ## Base-10 literals -/

/-- The character of a decimal digit. -/
def digitChar (d : Fin 10) : Char := Char.ofNat (48 + d.val)

/-- The number written by decimal digits, most significant first, after the
number `n` written so far. -/
def digitsFrom (n : Nat) (ds : List (Fin 10)) : Nat := ds.foldl (fun n d => n * 10 + d.val) n

/-- The number written by decimal digits, most significant first. -/
def digitsValue (ds : List (Fin 10)) : Nat := digitsFrom 0 ds

/-- The text of an optional sign: nothing, `+` (`some false`) or `-`
(`some true`). -/
def signText : Option Bool → List Char
  | none => []
  | some false => ['+']
  | some true => ['-']

/-- The exponent of a base-10 literal: the letter `e` or `E`, an optional sign
and digits. -/
structure ExponentPart where
  upper : Bool
  sign : Option Bool
  digits : List (Fin 10)
deriving DecidableEq, Repr

/-- A base-10 floating-point literal: an optional sign, digits with an
optional fractional part (a point and digits), and an optional exponent. -/
structure DecimalLiteral where
  sign : Option Bool
  intDigits : List (Fin 10)
  fracDigits : Option (List (Fin 10))
  exponent : Option ExponentPart
deriving DecidableEq, Repr

/-- The digits after the point, none when there is no point. -/
def DecimalLiteral.frac (l : DecimalLiteral) : List (Fin 10) := l.fracDigits.getD []

/-- A literal is well formed when its mantissa has a digit and its exponent,
if any, has a digit. -/
def DecimalLiteral.wellFormed (l : DecimalLiteral) : Prop :=
  l.intDigits ++ l.frac ≠ [] ∧ ∀ e ∈ l.exponent, e.digits ≠ []

/-- The text of an exponent. -/
def ExponentPart.text (e : ExponentPart) : List Char :=
  (if e.upper then 'E' else 'e') :: (signText e.sign ++ e.digits.map digitChar)

/-- The text of the mantissa of a literal, without its sign. -/
def DecimalLiteral.mantissaText (l : DecimalLiteral) : List Char :=
  l.intDigits.map digitChar ++
    (match l.fracDigits with
      | none => []
      | some fs => '.' :: fs.map digitChar)

/-- The text of the exponent of a literal, empty when there is none. -/
def DecimalLiteral.exponentText (l : DecimalLiteral) : List Char :=
  match l.exponent with
  | none => []
  | some e => e.text

/-- The text of a literal. -/
def DecimalLiteral.text (l : DecimalLiteral) : String :=
  ⟨signText l.sign ++ (l.mantissaText ++ l.exponentText)⟩

/-- The power of ten an exponent denotes. -/
def ExponentPart.value (e : ExponentPart) : Int :=
  if e.sign = some true then -(digitsValue e.digits : Int) else (digitsValue e.digits : Int)

/-- The power of ten scaling the digits of a literal: its exponent less the
number of digits after the point. -/
def DecimalLiteral.scale (l : DecimalLiteral) : Int :=
  (match l.exponent with
    | none => 0
    | some e => e.value) - (l.frac.length : Int)

/-- The number a literal denotes: its digits times ten to the power of its
scale. -/
def DecimalLiteral.value (l : DecimalLiteral) : ℚ :=
  (if l.sign = some true then -1 else 1) * scaled (digitsValue (l.intDigits ++ l.frac)) 10 l.scale

/-- The number the exponent loop of `readFloat` makes of decimal digits, after
the number `e` read so far: a digit is taken in only while the number is below
10000 (`if e < 10000 { e = e*10 + int(s[i]) - '0' }`), so that the digits
that come once the number has reached 10000 do not count. -/
def readFrom (e : Nat) (ds : List (Fin 10)) : Nat :=
  ds.foldl (fun e d => if e < 10000 then e * 10 + d.val else e) e

/-- The power of ten `readFloat` reads from an exponent. -/
def ExponentPart.readValue (e : ExponentPart) : Int :=
  if e.sign = some true then -(readFrom 0 e.digits : Int) else (readFrom 0 e.digits : Int)

/-- The power of ten scaling the digits of a literal as `readFloat` reads it:
the exponent read less the number of digits after the point. -/
def DecimalLiteral.readScale (l : DecimalLiteral) : Int :=
  (match l.exponent with
    | none => 0
    | some e => e.readValue) - (l.frac.length : Int)

/-- The number `readFloat` reads from a literal: the number the literal
denotes, but for an exponent written with a number of 100000 or more. -/
def DecimalLiteral.readValue (l : DecimalLiteral) : ℚ :=
  (if l.sign = some true then -1 else 1) *
    scaled (digitsValue (l.intDigits ++ l.frac)) 10 l.readScale

/-! ## Statistics engine -/

/-- Struct holding the user's numbers and the resulting statistics
(`type statistics struct`). -/
structure statistics (α : Type) where
  numbers : List α
  mean : α
  median : α
  σ : α
deriving DecidableEq, Repr

/-- Insertion of one element into an ascending list, before the first larger
element. -/
def insertSorted {α : Type} [LinearOrder α] (x : α) : List α → List α
  | [] => [x]
  | y :: ys => if x ≤ y then x :: y :: ys else y :: insertSorted x ys

/-- Model of `sort.Float64s`: sorts a slice in increasing order.  The slice is
sorted in place in Go; the list returned here is the content of that slice
after the call. -/
def Float64s {α : Type} [LinearOrder α] : List α → List α
  | [] => []
  | x :: xs => insertSorted x (Float64s xs)

/-- Calculate the sum of a slice of float64 numbers (`func sum`): a left to
right accumulation starting from the zero value. -/
def sum {α : Type} [Field α] (numbers : List α) : α :=
  numbers.foldl (fun total x => total + x) 0

/-- Calculate the median of a sorted slice of float64 numbers (`func median`).
The two slice accesses `numbers[middle]` and `numbers[middle-1]` panic when
out of range, which is the result `none`. -/
def median {α : Type} [Field α] (numbers : List α) : Option α :=
  let middle := numbers.length / 2
  match numbers[middle]? with
  | none => none
  | some result =>
    -- Correct median for multiple of 2 length
    if numbers.length % 2 = 0 then
      if middle = 0 then none
      else
        match numbers[middle - 1]? with
        | none => none
        | some prev => some ((result + prev) / 2)
    else some result

/-- Calculate the standard deviation of float64 numbers (`func σ`); `Sqrt` is
`math.Sqrt`. -/
def σ {α : Type} [Field α] (Sqrt : α → α) (numbers : List α) : α :=
  let n := numbers.length
  if n < 2 then 0
  else
    let mean := sum numbers / (n : α)
    let s := numbers.foldl (fun s x => s + (x - mean) * (x - mean)) 0
    Sqrt (s / ((n - 1 : ℕ) : α))

/-- Calculate the statistics (`func getStats`).  `stats.numbers` aliases the
argument slice, so after `sort.Float64s(stats.numbers)` both names denote the
sorted content: the sum, the median and σ are all computed on the sorted
list, and the caller's slice is left holding `stats.numbers`. -/
def getStats {α : Type} [LinearOrderedField α] (Sqrt : α → α) (numbers : List α) :
    Option (statistics α) :=
  let numbers := Float64s numbers
  let mean := sum numbers / (numbers.length : α)
  match median numbers with
  | none => none
  | some med => some { numbers := numbers, mean := mean, median := med, σ := σ Sqrt numbers }


/-! ## The page -/

/-- The constant `pageTop`: the html code that opens the page. -/
def pageTop : String :=
  "\n" ++
  "        <!DOCTYPE html>\n" ++
  "        <html lang=\"en\">\n" ++
  "        <head>\n" ++
  "            <title>Statistics</title>\n" ++
  "            <meta charset=\"utf-8\">\n" ++
  "            <meta name=\"viewport\" content=\"width=device-width, initial-scale=1\">\n" ++
  "            <!-- Latest compiled and minified CSS -->\n" ++
  "            <link rel=\"stylesheet\" href=\"https://maxcdn.bootstrapcdn.com/bootstrap/3.3.5/css/bootstrap.min.css\">\n" ++
  "            <!-- Latest compiled and minified JavaScript -->\n" ++
  "            <script src=\"https://maxcdn.bootstrapcdn.com/bootstrap/3.3.5/js/bootstrap.min.js\"></script>\n" ++
  "        </head>\n" ++
  "        <body>\n" ++
  "            <div class=\"container\">\n" ++
  "                <h2>Statistics</h2>\n" ++
  "                <p>Computes basic statistics for a given list of numbers</p>"

/-- The constant `form`: the html code of the input form. -/
def form : String :=
  "\n" ++
  "                <form role=\"form\" action=\"/\" method=\"POST\">\n" ++
  "                    <div class=\"from-group\">\n" ++
  "                        <label for=\"numbers\">Numbers (comma or space-separated):</label>\n" ++
  "                        <input type=\"text\" class=\"form-control\" id=\"numbers\" name=\"numbers\" value=\"\" placeholder=\"(e.g. 1 2 3)\" />\n" ++
  "                    </div>\n" ++
  "                    <br />\n" ++
  "                    <button type=\"submit\" class=\"btn btn-success\" >Calculate</button>\n" ++
  "                </form>"

/-- The constant `pageBottom`: the html code that closes the page. -/
def pageBottom : String :=
  "\n" ++
  "            </div>\n" ++
  "        </body>\n" ++
  "        </html>"

/-- The format `anError` applied to a text by `fmt.Fprintf` (the verb `%s`
is replaced by the text). -/
def anError (message : String) : String :=
  "<br /><p class=\"text-danger\">" ++ message ++ "</p>"

/-- Format the statistics html output (`func formatStats`).  `fmtV` is the
verb `%v` of `fmt` on a `[]float64` and `fmtF` the verb `%f` on a `float64`;
the verb `%d` writes the count in decimal. -/
def formatStats {α : Type} (fmtV : List α → String) (fmtF : α → String)
    (stats : statistics α) : String :=
  "\n" ++
    "        <div class=\"table-responsive\">\n" ++
    "            <table class=\"table\">\n" ++
    "                <thead>\n" ++
    "                    <tr><th colspan=\"2\">Results:</th></tr>\n" ++
    "                </thead>\n" ++
    "                <tbody>\n" ++
    "                    <tr><td>Numbers</td><td>" ++
    fmtV stats.numbers ++
    "</td></tr>\n" ++
    "                    <tr><td>Count</td><td>" ++
    toString stats.numbers.length ++
    "</td></tr>\n" ++
    "                    <tr><td>Mean</td><td>" ++
    fmtF stats.mean ++
    "</td></tr>\n" ++
    "                    <tr><td>Median</td><td>" ++
    fmtF stats.median ++
    "</td></tr>\n" ++
    "                    <tr><td>σ</td><td>" ++
    fmtF stats.σ ++
    "</td></tr>\n" ++
    "                </tbody>\n" ++
    "            </table>\n" ++
    "        </div>"

/-- Handling the call to the home page (`func homePage`).  `err` is what
`request.ParseForm()` returned (`none` for nil, `some e` for an error with
text `e`) and `request` the request after that call.  The result is the text
written to the response writer, in order; it is `none` when the handler
panics. -/
def homePage {α : Type} [LinearOrderedField α] (ParseFloat : String → Option α)
    (Sqrt : α → α) (fmtV : List α → String) (fmtF : α → String)
    (err : Option String) (request : Request) : Option String :=
  match err with
  | some e => some (pageTop ++ form ++ anError e ++ pageBottom)
  | none =>
    match processRequest ParseFloat request with
    | (numbers, message, ok) =>
      if ok then
        match getStats Sqrt numbers with
        | none => none
        | some stats => some (pageTop ++ form ++ formatStats fmtV fmtF stats ++ pageBottom)
      else if message ≠ "" then
        some (pageTop ++ form ++ anError message ++ pageBottom)
      else some (pageTop ++ form ++ pageBottom)

/-! ## Running the page on rational numbers -/

/-- The number held by a `float64` that is neither an infinity nor NaN. -/
def Float64.rat? : Float64 → Option ℚ
  | Float64.num q => some q
  | _ => none

/-- The parser `ParseFloat` with its values in `ℚ`, to run the page on
rational numbers.  An infinity or NaN has no value in `ℚ`: a special word is
taken here as not parsing, unlike in `ParseFloat`. -/
def ParseRat (s : String) : Option ℚ := (ParseFloat s).bind Float64.rat?

/-- The verb `%f` on a rational number: six digits after the point, rounded
to nearest, ties to even. -/
def fmtFixed (q : ℚ) : String :=
  let scaled : ℚ := |q| * 1000000
  let low : Nat := scaled.floor.toNat
  let r : ℚ := scaled - low
  let n : Nat := if r < 1 / 2 then low else if 1 / 2 < r then low + 1
    else if low % 2 = 0 then low else low + 1
  let frac := toString (n % 1000000)
  (if q < 0 then "-" else "") ++ toString (n / 1000000) ++ "." ++
    String.mk (List.replicate (6 - frac.length) '0') ++ frac

/-- The decimal digits of `r / den` after the point, at most `k` of them. -/
def decimalPlaces : Nat → Nat → Nat → List Char
  | 0, _, _ => []
  | k + 1, r, den =>
    if r = 0 then [] else Char.ofNat (48 + r * 10 / den) :: decimalPlaces k (r * 10 % den) den

/-- The verb `%v` on a rational number that is zero or of a magnitude from
`10^-4` to below `10^6`, and has a decimal expansion of at most 17 digits: the
digits, without trailing zeros.  From `10^6` on, and below `10^-4`, `%v`
prints an exponent (`1e+06` for 1000000), which this function does not. -/
def fmtShortest (q : ℚ) : String :=
  let places := decimalPlaces 17 (q.num.natAbs % q.den) q.den
  (if q < 0 then "-" else "") ++ toString (q.num.natAbs / q.den) ++
    (if places = [] then "" else "." ++ String.mk places)

/-- The verb `%v` on a slice: the elements between brackets, separated by
spaces. -/
def fmtSlice {α : Type} (fmtElem : α → String) (xs : List α) : String :=
  "[" ++ " ".intercalate (xs.map fmtElem) ++ "]"

/-! ## Lemmas on the request parser -/

section Parser

theorem replaceScan_comma (l : List Char) :
    replaceScan [','] [' '] 0 none l = l.map commaToSpace := by
  induction l with
  | nil => rfl
  | cons c cs ih =>
    by_cases hc : c = ','
    · subst hc
      simp [replaceScan, commaToSpace, ih]
    · have hc2 : ¬ (',' = c) := fun h => hc h.symm
      simp [replaceScan, commaToSpace, ih, hc, hc2]

theorem Replace_comma_data (s : String) :
    (Replace s "," " " (-1)).data = s.data.map commaToSpace := by
  show replaceScan [','] [' '] 0 (if (-1 : Int) < 0 then none else some (-1 : Int).toNat) s.data = _
  rw [if_pos (by decide)]
  exact replaceScan_comma s.data

theorem IsSpace_commaToSpace (c : Char) : IsSpace (commaToSpace c) = isDelimiter c := by
  by_cases hc : c = ','
  · subst hc
    decide
  · simp [commaToSpace, isDelimiter, hc]

/-- The field scan over the text with commas replaced splits the original
text at its delimiters and drops the empty pieces. -/
theorem fieldsScan_map (l cur : List Char) :
    fieldsScan cur (l.map commaToSpace) =
      (((l.splitOnP isDelimiter).modifyHead (fun t => cur.reverse ++ t)).filter
        (fun t => t ≠ [])).map String.mk := by
  induction l generalizing cur with
  | nil =>
    by_cases hcur : cur = []
    · simp [fieldsScan, hcur, List.modifyHead]
    · simp [fieldsScan, hcur, List.modifyHead, List.filter]
  | cons c cs ih =>
    rw [List.map_cons, List.splitOnP_cons]
    unfold fieldsScan
    rw [IsSpace_commaToSpace]
    by_cases hd : isDelimiter c = true
    · have h0 := ih []
      simp only [List.reverse_nil, List.nil_append] at h0
      have hid : (List.splitOnP isDelimiter cs).modifyHead (fun t => t) =
          List.splitOnP isDelimiter cs := by
        cases List.splitOnP isDelimiter cs <;> rfl
      rw [hid] at h0
      by_cases hcur : cur = []
      · simp [hd, hcur, List.modifyHead, List.filter, h0]
      · simp [hd, hcur, List.modifyHead, List.filter, h0]
    · have hns : commaToSpace c = c := by
        by_cases hc : c = ','
        · subst hc
          exact absurd (by decide) hd
        · simp [commaToSpace, hc]
      simp only [hd, Bool.false_eq_true, if_false, hns]
      rw [ih (c :: cur), List.modifyHead_modifyHead]
      congr 3
      funext t
      simp

/-- The fields the program iterates over are the tokens of the text. -/
theorem Fields_Replace_eq_tokens (text : String) :
    Fields (Replace text "," " " (-1)) = tokens text := by
  unfold Fields tokens
  rw [Replace_comma_data, fieldsScan_map]
  congr 2
  cases List.splitOnP isDelimiter text.data <;> simp [List.modifyHead]

theorem tokens_empty : tokens "" = [] := by decide

/-- The program runs its loop over the tokens of the submitted text. -/
theorem processRequest_eq {F : Type} (ParseFloat : String → Option F) (r : Request) :
    processRequest ParseFloat r = processFields ParseFloat [] (tokens (requestText r)) := by
  unfold processRequest requestText
  split
  · simp only [Fields_Replace_eq_tokens]
  · rw [tokens_empty]

/-- The loop appends the value of every token that parses. -/
theorem processFields_append {F : Type} (ParseFloat : String → Option F)
    (pre : List String) (vals acc : List F) (rest : List String)
    (h : pre.map ParseFloat = vals.map some) :
    processFields ParseFloat acc (pre ++ rest) = processFields ParseFloat (acc ++ vals) rest := by
  induction pre generalizing vals acc with
  | nil =>
    cases vals with
    | nil => simp
    | cons v vs => simp at h
  | cons t ts ih =>
    cases vals with
    | nil => simp at h
    | cons v vs =>
      simp only [List.map_cons, List.cons.injEq] at h
      rw [List.cons_append, processFields, h.1]
      simp only
      rw [ih vs (acc ++ [v]) h.2]
      simp

theorem invalid_message_ne_empty (field : String) : "'" ++ field ++ "' is invalid" ≠ "" := by
  intro h
  have := congrArg String.length h
  simp only [String.length_append] at this
  have h1 : "'".length = 1 := by decide
  have h2 : "".length = 0 := by decide
  omega

/-- The loop leaves a message exactly when one of its fields does not parse. -/
theorem processFields_message {F : Type} (ParseFloat : String → Option F)
    (acc : List F) (fields : List String) :
    (processFields ParseFloat acc fields).2.1 ≠ "" ↔ ∃ t ∈ fields, ParseFloat t = none := by
  induction fields generalizing acc with
  | nil =>
    unfold processFields
    split <;> simp
  | cons t ts ih =>
    unfold processFields
    cases hp : ParseFloat t with
    | none =>
      simp only [List.mem_cons, ne_eq]
      exact ⟨fun _ => ⟨t, Or.inl rfl, hp⟩, fun _ => invalid_message_ne_empty t⟩
    | some x =>
      simp only [List.mem_cons]
      rw [ih]
      constructor
      · rintro ⟨u, hu, hnone⟩
        exact ⟨u, Or.inr hu, hnone⟩
      · rintro ⟨u, hu | hu, hnone⟩
        · rw [hu, hp] at hnone
          cases hnone
        · exact ⟨u, hu, hnone⟩

/-- A text made of delimiters only has no token. -/
theorem tokens_of_delimiters (text : String) (h : ∀ c ∈ text.data, isDelimiter c = true) :
    tokens text = [] := by
  unfold tokens
  have key : ∀ l : List Char, (∀ c ∈ l, isDelimiter c = true) →
      (l.splitOnP isDelimiter).filter (fun t => t ≠ []) = [] := by
    intro l
    induction l with
    | nil => intro _; simp [List.filter]
    | cons c cs ih =>
      intro hl
      rw [List.splitOnP_cons, if_pos (hl c (List.mem_cons_self c cs))]
      simp only [List.filter, ne_eq, not_true_eq_false, decide_False]
      exact ih (fun d hd => hl d (List.mem_cons_of_mem c hd))
  rw [key text.data h]
  rfl

end Parser

/-! ## Lemmas on the statistics engine -/

section Engine

variable {α : Type}

theorem insertSorted_perm [LinearOrder α] (x : α) (l : List α) :
    (insertSorted x l).Perm (x :: l) := by
  induction l with
  | nil => exact List.Perm.refl _
  | cons y ys ih =>
    unfold insertSorted
    split
    · exact List.Perm.refl _
    · exact (List.Perm.cons y ih).trans (List.Perm.swap x y ys)

theorem Float64s_perm [LinearOrder α] (l : List α) : (Float64s l).Perm l := by
  induction l with
  | nil => exact List.Perm.refl _
  | cons x xs ih =>
    exact (insertSorted_perm x (Float64s xs)).trans (List.Perm.cons x ih)

theorem insertSorted_sorted [LinearOrder α] (x : α) (l : List α)
    (h : l.Sorted (· ≤ ·)) : (insertSorted x l).Sorted (· ≤ ·) := by
  induction l with
  | nil => simp [insertSorted]
  | cons y ys ih =>
    unfold insertSorted
    split
    · rename_i hxy
      refine List.sorted_cons.mpr ⟨?_, h⟩
      intro b hb
      rcases List.mem_cons.mp hb with rfl | hb
      · exact hxy
      · exact le_trans hxy (List.rel_of_sorted_cons h b hb)
    · rename_i hxy
      refine List.sorted_cons.mpr ⟨?_, ih (List.Sorted.of_cons h)⟩
      intro b hb
      rcases List.mem_cons.mp ((insertSorted_perm x ys).subset hb) with rfl | hb
      · exact le_of_lt (not_le.mp hxy)
      · exact List.rel_of_sorted_cons h b hb

theorem Float64s_sorted [LinearOrder α] (l : List α) : (Float64s l).Sorted (· ≤ ·) := by
  induction l with
  | nil => simp [Float64s]
  | cons x xs ih => exact insertSorted_sorted x _ ih

/-- An ascending list is left as it is by the sort. -/
theorem Float64s_of_sorted [LinearOrder α] (l : List α) (h : l.Sorted (· ≤ ·)) :
    Float64s l = l :=
  List.eq_of_perm_of_sorted (Float64s_perm l) (Float64s_sorted l) h

/-- The ascending arrangement of a list is unique. -/
theorem Float64s_eq_of_perm [LinearOrder α] (xs s : List α) (hs : s.Sorted (· ≤ ·))
    (hp : s.Perm xs) : Float64s xs = s :=
  List.eq_of_perm_of_sorted ((Float64s_perm xs).trans hp.symm) (Float64s_sorted xs) hs

theorem Float64s_length [LinearOrder α] (l : List α) : (Float64s l).length = l.length :=
  (Float64s_perm l).length_eq

theorem foldl_add_map [Field α] (f : α → α) (l : List α) (a : α) :
    l.foldl (fun s x => s + f x) a = a + (l.map f).sum := by
  induction l generalizing a with
  | nil => simp
  | cons x xs ih => simp [ih, add_assoc]

/-- The accumulation loop of `sum` computes the sum of the list. -/
theorem sum_eq [Field α] (l : List α) : sum l = l.sum := by
  have h := foldl_add_map (fun x : α => x) l 0
  simpa [sum] using h

theorem sum_Float64s [LinearOrderedField α] (l : List α) : sum (Float64s l) = l.sum := by
  rw [sum_eq]
  exact (Float64s_perm l).sum_eq

/-- On a non-empty slice `median` does not panic. -/
theorem median_isSome [Field α] (l : List α) (h : l ≠ []) : ∃ m, median l = some m := by
  have hlen : 0 < l.length := List.length_pos.mpr h
  have hmid : l.length / 2 < l.length := Nat.div_lt_self hlen (by decide)
  unfold median
  simp only [List.getElem?_eq_getElem hmid]
  by_cases hpar : l.length % 2 = 0
  · have hpos : l.length / 2 ≠ 0 := by omega
    have hprev : l.length / 2 - 1 < l.length := by omega
    simp [hpar, hpos, List.getElem?_eq_getElem hprev]
  · simp [hpar]

/-- The result of `getStats` on a non-empty list, field by field. -/
theorem getStats_eq [LinearOrderedField α] (Sqrt : α → α) (xs : List α) (h : xs ≠ []) :
    ∃ m, median (Float64s xs) = some m ∧
      getStats Sqrt xs = some
        { numbers := Float64s xs
          mean := sum (Float64s xs) / ((Float64s xs).length : α)
          median := m
          σ := σ Sqrt (Float64s xs) } := by
  have hne : Float64s xs ≠ [] := by
    intro h0
    have := Float64s_length xs
    rw [h0] at this
    exact h (List.length_eq_zero.mp this.symm)
  obtain ⟨m, hm⟩ := median_isSome (Float64s xs) hne
  exact ⟨m, hm, by simp [getStats, hm]⟩

theorem getStats_nil [LinearOrderedField α] (Sqrt : α → α) :
    getStats Sqrt ([] : List α) = none := by
  simp [getStats, Float64s, median]

end Engine

/-! ## The request parser: claims -/

section ParserClaims

/-- Tokens that all parse have a list of values, one for each token. -/
theorem exists_values {F : Type} (ParseFloat : String → Option F) (toks : List String)
    (h : ∀ t ∈ toks, (ParseFloat t).isSome = true) :
    ∃ vals : List F, toks.map ParseFloat = vals.map some := by
  induction toks with
  | nil => exact ⟨[], rfl⟩
  | cons t ts ih =>
    obtain ⟨vs, hvs⟩ := ih (fun u hu => h u (List.mem_cons_of_mem t hu))
    obtain ⟨v, hv⟩ := Option.isSome_iff_exists.mp (h t (List.mem_cons_self t ts))
    exact ⟨v :: vs, by simp [hv, hvs]⟩

/-- The result of the loop when a field fails to parse after fields that all
parse. -/
theorem processFields_invalid {F : Type} (ParseFloat : String → Option F)
    (pre : List String) (t : String) (post : List String) (vals : List F)
    (hpre : pre.map ParseFloat = vals.map some) (ht : ParseFloat t = none) :
    processFields ParseFloat [] (pre ++ t :: post) = (vals, "'" ++ t ++ "' is invalid", false) := by
  rw [processFields_append ParseFloat pre vals [] (t :: post) hpre, processFields, ht]
  simp

/-- C1: for every request text with at least one token in which every token
parses as a number, `processRequest` returns ok = true, the empty message and
a number list that has one element for each token, the i-th element being the
parsed value of the i-th token; the tokens are the maximal runs of characters
that are neither white space nor commas. -/
theorem processRequest_all_valid {F : Type} (ParseFloat : String → Option F) (r : Request)
    (hne : tokens (requestText r) ≠ [])
    (hall : ∀ t ∈ tokens (requestText r), (ParseFloat t).isSome = true) :
    ∃ vals : List F,
      processRequest ParseFloat r = (vals, "", true) ∧
      vals.length = (tokens (requestText r)).length ∧
      ∀ (i : Nat) (t : String), (tokens (requestText r))[i]? = some t →
        vals[i]? = ParseFloat t := by
  obtain ⟨vals, hvals⟩ := exists_values ParseFloat _ hall
  have hlen : vals.length = (tokens (requestText r)).length := by
    have := congrArg List.length hvals
    simpa using this.symm
  refine ⟨vals, ?_, hlen, ?_⟩
  · rw [processRequest_eq]
    have h := processFields_append ParseFloat (tokens (requestText r)) vals [] [] hvals
    rw [List.append_nil, List.nil_append] at h
    rw [h, processFields]
    have hpos : vals.length ≠ 0 := by
      rw [hlen]
      exact fun h0 => hne (List.length_eq_zero.mp h0)
    simp [hpos]
  · intro i t hi
    have h := congrArg (fun l => l[i]?) hvals
    simp only [List.getElem?_map, hi, Option.map_some'] at h
    cases hv : vals[i]? with
    | none => rw [hv] at h; cases h
    | some v => rw [hv] at h; simpa using h.symm

/-- C1, on the text "1, 2, 3, 4, 5": five tokens, five numbers. -/
theorem processRequest_all_valid_witness :
    tokens (requestText (formRequest "1, 2, 3, 4, 5")) = ["1", "2", "3", "4", "5"] ∧
    processRequest ParseFloat (formRequest "1, 2, 3, 4, 5") =
      ([Float64.num 1, Float64.num 2, Float64.num 3, Float64.num 4, Float64.num 5], "", true) ∧
    ∃ vals : List Float64,
      processRequest ParseFloat (formRequest "1, 2, 3, 4, 5") = (vals, "", true) ∧
      vals.length = (tokens (requestText (formRequest "1, 2, 3, 4, 5"))).length ∧
      ∀ (i : Nat) (t : String),
        (tokens (requestText (formRequest "1, 2, 3, 4, 5")))[i]? = some t →
        vals[i]? = ParseFloat t :=
  ⟨by decide, by decide!,
    processRequest_all_valid ParseFloat (formRequest "1, 2, 3, 4, 5") (by decide) (by decide!)⟩

/-- C2: for every request text with a token that does not parse as a number,
`processRequest` returns ok = false and the message made of a quote, the first
(leftmost) token that fails to parse, verbatim, and "' is invalid". -/
theorem processRequest_first_invalid {F : Type} (ParseFloat : String → Option F) (r : Request)
    (pre : List String) (t : String) (post : List String)
    (htoks : tokens (requestText r) = pre ++ t :: post)
    (hpre : ∀ u ∈ pre, (ParseFloat u).isSome = true)
    (ht : ParseFloat t = none) :
    (processRequest ParseFloat r).2.1 = "'" ++ t ++ "' is invalid" ∧
    (processRequest ParseFloat r).2.2 = false := by
  obtain ⟨vals, hvals⟩ := exists_values ParseFloat pre hpre
  rw [processRequest_eq, htoks, processFields_invalid ParseFloat pre t post vals hvals ht]
  exact ⟨rfl, rfl⟩

/-- C2, on the texts "1 2 abc" and "10 20 thirty". -/
theorem processRequest_first_invalid_witness :
    ((processRequest ParseFloat (formRequest "1 2 abc")).2.1 = "'abc' is invalid" ∧
      (processRequest ParseFloat (formRequest "1 2 abc")).2.2 = false) ∧
    ((processRequest ParseFloat (formRequest "10 20 thirty")).2.1 = "'thirty' is invalid" ∧
      (processRequest ParseFloat (formRequest "10 20 thirty")).2.2 = false) :=
  ⟨processRequest_first_invalid ParseFloat (formRequest "1 2 abc") ["1", "2"] "abc" []
      (by decide) (by decide!) (by decide),
    processRequest_first_invalid ParseFloat (formRequest "10 20 thirty") ["10", "20"] "thirty" []
      (by decide) (by decide!) (by decide)⟩

/-- C3, as stated, fails: on the text "1 2 abc", whose token "abc" does not
parse, the list returned with the error message is `[1, 2]`, not the empty
list. -/
theorem processRequest_partial_counterexample :
    (∃ t ∈ tokens (requestText (formRequest "1 2 abc")), ParseFloat t = none) ∧
    (processRequest ParseFloat (formRequest "1 2 abc")).1 = [Float64.num 1, Float64.num 2] ∧
    (processRequest ParseFloat (formRequest "1 2 abc")).1 ≠ [] :=
  ⟨⟨"abc", by decide, by decide⟩, by decide!, by decide!⟩

/-- C3, amended: when `processRequest` fails on an invalid token, ok is false
and the number list returned with the error message holds the parsed values of
the tokens before the first invalid one, in order; it is empty exactly when no
token comes before the first invalid one. -/
theorem processRequest_invalid_numbers {F : Type} (ParseFloat : String → Option F) (r : Request)
    (pre : List String) (t : String) (post : List String)
    (htoks : tokens (requestText r) = pre ++ t :: post)
    (hpre : ∀ u ∈ pre, (ParseFloat u).isSome = true)
    (ht : ParseFloat t = none) :
    (processRequest ParseFloat r).2.2 = false ∧
    (processRequest ParseFloat r).1.map some = pre.map ParseFloat ∧
    ((processRequest ParseFloat r).1 = [] ↔ pre = []) := by
  obtain ⟨vals, hvals⟩ := exists_values ParseFloat pre hpre
  rw [processRequest_eq, htoks, processFields_invalid ParseFloat pre t post vals hvals ht]
  refine ⟨rfl, hvals.symm, ?_⟩
  constructor
  · intro h
    have h1 : vals = [] := h
    rw [h1] at hvals
    exact List.map_eq_nil_iff.mp hvals
  · intro h
    rw [h] at hvals
    exact List.map_eq_nil_iff.mp hvals.symm

/-- C3 amended, on the text "1 2 abc". -/
theorem processRequest_invalid_numbers_witness :
    (processRequest ParseFloat (formRequest "1 2 abc")).2.2 = false ∧
    (processRequest ParseFloat (formRequest "1 2 abc")).1.map some =
      ["1", "2"].map ParseFloat ∧
    ((processRequest ParseFloat (formRequest "1 2 abc")).1 = [] ↔ ["1", "2"] = []) :=
  processRequest_invalid_numbers ParseFloat (formRequest "1 2 abc") ["1", "2"] "abc" []
    (by decide) (by decide!) (by decide)

/-- C4: a request whose "numbers" field is absent, has no value, or has a
text without tokens (empty, or white space and commas only) gets the no-data
state: the empty list, the empty message and ok = false; and the message of
`processRequest` is non-empty if and only if some token fails to parse, so the
no-data state is told apart from a parse failure. -/
theorem processRequest_no_data {F : Type} (ParseFloat : String → Option F) (r : Request) :
    (r.Form "numbers" = none → processRequest ParseFloat r = ([], "", false)) ∧
    (r.Form "numbers" = some [] → processRequest ParseFloat r = ([], "", false)) ∧
    (requestText r = "" → processRequest ParseFloat r = ([], "", false)) ∧
    ((∀ c ∈ (requestText r).data, isDelimiter c = true) →
      processRequest ParseFloat r = ([], "", false)) ∧
    (tokens (requestText r) = [] → processRequest ParseFloat r = ([], "", false)) ∧
    ((processRequest ParseFloat r).2.1 ≠ "" ↔
      ∃ t ∈ tokens (requestText r), ParseFloat t = none) := by
  have hnone : tokens (requestText r) = [] → processRequest ParseFloat r = ([], "", false) := by
    intro h
    rw [processRequest_eq, h]
    rfl
  refine ⟨?_, ?_, ?_, ?_, hnone, ?_⟩
  · intro h
    apply hnone
    simp only [requestText, h]
    exact tokens_empty
  · intro h
    apply hnone
    simp only [requestText, h]
    exact tokens_empty
  · intro h
    apply hnone
    rw [h]
    exact tokens_empty
  · intro h
    exact hnone (tokens_of_delimiters _ h)
  · rw [processRequest_eq]
    exact processFields_message ParseFloat [] _

/-- C4, on a request without the field and on the texts "" and " , ,  ". -/
theorem processRequest_no_data_witness :
    processRequest ParseFloat ⟨fun _ => none⟩ = ([], "", false) ∧
    processRequest ParseFloat (formRequest "") = ([], "", false) ∧
    processRequest ParseFloat (formRequest " , ,  ") = ([], "", false) :=
  ⟨(processRequest_no_data ParseFloat ⟨fun _ => none⟩).1 rfl,
    (processRequest_no_data ParseFloat (formRequest "")).2.2.1 (by decide),
    (processRequest_no_data ParseFloat (formRequest " , ,  ")).2.2.2.1 (by decide)⟩

end ParserClaims

/-! ## The statistics engine: claims -/

section EngineClaims

variable {α : Type}

/-- C5: for every list on which `getStats` returns (it does on every non-empty
list), the numbers field of the result is in ascending order and is a
permutation of the input, duplicates kept, so the displayed count
`len(stats.numbers)` is the length of the input. -/
theorem getStats_numbers [LinearOrderedField α] (Sqrt : α → α) (xs : List α) :
    (xs ≠ [] → ∃ st, getStats Sqrt xs = some st) ∧
    ∀ st, getStats Sqrt xs = some st →
      st.numbers.Sorted (· ≤ ·) ∧ st.numbers.Perm xs ∧
      (∀ x, st.numbers.count x = xs.count x) ∧ st.numbers.length = xs.length := by
  constructor
  · intro hne
    obtain ⟨m, _, h⟩ := getStats_eq Sqrt xs hne
    exact ⟨_, h⟩
  · intro st hst
    have hne : xs ≠ [] := by
      rintro rfl
      rw [getStats_nil] at hst
      cases hst
    obtain ⟨m, _, h⟩ := getStats_eq Sqrt xs hne
    rw [h] at hst
    cases hst
    exact ⟨Float64s_sorted xs, Float64s_perm xs, fun x => (Float64s_perm xs).count_eq x,
      Float64s_length xs⟩

/-- C5, on the list `[3, 1, 2, 1]`. -/
theorem getStats_numbers_witness :
    ∃ st, getStats id ([3, 1, 2, 1] : List ℚ) = some st ∧ st.numbers = [1, 1, 2, 3] ∧
      st.numbers.Sorted (· ≤ ·) ∧ st.numbers.Perm [3, 1, 2, 1] ∧ st.numbers.length = 4 := by
  obtain ⟨st, hst⟩ := (getStats_numbers id ([3, 1, 2, 1] : List ℚ)).1 (by simp)
  obtain ⟨h1, h2, _, h4⟩ := (getStats_numbers id ([3, 1, 2, 1] : List ℚ)).2 st hst
  refine ⟨st, hst, ?_, h1, h2, h4⟩
  have h : getStats id ([3, 1, 2, 1] : List ℚ) = some ⟨[1, 1, 2, 3], 7 / 4, 3 / 2, 11 / 12⟩ := by
    decide!
  rw [h] at hst
  cases hst
  rfl

/-- C6: for every non-empty list, the mean field of `getStats` is the sum of
the elements divided by their number, hence mean * count is the sum. -/
theorem getStats_mean [LinearOrderedField α] (Sqrt : α → α) (xs : List α) (hne : xs ≠ []) :
    ∃ st, getStats Sqrt xs = some st ∧
      st.mean = xs.sum / (xs.length : α) ∧
      st.mean * (st.numbers.length : α) = xs.sum := by
  obtain ⟨m, _, h⟩ := getStats_eq Sqrt xs hne
  refine ⟨_, h, ?_, ?_⟩
  · simp only [sum_Float64s, Float64s_length]
  · simp only [sum_Float64s, Float64s_length]
    have hpos : (xs.length : α) ≠ 0 :=
      Nat.cast_ne_zero.mpr (fun h0 => hne (List.length_eq_zero.mp h0))
    field_simp

/-- C6, on the list `[2, 4, 4, 4, 5, 5, 7, 9]`: the mean is 5. -/
theorem getStats_mean_witness :
    ∃ st, getStats id ([2, 4, 4, 4, 5, 5, 7, 9] : List ℚ) = some st ∧ st.mean = 5 ∧
      st.mean * (st.numbers.length : ℚ) = 40 := by
  obtain ⟨st, hst, hmean, hprod⟩ :=
    getStats_mean id ([2, 4, 4, 4, 5, 5, 7, 9] : List ℚ) (by simp)
  refine ⟨st, hst, ?_, ?_⟩
  · rw [hmean]
    norm_num
  · rw [hprod]
    norm_num

/-- C7: for every non-empty list `xs` with ascending arrangement `s`, length
`n` and `mid = n / 2`, the median field of `getStats xs` is `s[mid]` when `n`
is odd and `(s[mid] + s[mid-1]) / 2` when `n` is even. -/
theorem getStats_median [LinearOrderedField α] (Sqrt : α → α) (xs s : List α) (hne : xs ≠ [])
    (hs : s.Sorted (· ≤ ·)) (hp : s.Perm xs) :
    ∃ st, getStats Sqrt xs = some st ∧
      (xs.length % 2 = 1 → s[xs.length / 2]? = some st.median) ∧
      (xs.length % 2 = 0 → ∃ a b, s[xs.length / 2]? = some a ∧
        s[xs.length / 2 - 1]? = some b ∧ st.median = (a + b) / 2) := by
  obtain ⟨m, hm, h⟩ := getStats_eq Sqrt xs hne
  rw [Float64s_eq_of_perm xs s hs hp] at hm h
  have hlen : s.length = xs.length := hp.length_eq
  have hpos : 0 < s.length := by
    rw [hlen]
    exact List.length_pos.mpr hne
  have hmid : s.length / 2 < s.length := Nat.div_lt_self hpos (by decide)
  refine ⟨_, h, ?_, ?_⟩
  · intro hodd
    rw [← hlen] at hodd ⊢
    unfold median at hm
    simp only [List.getElem?_eq_getElem hmid] at hm
    have hpar : ¬ s.length % 2 = 0 := by omega
    simp only [hpar, if_false] at hm
    cases hm
    exact List.getElem?_eq_getElem hmid
  · intro heven
    rw [← hlen] at heven ⊢
    have hnz : s.length / 2 ≠ 0 := by omega
    have hprev : s.length / 2 - 1 < s.length := by omega
    unfold median at hm
    simp only [List.getElem?_eq_getElem hmid, List.getElem?_eq_getElem hprev, heven, hnz,
      if_true, if_false] at hm
    cases hm
    exact ⟨_, _, List.getElem?_eq_getElem hmid, List.getElem?_eq_getElem hprev, rfl⟩

/-- C7, on the lists `[3, 1, 2]` (median 2) and `[1, 2, 3, 4]` (median 2.5). -/
theorem getStats_median_witness :
    (∃ st, getStats id ([3, 1, 2] : List ℚ) = some st ∧ st.median = 2) ∧
    (∃ st, getStats id ([1, 2, 3, 4] : List ℚ) = some st ∧ st.median = 5 / 2) := by
  constructor
  · obtain ⟨st, hst, hodd, _⟩ :=
      getStats_median id ([3, 1, 2] : List ℚ) [1, 2, 3] (by simp) (by decide!) (by decide!)
    refine ⟨st, hst, ?_⟩
    have h := hodd (by decide)
    simpa using h.symm
  · obtain ⟨st, hst, _, heven⟩ :=
      getStats_median id ([1, 2, 3, 4] : List ℚ) [1, 2, 3, 4] (by simp) (by decide!) (by decide!)
    refine ⟨st, hst, ?_⟩
    obtain ⟨a, b, ha, hb, hmed⟩ := heven (by decide)
    have ha2 : a = 3 := by simpa using ha.symm
    have hb2 : b = 2 := by simpa using hb.symm
    rw [hmed, ha2, hb2]
    norm_num

/-- The value of `σ` on a list of at least two real numbers: the square root
of the sum of the squared deviations from the mean over `n - 1`. -/
theorem σ_eq_sqrt (l : List ℝ) (h : 2 ≤ l.length) :
    σ Real.sqrt l =
      Real.sqrt ((l.map (fun x => (x - l.sum / (l.length : ℝ)) ^ 2)).sum /
        ((l.length : ℝ) - 1)) := by
  unfold σ
  have hlt : ¬ l.length < 2 := by omega
  simp only [hlt, if_false]
  rw [sum_eq, foldl_add_map (fun x => (x - l.sum / (l.length : ℝ)) * (x - l.sum / (l.length : ℝ))),
    zero_add, Nat.cast_sub (by omega : 1 ≤ l.length), Nat.cast_one]
  congr 3
  apply List.map_congr_left
  intro x _
  ring

/-- C8: for every list of `n ≥ 2` real numbers with mean `m`, the σ field of
`getStats` (with the exact square root) is the sample standard deviation with
Bessel's correction: it is non-negative and its square is the sum of the
`(x - m)²` divided by `n - 1`. -/
theorem getStats_σ (xs : List ℝ) (h : 2 ≤ xs.length) :
    ∃ st, getStats Real.sqrt xs = some st ∧ 0 ≤ st.σ ∧
      st.σ ^ 2 =
        (xs.map (fun x => (x - xs.sum / (xs.length : ℝ)) ^ 2)).sum / ((xs.length : ℝ) - 1) := by
  have hne : xs ≠ [] := by
    rintro rfl
    simp at h
  obtain ⟨m, _, hst⟩ := getStats_eq Real.sqrt xs hne
  refine ⟨_, hst, ?_, ?_⟩
  · show 0 ≤ σ Real.sqrt (Float64s xs)
    rw [σ_eq_sqrt _ (by rw [Float64s_length]; exact h)]
    exact Real.sqrt_nonneg _
  · show (σ Real.sqrt (Float64s xs)) ^ 2 = _
    rw [σ_eq_sqrt _ (by rw [Float64s_length]; exact h), Float64s_length,
      (Float64s_perm xs).sum_eq,
      ((Float64s_perm xs).map (fun x => (x - xs.sum / (xs.length : ℝ)) ^ 2)).sum_eq]
    apply Real.sq_sqrt
    apply div_nonneg
    · apply List.sum_nonneg
      intro y hy
      obtain ⟨x, _, rfl⟩ := List.mem_map.mp hy
      exact sq_nonneg _
    · have : (2 : ℝ) ≤ (xs.length : ℝ) := by exact_mod_cast h
      linarith

/-- C8, on the lists `[2, 4, 4, 4, 5, 5, 7, 9]` (σ² = 32/7) and
`[1, 2, 3, 4, 5]` (σ² = 5/2). -/
theorem getStats_σ_witness :
    (∃ st, getStats Real.sqrt [2, 4, 4, 4, 5, 5, 7, 9] = some st ∧ 0 ≤ st.σ ∧
      st.σ ^ 2 = 32 / 7) ∧
    (∃ st, getStats Real.sqrt [1, 2, 3, 4, 5] = some st ∧ 0 ≤ st.σ ∧ st.σ ^ 2 = 5 / 2) := by
  constructor
  · obtain ⟨st, hst, hpos, hsq⟩ := getStats_σ [2, 4, 4, 4, 5, 5, 7, 9] (by simp)
    refine ⟨st, hst, hpos, ?_⟩
    rw [hsq]
    norm_num
  · obtain ⟨st, hst, hpos, hsq⟩ := getStats_σ [1, 2, 3, 4, 5] (by simp)
    refine ⟨st, hst, hpos, ?_⟩
    rw [hsq]
    norm_num

/-- C9: σ returns 0 on every list with fewer than two elements, and for every
one-element list `[x]` the result of `getStats` has numbers `[x]`, mean `x`,
median `x` and σ 0. -/
theorem getStats_singleton [LinearOrderedField α] (Sqrt : α → α) :
    (∀ xs : List α, xs.length < 2 → σ Sqrt xs = 0) ∧
    ∀ x : α, getStats Sqrt [x] = some { numbers := [x], mean := x, median := x, σ := 0 } := by
  constructor
  · intro xs h
    simp [σ, h]
  · intro x
    simp [getStats, Float64s, insertSorted, median, σ, sum]

/-- C9, on the list `[5]`. -/
theorem getStats_singleton_witness :
    σ id ([] : List ℚ) = 0 ∧ σ id ([5] : List ℚ) = 0 ∧
    getStats id ([5] : List ℚ) = some { numbers := [5], mean := 5, median := 5, σ := 0 } :=
  ⟨(getStats_singleton id).1 [] (by decide), (getStats_singleton id).1 [5] (by decide),
    (getStats_singleton id).2 5⟩

/-- C10: `getStats` is idempotent: for every non-empty list, applying
`getStats` to the list left by a first call (the sorted numbers of its result)
returns the same numbers, mean, median and σ. -/
theorem getStats_idempotent [LinearOrderedField α] (Sqrt : α → α) (xs : List α)
    (hne : xs ≠ []) :
    ∃ st, getStats Sqrt xs = some st ∧ getStats Sqrt st.numbers = some st := by
  obtain ⟨m, hm, h⟩ := getStats_eq Sqrt xs hne
  refine ⟨_, h, ?_⟩
  show getStats Sqrt (Float64s xs) = _
  have hfix : Float64s (Float64s xs) = Float64s xs := Float64s_of_sorted _ (Float64s_sorted xs)
  simp only [getStats, hfix, hm]

/-- C10, on the list `[3, 1, 2]`. -/
theorem getStats_idempotent_witness :
    ∃ st, getStats id ([3, 1, 2] : List ℚ) = some st ∧ getStats id st.numbers = some st :=
  getStats_idempotent id ([3, 1, 2] : List ℚ) (by simp)

/-- C11: the order of the input is irrelevant: for every non-empty list and
every permutation of it, `getStats` returns the same numbers, mean, median and
σ on both. -/
theorem getStats_perm [LinearOrderedField α] (Sqrt : α → α) (xs ys : List α)
    (hne : xs ≠ []) (hp : ys.Perm xs) :
    ∃ st, getStats Sqrt xs = some st ∧ getStats Sqrt ys = some st := by
  obtain ⟨m, _, h⟩ := getStats_eq Sqrt xs hne
  refine ⟨_, h, ?_⟩
  have hsort : Float64s ys = Float64s xs :=
    Float64s_eq_of_perm ys (Float64s xs) (Float64s_sorted xs) ((Float64s_perm xs).trans hp.symm)
  rw [← h]
  simp only [getStats, hsort]

/-- C11, on the list `[3, 1, 2]` and its permutation `[2, 3, 1]`. -/
theorem getStats_perm_witness :
    ∃ st, getStats id ([3, 1, 2] : List ℚ) = some st ∧
      getStats id ([2, 3, 1] : List ℚ) = some st :=
  getStats_perm id ([3, 1, 2] : List ℚ) [2, 3, 1] (by simp) (by decide!)

end EngineClaims

/-! ## The page: claims -/

section PageClaims

variable {α : Type}

/-- When `processRequest` reports success its list is not empty. -/
theorem processFields_ok {F : Type} (ParseFloat : String → Option F) (acc : List F)
    (fields : List String) (h : (processFields ParseFloat acc fields).2.2 = true) :
    (processFields ParseFloat acc fields).1 ≠ [] := by
  induction fields generalizing acc with
  | nil =>
    unfold processFields at h ⊢
    by_cases h0 : acc.length = 0
    · simp [h0] at h
    · rw [if_neg h0]
      intro h1
      exact h0 (congrArg List.length h1)
  | cons t ts ih =>
    unfold processFields at h ⊢
    cases hp : ParseFloat t with
    | none => simp [hp] at h
    | some x =>
      simp only [hp] at h ⊢
      exact ih _ h

theorem homePage_of_result [LinearOrderedField α] (ParseFloat : String → Option α)
    (Sqrt : α → α) (fmtV : List α → String) (fmtF : α → String) (r : Request)
    (numbers : List α) (message : String) (ok : Bool)
    (h : processRequest ParseFloat r = (numbers, message, ok)) :
    homePage ParseFloat Sqrt fmtV fmtF none r =
      if ok then
        match getStats Sqrt numbers with
        | none => none
        | some stats => some (pageTop ++ form ++ formatStats fmtV fmtF stats ++ pageBottom)
      else if message ≠ "" then some (pageTop ++ form ++ anError message ++ pageBottom)
      else some (pageTop ++ form ++ pageBottom) := by
  simp only [homePage, h]

/-- C12: on every non-empty list `getStats` completes: the accesses
`numbers[middle]` and, for an even length, `numbers[middle-1]` of `median` are
within bounds; `processRequest` returns ok = true only with a non-empty list,
and `homePage`, which calls `getStats` only then, never panics. -/
theorem homePage_no_panic [LinearOrderedField α] (ParseFloat : String → Option α)
    (Sqrt : α → α) (fmtV : List α → String) (fmtF : α → String) :
    (∀ xs : List α, xs ≠ [] →
      ∃ st, getStats Sqrt xs = some st ∧
        (∃ x, st.numbers[st.numbers.length / 2]? = some x) ∧
        (st.numbers.length % 2 = 0 → 1 ≤ st.numbers.length / 2 ∧
          ∃ y, st.numbers[st.numbers.length / 2 - 1]? = some y)) ∧
    (∀ l : List α, l ≠ [] → ∃ m, median l = some m) ∧
    (∀ r : Request, (processRequest ParseFloat r).2.2 = true →
      (processRequest ParseFloat r).1 ≠ []) ∧
    (∀ (err : Option String) (r : Request),
      ∃ page, homePage ParseFloat Sqrt fmtV fmtF err r = some page) := by
  have hok : ∀ r : Request, (processRequest ParseFloat r).2.2 = true →
      (processRequest ParseFloat r).1 ≠ [] := by
    intro r h
    rw [processRequest_eq] at h ⊢
    exact processFields_ok ParseFloat [] _ h
  refine ⟨?_, median_isSome, hok, ?_⟩
  · intro xs hne
    obtain ⟨m, _, h⟩ := getStats_eq Sqrt xs hne
    refine ⟨_, h, ?_⟩
    show (∃ x, (Float64s xs)[(Float64s xs).length / 2]? = some x) ∧
      ((Float64s xs).length % 2 = 0 → 1 ≤ (Float64s xs).length / 2 ∧
        ∃ y, (Float64s xs)[(Float64s xs).length / 2 - 1]? = some y)
    have hpos : 0 < (Float64s xs).length := by
      rw [Float64s_length]
      exact List.length_pos.mpr hne
    have hmid : (Float64s xs).length / 2 < (Float64s xs).length :=
      Nat.div_lt_self hpos (by decide)
    refine ⟨⟨_, List.getElem?_eq_getElem hmid⟩, ?_⟩
    intro heven
    have hprev : (Float64s xs).length / 2 - 1 < (Float64s xs).length := by omega
    exact ⟨by omega, _, List.getElem?_eq_getElem hprev⟩
  · intro err r
    cases err with
    | some e => exact ⟨_, rfl⟩
    | none =>
      have hres : processRequest ParseFloat r =
          ((processRequest ParseFloat r).1, (processRequest ParseFloat r).2.1,
            (processRequest ParseFloat r).2.2) := rfl
      rw [homePage_of_result ParseFloat Sqrt fmtV fmtF r _ _ _ hres]
      by_cases hb : (processRequest ParseFloat r).2.2 = true
      · obtain ⟨m, _, h⟩ := getStats_eq Sqrt _ (hok r hb)
        rw [if_pos hb, h]
        exact ⟨_, rfl⟩
      · rw [if_neg hb]
        by_cases hm : (processRequest ParseFloat r).2.1 ≠ ""
        · rw [if_pos hm]
          exact ⟨_, rfl⟩
        · rw [if_neg hm]
          exact ⟨_, rfl⟩

/-- C12, on the list `[3, 1, 2, 4]` and the request text "3 1 2 4". -/
theorem homePage_no_panic_witness :
    (∃ st, getStats id ([3, 1, 2, 4] : List ℚ) = some st ∧
        (∃ x, st.numbers[st.numbers.length / 2]? = some x) ∧
        (st.numbers.length % 2 = 0 → 1 ≤ st.numbers.length / 2 ∧
          ∃ y, st.numbers[st.numbers.length / 2 - 1]? = some y)) ∧
    (processRequest ParseRat (formRequest "3 1 2 4")).1 ≠ [] ∧
    ∃ page, homePage ParseRat id (fmtSlice fmtShortest) fmtFixed none
      (formRequest "3 1 2 4") = some page :=
  ⟨(homePage_no_panic ParseRat id (fmtSlice fmtShortest) fmtFixed).1 [3, 1, 2, 4] (by simp),
    (homePage_no_panic ParseRat id (fmtSlice fmtShortest) fmtFixed).2.2.1
      (formRequest "3 1 2 4") (by decide!),
    (homePage_no_panic ParseRat id (fmtSlice fmtShortest) fmtFixed).2.2.2 none
      (formRequest "3 1 2 4")⟩

/-- The message of the loop is empty or names a field that does not parse. -/
theorem processFields_message_form {F : Type} (ParseFloat : String → Option F)
    (acc : List F) (fields : List String)
    (h : (processFields ParseFloat acc fields).2.1 ≠ "") :
    ∃ t ∈ fields, ParseFloat t = none ∧
      (processFields ParseFloat acc fields).2.1 = "'" ++ t ++ "' is invalid" := by
  induction fields generalizing acc with
  | nil =>
    unfold processFields at h
    split at h <;> exact absurd rfl h
  | cons t ts ih =>
    unfold processFields at h ⊢
    cases hp : ParseFloat t with
    | none => exact ⟨t, List.mem_cons_self t ts, hp, rfl⟩
    | some x =>
      simp only [hp] at h ⊢
      obtain ⟨u, hu, hnone, hmsg⟩ := ih _ h
      exact ⟨u, List.mem_cons_of_mem t hu, hnone, hmsg⟩

/-- C15: for every request whose form parses, `homePage` writes one of three
pages according to the outcome of `processRequest`: on no data, `pageTop`,
`form` and `pageBottom` with neither results nor error; on a parse failure,
`pageTop`, `form`, the error paragraph with the message that quotes the
invalid token, and `pageBottom`, without statistics; on success `pageTop`,
`form`, `formatStats (getStats numbers)` and `pageBottom`. -/
theorem homePage_pages [LinearOrderedField α] (ParseFloat : String → Option α)
    (Sqrt : α → α) (fmtV : List α → String) (fmtF : α → String) (r : Request)
    (numbers : List α) (message : String) (ok : Bool)
    (h : processRequest ParseFloat r = (numbers, message, ok)) :
    (ok = false → message = "" →
      homePage ParseFloat Sqrt fmtV fmtF none r = some (pageTop ++ form ++ pageBottom)) ∧
    (ok = false → message ≠ "" →
      (∃ t ∈ tokens (requestText r), ParseFloat t = none ∧
        message = "'" ++ t ++ "' is invalid") ∧
      homePage ParseFloat Sqrt fmtV fmtF none r =
        some (pageTop ++ form ++ anError message ++ pageBottom)) ∧
    (ok = true →
      ∃ st, getStats Sqrt numbers = some st ∧
        homePage ParseFloat Sqrt fmtV fmtF none r =
          some (pageTop ++ form ++ formatStats fmtV fmtF st ++ pageBottom)) := by
  have hpage := homePage_of_result ParseFloat Sqrt fmtV fmtF r numbers message ok h
  refine ⟨?_, ?_, ?_⟩
  · intro hok hmsg
    rw [hpage, hok, hmsg]
    simp
  · intro hok hmsg
    constructor
    · have hm : (processRequest ParseFloat r).2.1 = message := by rw [h]
      rw [processRequest_eq] at hm
      have hne : (processFields ParseFloat [] (tokens (requestText r))).2.1 ≠ "" := by
        rw [hm]
        exact hmsg
      obtain ⟨t, ht, hnone, hform⟩ := processFields_message_form ParseFloat [] _ hne
      exact ⟨t, ht, hnone, hm ▸ hform⟩
    · rw [hpage, hok]
      simp [hmsg]
  · intro hok
    have hne : numbers ≠ [] := by
      have h1 : (processRequest ParseFloat r).2.2 = true := by rw [h]; exact hok
      have h2 : (processRequest ParseFloat r).1 = numbers := by rw [h]
      rw [processRequest_eq] at h1 h2
      rw [← h2]
      exact processFields_ok ParseFloat [] _ h1
    obtain ⟨m, _, hst⟩ := getStats_eq Sqrt numbers hne
    refine ⟨_, hst, ?_⟩
    rw [hpage, hok, hst]
    simp

/-- C15, on the request texts "" (no data), "10 20 thirty" (parse failure)
and "1, 2, 3, 4, 5" (success). -/
theorem homePage_pages_witness :
    homePage ParseRat id (fmtSlice fmtShortest) fmtFixed none (formRequest "") =
      some (pageTop ++ form ++ pageBottom) ∧
    homePage ParseRat id (fmtSlice fmtShortest) fmtFixed none (formRequest "10 20 thirty") =
      some (pageTop ++ form ++ anError "'thirty' is invalid" ++ pageBottom) ∧
    ∃ st, getStats id ([1, 2, 3, 4, 5] : List ℚ) = some st ∧
      homePage ParseRat id (fmtSlice fmtShortest) fmtFixed none (formRequest "1, 2, 3, 4, 5") =
        some (pageTop ++ form ++ formatStats (fmtSlice fmtShortest) fmtFixed st ++ pageBottom) :=
  ⟨(homePage_pages ParseRat id (fmtSlice fmtShortest) fmtFixed (formRequest "")
      [] "" false (by decide!)).1 rfl rfl,
    ((homePage_pages ParseRat id (fmtSlice fmtShortest) fmtFixed (formRequest "10 20 thirty")
      [10, 20] "'thirty' is invalid" false (by decide!)).2.1 rfl (by decide)).2,
    (homePage_pages ParseRat id (fmtSlice fmtShortest) fmtFixed (formRequest "1, 2, 3, 4, 5")
      [1, 2, 3, 4, 5] "" true (by decide!)).2.2 rfl⟩

end PageClaims

/-! ## The statistics engine: order properties -/

section OrderClaims

variable {α : Type}

/-- In an ascending list an element is below every later one. -/
theorem sorted_getElem_le [LinearOrder α] (s : List α) (hs : s.Sorted (· ≤ ·)) (i j : Nat)
    (hij : i ≤ j) (hj : j < s.length) :
    s[i]?.getD s[j] ≤ s[j] := by
  have hi : i < s.length := lt_of_le_of_lt hij hj
  rw [List.getElem?_eq_getElem hi, Option.getD_some]
  rcases Nat.eq_or_lt_of_le hij with h | h
  · subst h
    exact le_refl _
  · exact (List.pairwise_iff_getElem.mp hs) i j hi hj h

/-- In an ascending list at least `j + 1` elements are below any bound of the
element of index `j`. -/
theorem countP_le_of_sorted [LinearOrder α] (s : List α) (hs : s.Sorted (· ≤ ·)) (j : Nat)
    (hj : j < s.length) (m : α) (hm : s[j] ≤ m) :
    j + 1 ≤ s.countP (fun x => decide (x ≤ m)) := by
  have hall : (s.take (j + 1)).countP (fun x => decide (x ≤ m)) = (s.take (j + 1)).length := by
    rw [List.countP_eq_length]
    intro a ha
    obtain ⟨i, hi, rfl⟩ := List.mem_take_iff_getElem.mp ha
    have hij : i ≤ j := by
      have := lt_min_iff.mp hi
      omega
    have h1 := sorted_getElem_le s hs i j hij hj
    rw [List.getElem?_eq_getElem (lt_of_le_of_lt hij hj), Option.getD_some] at h1
    exact decide_eq_true (le_trans h1 hm)
  have hlen : (s.take (j + 1)).length = j + 1 := by
    rw [List.length_take]
    omega
  calc j + 1 = (s.take (j + 1)).countP (fun x => decide (x ≤ m)) := by rw [hall, hlen]
    _ ≤ s.countP (fun x => decide (x ≤ m)) := List.Sublist.countP_le _ (List.take_sublist _ s)

/-- In an ascending list at least `length - j` elements are above any lower
bound of the element of index `j`. -/
theorem countP_ge_of_sorted [LinearOrder α] (s : List α) (hs : s.Sorted (· ≤ ·)) (j : Nat)
    (hj : j < s.length) (m : α) (hm : m ≤ s[j]) :
    s.length - j ≤ s.countP (fun x => decide (m ≤ x)) := by
  have hall : (s.drop j).countP (fun x => decide (m ≤ x)) = (s.drop j).length := by
    rw [List.countP_eq_length]
    intro a ha
    obtain ⟨i, hi, rfl⟩ := List.mem_drop_iff_getElem.mp ha
    have hlt : j + i < s.length := by omega
    have h1 := sorted_getElem_le s hs j (j + i) (Nat.le_add_right j i) hlt
    rw [List.getElem?_eq_getElem hj, Option.getD_some] at h1
    exact decide_eq_true (le_trans hm h1)
  calc s.length - j = (s.drop j).countP (fun x => decide (m ≤ x)) := by
        rw [hall, List.length_drop]
    _ ≤ s.countP (fun x => decide (m ≤ x)) := List.Sublist.countP_le _ (List.drop_sublist _ s)

/-- The value of `median` on a non-empty slice, by the parity of its length. -/
theorem median_cases [Field α] (l : List α) (h : l ≠ []) :
    (l.length % 2 = 1 ∧ ∃ (hmid : l.length / 2 < l.length),
      median l = some l[l.length / 2]) ∨
    (l.length % 2 = 0 ∧ 1 ≤ l.length / 2 ∧
      ∃ (hmid : l.length / 2 < l.length) (hprev : l.length / 2 - 1 < l.length),
        median l = some ((l[l.length / 2] + l[l.length / 2 - 1]) / 2)) := by
  have hlen : 0 < l.length := List.length_pos.mpr h
  have hmid : l.length / 2 < l.length := Nat.div_lt_self hlen (by decide)
  by_cases hpar : l.length % 2 = 0
  · right
    have hpos : l.length / 2 ≠ 0 := by omega
    have hprev : l.length / 2 - 1 < l.length := by omega
    refine ⟨hpar, by omega, hmid, hprev, ?_⟩
    unfold median
    simp [hpar, hpos, List.getElem?_eq_getElem hmid, List.getElem?_eq_getElem hprev]
  · left
    refine ⟨by omega, hmid, ?_⟩
    unfold median
    simp [hpar, List.getElem?_eq_getElem hmid]

/-- C16: the median of `getStats` splits the data in half: for every
non-empty list of length `n`, at least `ceil(n/2)` of its elements are at most
the median and at least `ceil(n/2)` are at least the median. -/
theorem median_splits_data [LinearOrderedField α] (Sqrt : α → α) (xs : List α)
    (hne : xs ≠ []) :
    ∃ st, getStats Sqrt xs = some st ∧
      (xs.length + 1) / 2 ≤ xs.countP (fun x => decide (x ≤ st.median)) ∧
      (xs.length + 1) / 2 ≤ xs.countP (fun x => decide (st.median ≤ x)) := by
  obtain ⟨m, hm, h⟩ := getStats_eq Sqrt xs hne
  refine ⟨_, h, ?_⟩
  show (xs.length + 1) / 2 ≤ xs.countP (fun x => decide (x ≤ m)) ∧
    (xs.length + 1) / 2 ≤ xs.countP (fun x => decide (m ≤ x))
  have hs := Float64s_sorted xs
  have hp := Float64s_perm xs
  have hl := Float64s_length xs
  have hsne : Float64s xs ≠ [] := by
    intro h0
    rw [h0] at hl
    exact hne (List.length_eq_zero.mp hl.symm)
  rw [← hp.countP_eq, ← hp.countP_eq, ← hl]
  rcases median_cases (Float64s xs) hsne with ⟨hodd, hmid, hmed⟩ | ⟨heven, hpos, hmid, hprev, hmed⟩
  · rw [hm] at hmed
    cases hmed
    constructor
    · have := countP_le_of_sorted (Float64s xs) hs _ hmid _ (le_refl _)
      omega
    · have := countP_ge_of_sorted (Float64s xs) hs _ hmid _ (le_refl _)
      omega
  · rw [hm] at hmed
    cases hmed
    have hle := sorted_getElem_le (Float64s xs) hs ((Float64s xs).length / 2 - 1)
      ((Float64s xs).length / 2) (Nat.sub_le _ _) hmid
    rw [List.getElem?_eq_getElem hprev, Option.getD_some] at hle
    constructor
    · have := countP_le_of_sorted (Float64s xs) hs _ hprev
        (((Float64s xs)[(Float64s xs).length / 2] +
          (Float64s xs)[(Float64s xs).length / 2 - 1]) / 2) (by linarith)
      omega
    · have := countP_ge_of_sorted (Float64s xs) hs _ hmid
        (((Float64s xs)[(Float64s xs).length / 2] +
          (Float64s xs)[(Float64s xs).length / 2 - 1]) / 2) (by linarith)
      omega

/-- C16, on the list `[4, 1, 3, 2]`, of median 5/2: two elements on each
side. -/
theorem median_splits_data_witness :
    ∃ st, getStats id ([4, 1, 3, 2] : List ℚ) = some st ∧
      2 ≤ ([4, 1, 3, 2] : List ℚ).countP (fun x => decide (x ≤ st.median)) ∧
      2 ≤ ([4, 1, 3, 2] : List ℚ).countP (fun x => decide (st.median ≤ x)) :=
  median_splits_data id ([4, 1, 3, 2] : List ℚ) (by simp)

/-- A sum of non-negative numbers is zero only when all of them are. -/
theorem sum_eq_zero_of_nonneg (l : List ℝ) (hpos : ∀ y ∈ l, 0 ≤ y) (h : l.sum = 0) :
    ∀ y ∈ l, y = 0 := by
  induction l with
  | nil => intro y hy; cases hy
  | cons a as ih =>
    have ha : 0 ≤ a := hpos a (List.mem_cons_self a as)
    have has : 0 ≤ as.sum := List.sum_nonneg (fun y hy => hpos y (List.mem_cons_of_mem a hy))
    rw [List.sum_cons] at h
    intro y hy
    rcases List.mem_cons.mp hy with rfl | hy
    · linarith
    · exact ih (fun z hz => hpos z (List.mem_cons_of_mem a hz)) (by linarith) y hy

/-- The σ field of `getStats` on at least two real numbers, with the sums taken
over the input list. -/
theorem σ_field_eq (xs : List ℝ) (h : 2 ≤ xs.length) :
    ∃ st, getStats Real.sqrt xs = some st ∧
      st.σ = Real.sqrt ((xs.map (fun x => (x - xs.sum / (xs.length : ℝ)) ^ 2)).sum /
        ((xs.length : ℝ) - 1)) := by
  have hne : xs ≠ [] := by
    rintro rfl
    simp at h
  obtain ⟨m, _, hst⟩ := getStats_eq Real.sqrt xs hne
  refine ⟨_, hst, ?_⟩
  show σ Real.sqrt (Float64s xs) = _
  rw [σ_eq_sqrt _ (by rw [Float64s_length]; exact h), Float64s_length,
    (Float64s_perm xs).sum_eq,
    ((Float64s_perm xs).map (fun x => (x - xs.sum / (xs.length : ℝ)) ^ 2)).sum_eq]

/-- C17: for every list of at least two real numbers, the σ of `getStats`
(with the exact square root) is 0 if and only if all elements of the list are
equal. -/
theorem σ_zero_iff_equal (xs : List ℝ) (h : 2 ≤ xs.length) :
    ∃ st, getStats Real.sqrt xs = some st ∧
      (st.σ = 0 ↔ ∀ x ∈ xs, ∀ y ∈ xs, x = y) := by
  obtain ⟨st, hst, hσ⟩ := σ_field_eq xs h
  refine ⟨st, hst, ?_⟩
  have hn : (0 : ℝ) < (xs.length : ℝ) - 1 := by
    have : (2 : ℝ) ≤ (xs.length : ℝ) := by exact_mod_cast h
    linarith
  have hn0 : (xs.length : ℝ) ≠ 0 := by
    have : (2 : ℝ) ≤ (xs.length : ℝ) := by exact_mod_cast h
    linarith
  have hnonneg : ∀ y ∈ xs.map (fun x => (x - xs.sum / (xs.length : ℝ)) ^ 2), 0 ≤ y := by
    intro y hy
    obtain ⟨x, _, rfl⟩ := List.mem_map.mp hy
    exact sq_nonneg _
  rw [hσ, Real.sqrt_eq_zero']
  constructor
  · intro hle
    have hsum : (xs.map (fun x => (x - xs.sum / (xs.length : ℝ)) ^ 2)).sum = 0 := by
      have h1 := List.sum_nonneg hnonneg
      have h2 : (xs.map (fun x => (x - xs.sum / (xs.length : ℝ)) ^ 2)).sum ≤ 0 := by
        by_contra hc
        exact absurd hle (not_le.mpr (div_pos (not_le.mp hc) hn))
      linarith
    have hmean : ∀ x ∈ xs, x = xs.sum / (xs.length : ℝ) := by
      intro x hx
      have := sum_eq_zero_of_nonneg _ hnonneg hsum _ (List.mem_map_of_mem _ hx)
      have h0 : x - xs.sum / (xs.length : ℝ) = 0 := by
        simpa using this
      linarith
    intro x hx y hy
    rw [hmean x hx, hmean y hy]
  · intro hall
    obtain ⟨a, ha⟩ : ∃ a, a ∈ xs := by
      cases xs with
      | nil => simp at h
      | cons a as => exact ⟨a, List.mem_cons_self a as⟩
    have hrep : xs = List.replicate xs.length a :=
      List.eq_replicate_iff.mpr ⟨rfl, fun b hb => hall b hb a ha⟩
    have hsum : xs.sum = (xs.length : ℝ) * a := by
      conv_lhs => rw [hrep]
      rw [List.sum_replicate, nsmul_eq_mul]
    have hmean : xs.sum / (xs.length : ℝ) = a := by
      rw [hsum]
      field_simp
    have hzero : (xs.map (fun x => (x - xs.sum / (xs.length : ℝ)) ^ 2)).sum = 0 := by
      apply List.sum_eq_zero
      intro y hy
      obtain ⟨x, hx, rfl⟩ := List.mem_map.mp hy
      rw [hmean, hall x hx a ha]
      simp
    rw [hzero]
    simp

/-- C17, on the lists `[3, 3, 3]` (σ = 0) and `[1, 2]` (σ ≠ 0). -/
theorem σ_zero_iff_equal_witness :
    (∃ st, getStats Real.sqrt [3, 3, 3] = some st ∧ st.σ = 0) ∧
    (∃ st, getStats Real.sqrt [1, 2] = some st ∧ st.σ ≠ 0) := by
  constructor
  · obtain ⟨st, hst, hiff⟩ := σ_zero_iff_equal [3, 3, 3] (by simp)
    refine ⟨st, hst, hiff.mpr ?_⟩
    intro x hx y hy
    simp only [List.mem_cons, List.mem_singleton, List.not_mem_nil, or_false, or_self] at hx hy
    rw [hx, hy]
  · obtain ⟨st, hst, hiff⟩ := σ_zero_iff_equal [1, 2] (by simp)
    refine ⟨st, hst, fun h0 => ?_⟩
    have := hiff.mp h0 1 (by simp) 2 (by simp)
    norm_num at this

/-- The sum of a list lies between its length times a lower and an upper
bound of its elements. -/
theorem sum_bounds [LinearOrderedField α] (l : List α) (a b : α)
    (h : ∀ x ∈ l, a ≤ x ∧ x ≤ b) :
    (l.length : α) * a ≤ l.sum ∧ l.sum ≤ (l.length : α) * b := by
  induction l with
  | nil => simp
  | cons x xs ih =>
    obtain ⟨h1, h2⟩ := ih (fun y hy => h y (List.mem_cons_of_mem x hy))
    obtain ⟨hx1, hx2⟩ := h x (List.mem_cons_self x xs)
    rw [List.sum_cons, List.length_cons]
    push_cast
    constructor <;> nlinarith

/-- A non-empty list has a least and a greatest element. -/
theorem exists_min_max [LinearOrder α] (l : List α) (h : l ≠ []) :
    ∃ lo ∈ l, ∃ hi ∈ l, ∀ x ∈ l, lo ≤ x ∧ x ≤ hi := by
  induction l with
  | nil => exact absurd rfl h
  | cons a as ih =>
    by_cases has : as = []
    · subst has
      exact ⟨a, List.mem_cons_self a [], a, List.mem_cons_self a [], by simp⟩
    · obtain ⟨lo, hlo, hi, hhi, hb⟩ := ih has
      refine ⟨min a lo, ?_, max a hi, ?_, ?_⟩
      · rcases min_choice a lo with h1 | h1
        · rw [h1]; exact List.mem_cons_self a as
        · rw [h1]; exact List.mem_cons_of_mem a hlo
      · rcases max_choice a hi with h1 | h1
        · rw [h1]; exact List.mem_cons_self a as
        · rw [h1]; exact List.mem_cons_of_mem a hhi
      · intro x hx
        rcases List.mem_cons.mp hx with rfl | hx
        · exact ⟨min_le_left _ _, le_max_left _ _⟩
        · exact ⟨le_trans (min_le_right _ _) (hb x hx).1, le_trans (hb x hx).2 (le_max_right _ _)⟩

/-- C18: for every non-empty list, the mean and the median of `getStats` lie
within the range of the data: between the least element of the list and its
greatest element. -/
theorem getStats_within_range [LinearOrderedField α] (Sqrt : α → α) (xs : List α)
    (hne : xs ≠ []) :
    ∃ st, getStats Sqrt xs = some st ∧
      ∃ lo ∈ xs, ∃ hi ∈ xs, (∀ x ∈ xs, lo ≤ x ∧ x ≤ hi) ∧
        lo ≤ st.mean ∧ st.mean ≤ hi ∧ lo ≤ st.median ∧ st.median ≤ hi := by
  obtain ⟨m, hm, h⟩ := getStats_eq Sqrt xs hne
  obtain ⟨lo, hlo, hi, hhi, hb⟩ := exists_min_max xs hne
  refine ⟨_, h, lo, hlo, hi, hhi, hb, ?_⟩
  show lo ≤ sum (Float64s xs) / ((Float64s xs).length : α) ∧
    sum (Float64s xs) / ((Float64s xs).length : α) ≤ hi ∧ lo ≤ m ∧ m ≤ hi
  have hp := Float64s_perm xs
  have hl := Float64s_length xs
  have hsne : Float64s xs ≠ [] := by
    intro h0
    rw [h0] at hl
    exact hne (List.length_eq_zero.mp hl.symm)
  have hbs : ∀ (i : Nat) (hi2 : i < (Float64s xs).length),
      lo ≤ (Float64s xs)[i] ∧ (Float64s xs)[i] ≤ hi :=
    fun i hi2 => hb _ (hp.subset (List.getElem_mem hi2))
  have hnpos : (0 : α) < (xs.length : α) :=
    Nat.cast_pos.mpr (List.length_pos.mpr hne)
  obtain ⟨hs1, hs2⟩ := sum_bounds xs lo hi hb
  rw [sum_Float64s, hl]
  refine ⟨?_, ?_, ?_⟩
  · rw [le_div_iff₀ hnpos]
    linarith
  · rw [div_le_iff₀ hnpos]
    linarith
  · rcases median_cases (Float64s xs) hsne with ⟨_, hmid, hmed⟩ | ⟨_, _, hmid, hprev, hmed⟩
    · rw [hm] at hmed
      cases hmed
      exact hbs _ hmid
    · rw [hm] at hmed
      cases hmed
      have h1 := hbs _ hmid
      have h2 := hbs _ hprev
      constructor
      · linarith [h1.1, h2.1]
      · linarith [h1.2, h2.2]

/-- C18, on the list `[4, 1, 3, 2]`: mean and median 5/2, between 1 and 4. -/
theorem getStats_within_range_witness :
    ∃ st, getStats id ([4, 1, 3, 2] : List ℚ) = some st ∧
      ∃ lo ∈ ([4, 1, 3, 2] : List ℚ), ∃ hi ∈ ([4, 1, 3, 2] : List ℚ),
        (∀ x ∈ ([4, 1, 3, 2] : List ℚ), lo ≤ x ∧ x ≤ hi) ∧
        lo ≤ st.mean ∧ st.mean ≤ hi ∧ lo ≤ st.median ∧ st.median ≤ hi :=
  getStats_within_range id ([4, 1, 3, 2] : List ℚ) (by simp)

end OrderClaims

/-! ## Lemmas on `ParseFloat` -/

section FloatLemmas

theorem readFloat_steps (s : List Char) :
    readFloat s =
      if s = [] then none
      else if !(scanDigits (if (readBase (readSign s).2).1 then 16 else 10)
          ⟨false, false, false, 0, 0⟩ (readBase (readSign s).2).2).1.sawdigits then none
      else readExponent s (readSign s).1 (readBase (readSign s).2).1
        (scanDigits (if (readBase (readSign s).2).1 then 16 else 10)
          ⟨false, false, false, 0, 0⟩ (readBase (readSign s).2).2).1
        (scanDigits (if (readBase (readSign s).2).1 then 16 else 10)
          ⟨false, false, false, 0, 0⟩ (readBase (readSign s).2).2).2 := by
  rfl

/-- A code whose lower-casing is below 128 is itself below 128. -/
theorem lt_of_lor_lt (n k : Nat) (h : n ||| 0x20 = k) (hk : k < 128) : n < 128 := by
  by_contra hn
  have hge : n ≥ 2 ^ 7 := by
    have : (2 : Nat) ^ 7 = 128 := by decide
    omega
  obtain ⟨i, hi, hbit⟩ := Nat.ge_two_pow_implies_high_bit_true hge
  have h1 : (n ||| 0x20).testBit i = true := by
    rw [Nat.testBit_or, hbit]
    rfl
  have h2 : k.testBit i = false :=
    Nat.testBit_lt_two_pow (lt_of_lt_of_le hk (Nat.pow_le_pow_right Nat.zero_lt_two hi))
  rw [h, h2] at h1
  cases h1

theorem char_eq_of_toNat (c : Char) (n : Nat) (h : c.toNat = n) : c = Char.ofNat n := by
  rw [← h, Char.ofNat_toNat]

theorem lower_eq_x (c : Char) (h : lower c = 120) : c = 'x' ∨ c = 'X' := by
  have hlt := lt_of_lor_lt c.toNat 120 h (by decide)
  have key : ∀ n < 128, n ||| 0x20 = 120 → n = 120 ∨ n = 88 := by decide
  rcases key c.toNat hlt h with h1 | h1
  · exact Or.inl (char_eq_of_toNat c 120 h1)
  · exact Or.inr (char_eq_of_toNat c 88 h1)

theorem lower_eq_e (c : Char) (h : lower c = 101) : c = 'e' ∨ c = 'E' := by
  have hlt := lt_of_lor_lt c.toNat 101 h (by decide)
  have key : ∀ n < 128, n ||| 0x20 = 101 → n = 101 ∨ n = 69 := by decide
  rcases key c.toNat hlt h with h1 | h1
  · exact Or.inl (char_eq_of_toNat c 101 h1)
  · exact Or.inr (char_eq_of_toNat c 69 h1)

theorem lower_eq_p (c : Char) (h : lower c = 112) : c = 'p' ∨ c = 'P' := by
  have hlt := lt_of_lor_lt c.toNat 112 h (by decide)
  have key : ∀ n < 128, n ||| 0x20 = 112 → n = 112 ∨ n = 80 := by decide
  rcases key c.toNat hlt h with h1 | h1
  · exact Or.inl (char_eq_of_toNat c 112 h1)
  · exact Or.inr (char_eq_of_toNat c 80 h1)

/-- The text after the sign read by `readFloat` is the text after an optional
sign. -/
theorem readSign_snd (s : List Char) : (readSign s).2 = dropSign s := by
  cases s with
  | nil => rfl
  | cons c r =>
    by_cases h1 : c = '+'
    · subst h1; rfl
    · by_cases h2 : c = '-'
      · subst h2; rfl
      · simp [readSign, dropSign, isSign, h1, h2]

theorem readBase_cons (c0 c1 c2 : Char) (rest : List Char) :
    readBase (c0 :: c1 :: c2 :: rest) =
      if c0 = '0' ∧ lower c1 = 120 then (true, c2 :: rest) else (false, c0 :: c1 :: c2 :: rest) :=
  rfl

theorem readBase_false (s1 : List Char) (h : (readBase s1).1 = false) :
    (readBase s1).2 = s1 := by
  rcases s1 with _ | ⟨c0, _ | ⟨c1, _ | ⟨c2, rest⟩⟩⟩
  · rfl
  · rfl
  · rfl
  · rw [readBase_cons] at h ⊢
    by_cases hc : c0 = '0' ∧ lower c1 = 120
    · rw [if_pos hc] at h
      cases h
    · rw [if_neg hc]

theorem readBase_true (s1 : List Char) (h : (readBase s1).1 = true) :
    ∃ c1, (c1 = 'x' ∨ c1 = 'X') ∧ s1 = '0' :: c1 :: (readBase s1).2 := by
  rcases s1 with _ | ⟨c0, _ | ⟨c1, _ | ⟨c2, rest⟩⟩⟩
  · cases h
  · cases h
  · cases h
  · rw [readBase_cons] at h ⊢
    by_cases hc : c0 = '0' ∧ lower c1 = 120
    · rw [if_pos hc]
      exact ⟨c1, lower_eq_x c1 hc.2, by rw [hc.1]⟩
    · rw [if_neg hc] at h
      cases h

theorem isDigitOf_underscore (base : Nat) : isDigitOf base '_' = false := by
  have h1 : isDigit '_' = false := by decide
  have h2 : isHexLetter '_' = false := by decide
  simp [isDigitOf, h1, h2]

theorem isDigitOf_point (base : Nat) : isDigitOf base '.' = false := by
  have h1 : isDigit '.' = false := by decide
  have h2 : isHexLetter '.' = false := by decide
  simp [isDigitOf, h1, h2]

theorem fractionDigits_cons (base : Nat) (c : Char) (m : List Char) (h : c ≠ '.') :
    fractionDigits base (c :: m) = fractionDigits base m := by
  unfold fractionDigits
  rw [List.dropWhile_cons_of_pos (by simp [h])]

theorem fractionDigits_point (base : Nat) (m : List Char) :
    fractionDigits base ('.' :: m) = (m.filter (isDigitOf base)).length := by
  unfold fractionDigits
  rw [List.dropWhile_cons_of_neg (by simp), List.filter_cons_of_neg (by simp [isDigitOf_point])]

/-- What the digit loop reads: digits of the base, points and underscores, at
most one point, and a digit when it reports one; the number it returns is the
one written by the digits, the count of fraction digits is the number of
digits after the point, and it reports every underscore. -/
theorem scanDigits_sound (base : Nat) (s : List Char) (d : Digits) :
    ∃ m, s = m ++ (scanDigits base d s).2 ∧
      m.all (fun c => isDigitOf base c || c == '.' || c == '_') = true ∧
      ((scanDigits base d s).1.sawdigits = true →
        d.sawdigits = true ∨ m.any (isDigitOf base) = true) ∧
      m.count '.' ≤ (if d.sawdot = true then 0 else 1) ∧
      (scanDigits base d s).1.mantissa =
        (m.filter (isDigitOf base)).foldl (fun n c => n * base + digitValue c) d.mantissa ∧
      (scanDigits base d s).1.frac =
        d.frac + (if d.sawdot = true then (m.filter (isDigitOf base)).length
          else fractionDigits base m) ∧
      ((scanDigits base d s).1.underscores = false →
        d.underscores = false ∧ ∀ c ∈ m, c ≠ '_') := by
  have hstop : ∀ (d : Digits) (r : List Char),
      ∃ m, r = m ++ r ∧
        m.all (fun c => isDigitOf base c || c == '.' || c == '_') = true ∧
        (d.sawdigits = true → d.sawdigits = true ∨ m.any (isDigitOf base) = true) ∧
        m.count '.' ≤ (if d.sawdot = true then 0 else 1) ∧
        d.mantissa =
          (m.filter (isDigitOf base)).foldl (fun n c => n * base + digitValue c) d.mantissa ∧
        d.frac = d.frac + (if d.sawdot = true then (m.filter (isDigitOf base)).length
          else fractionDigits base m) ∧
        (d.underscores = false → d.underscores = false ∧ ∀ c ∈ m, c ≠ '_') := by
    intro d r
    refine ⟨[], rfl, rfl, fun h => Or.inl h, by simp [List.count_nil], rfl, ?_, ?_⟩
    · simp [fractionDigits]
    · intro h
      exact ⟨h, fun c hc => by cases hc⟩
  induction s generalizing d with
  | nil => exact hstop d []
  | cons c cs ih =>
    unfold scanDigits
    by_cases h1 : c = '_'
    · obtain ⟨m, hm, hall, hsaw, hcount, hmant, hfrac, hund⟩ := ih { d with underscores := true }
      rw [if_pos h1]
      subst h1
      refine ⟨'_' :: m, by rw [List.cons_append, ← hm], ?_, ?_, ?_, ?_, ?_, ?_⟩
      · simp [List.all_cons, hall]
      · intro h
        rcases hsaw h with h2 | h2
        · exact Or.inl h2
        · exact Or.inr (by simp [List.any_cons, h2])
      · rw [List.count_cons_of_ne (by decide)]
        exact hcount
      · rw [hmant, List.filter_cons_of_neg (by simp [isDigitOf_underscore])]
      · rw [hfrac, List.filter_cons_of_neg (by simp [isDigitOf_underscore]),
          fractionDigits_cons base '_' m (by decide)]
      · intro h
        exact absurd (hund h).1 (by simp)
    · rw [if_neg h1]
      by_cases h2 : c = '.'
      · rw [if_pos h2]
        by_cases h3 : d.sawdot = true
        · rw [if_pos h3]
          exact hstop d (c :: cs)
        · rw [if_neg h3]
          obtain ⟨m, hm, hall, hsaw, hcount, hmant, hfrac, hund⟩ := ih { d with sawdot := true }
          subst h2
          refine ⟨'.' :: m, by rw [List.cons_append, ← hm], ?_, ?_, ?_, ?_, ?_, ?_⟩
          · simp [List.all_cons, hall]
          · intro h
            rcases hsaw h with h4 | h4
            · exact Or.inl h4
            · exact Or.inr (by simp [List.any_cons, h4])
          · rw [List.count_cons_self, if_neg h3]
            simp only [if_true] at hcount
            omega
          · rw [hmant, List.filter_cons_of_neg (by simp [isDigitOf_point])]
          · rw [hfrac, if_neg h3, fractionDigits_point]
            simp
          · intro h
            obtain ⟨h5, h6⟩ := hund h
            refine ⟨h5, fun a ha => ?_⟩
            rcases List.mem_cons.mp ha with rfl | ha
            · decide
            · exact h6 a ha
      · rw [if_neg h2]
        have hcnt : ∀ m : List Char, (c :: m).count '.' = m.count '.' := fun m =>
          List.count_cons_of_ne (fun h => h2 h.symm) m
        have hmem : ∀ m : List Char, (∀ a ∈ m, a ≠ '_') → ∀ a ∈ c :: m, a ≠ '_' := by
          intro m hm a ha
          rcases List.mem_cons.mp ha with rfl | ha
          · exact h1
          · exact hm a ha
        by_cases h4 : isDigit c = true
        · rw [if_pos h4]
          have hdig : isDigitOf base c = true := by simp [isDigitOf, h4]
          have hval : digitValue c = c.toNat - 48 := by simp [digitValue, h4]
          obtain ⟨m, hm, hall, _, hcount, hmant, hfrac, hund⟩ := ih
            { d with sawdigits := true, mantissa := d.mantissa * base + (c.toNat - 48),
                     frac := if d.sawdot then d.frac + 1 else d.frac }
          refine ⟨c :: m, by rw [List.cons_append, ← hm], ?_, ?_, ?_, ?_, ?_, ?_⟩
          · rw [List.all_cons, hall, Bool.and_true]
            simp [hdig]
          · intro _
            exact Or.inr (by rw [List.any_cons]; simp [hdig])
          · rw [hcnt]
            exact hcount
          · rw [hmant, List.filter_cons_of_pos hdig, List.foldl_cons, hval]
          · rw [hfrac, List.filter_cons_of_pos hdig, fractionDigits_cons base c m h2]
            by_cases h3 : d.sawdot = true
            · simp only [h3, if_true, List.length_cons]
              omega
            · simp [h3]
          · intro h
            exact ⟨(hund h).1, hmem m (hund h).2⟩
        · rw [if_neg h4]
          by_cases h5 : base = 16 ∧ isHexLetter c = true
          · rw [if_pos h5]
            have hdig : isDigitOf base c = true := by simp [isDigitOf, h5.1, h5.2]
            have hval : digitValue c = lower c - 97 + 10 := by simp [digitValue, h4]
            obtain ⟨m, hm, hall, _, hcount, hmant, hfrac, hund⟩ := ih
              { d with sawdigits := true, mantissa := d.mantissa * 16 + (lower c - 97 + 10),
                       frac := if d.sawdot then d.frac + 1 else d.frac }
            refine ⟨c :: m, by rw [List.cons_append, ← hm], ?_, ?_, ?_, ?_, ?_, ?_⟩
            · rw [List.all_cons, hall, Bool.and_true]
              simp [hdig]
            · intro _
              exact Or.inr (by rw [List.any_cons]; simp [hdig])
            · rw [hcnt]
              exact hcount
            · rw [hmant, List.filter_cons_of_pos hdig, List.foldl_cons, hval]
              simp only [h5.1]
            · rw [hfrac, List.filter_cons_of_pos hdig, fractionDigits_cons base c m h2]
              by_cases h3 : d.sawdot = true
              · simp only [h3, if_true, List.length_cons]
                omega
              · simp [h3]
            · intro h
              exact ⟨(hund h).1, hmem m (hund h).2⟩
          · rw [if_neg h5]
            exact hstop d (c :: cs)

/-- What the exponent loop reads: decimal digits and underscores; the number
it returns is the one written by the digits, cut at 10000, and it reports
every underscore. -/
theorem scanExp_sound (s : List Char) (e : Nat) (u : Bool) :
    ∃ ds, s = ds ++ (scanExp e u s).2.2 ∧
      ds.all (fun c => isDigit c || c == '_') = true ∧
      (scanExp e u s).1 =
        (ds.filter isDigit).foldl (fun e c => if e < 10000 then e * 10 + digitValue c else e) e ∧
      ((scanExp e u s).2.1 = false → u = false ∧ ∀ c ∈ ds, c ≠ '_') := by
  induction s generalizing e u with
  | nil => exact ⟨[], rfl, rfl, rfl, fun h => ⟨h, fun c hc => by cases hc⟩⟩
  | cons c cs ih =>
    unfold scanExp
    by_cases h1 : c = '_'
    · rw [if_pos h1]
      subst h1
      obtain ⟨ds, hds, hall, hval, hund⟩ := ih e true
      refine ⟨'_' :: ds, by rw [List.cons_append, ← hds], by simp [List.all_cons, hall], ?_, ?_⟩
      · rw [hval, List.filter_cons_of_neg (by decide)]
      · intro h
        exact absurd (hund h).1 (by simp)
    · rw [if_neg h1]
      by_cases h2 : isDigit c = true
      · rw [if_pos h2]
        have hv : digitValue c = c.toNat - 48 := by simp [digitValue, h2]
        obtain ⟨ds, hds, hall, hval, hund⟩ :=
          ih (if e < 10000 then e * 10 + (c.toNat - 48) else e) u
        refine ⟨c :: ds, by rw [List.cons_append, ← hds], by simp [List.all_cons, h2, hall],
          ?_, ?_⟩
        · rw [hval, List.filter_cons_of_pos h2, List.foldl_cons, hv]
        · intro h
          refine ⟨(hund h).1, fun a ha => ?_⟩
          rcases List.mem_cons.mp ha with rfl | ha
          · exact h1
          · exact (hund h).2 a ha
      · rw [if_neg h2]
        exact ⟨[], rfl, rfl, rfl, fun h => ⟨h, fun c hc => by cases hc⟩⟩

theorem readFinish_some (s : List Char) (neg hex : Bool) (mantissa : Nat) (u : Bool)
    (exp : Int) (rest : List Char) (l : Literal)
    (h : readFinish s neg hex mantissa u exp rest = some l) :
    l = ⟨neg, hex, mantissa, exp, rest⟩ ∧
    (u = true → underscoreOK (s.take (s.length - rest.length)) = true) := by
  unfold readFinish at h
  by_cases hu : (u && !underscoreOK (s.take (s.length - rest.length))) = true
  · rw [if_pos hu] at h
    cases h
  · rw [if_neg hu] at h
    cases h
    refine ⟨rfl, fun h1 => ?_⟩
    cases hok : underscoreOK (s.take (s.length - rest.length)) with
    | true => rfl
    | false => exact absurd (by simp [h1, hok]) hu

theorem lower_underscore : lower '_' = 127 := by decide

/-- The exponent read when `readFloat` consumes the whole text: nothing, for
a decimal literal, or the exponent letter followed by an exponent; with the
mantissa, the power and the check of the underscores of the result. -/
theorem readExponent_sound (s : List Char) (neg hex : Bool) (d : Digits) (s3 : List Char)
    (l : Literal) (h : readExponent s neg hex d s3 = some l) (hrest : l.rest = []) :
    ((hex = false ∧ s3 = []) ∨
      ∃ c e, s3 = c :: e ∧ lower c = (if hex then 112 else 101) ∧ exponentShape e = true) ∧
    l.hex = hex ∧ l.mantissa = d.mantissa ∧
    l.exp = (if hex then -((4 * d.frac : Nat) : Int) else -((d.frac : Nat) : Int)) +
      exponentSigned s3.tail ∧
    ((d.underscores = true ∨ '_' ∈ s3) → underscoreOK s = true) := by
  have hfin : ∀ (u : Bool) (exp : Int) (rest : List Char),
      readFinish s neg hex d.mantissa u exp rest = some l →
      rest = [] ∧ l.hex = hex ∧ l.mantissa = d.mantissa ∧ l.exp = exp ∧
        (u = true → underscoreOK s = true) := by
    intro u exp rest hf
    obtain ⟨hl, hu⟩ := readFinish_some _ _ _ _ _ _ _ _ hf
    have hr : rest = [] := by
      rw [hl] at hrest
      exact hrest
    subst hr
    rw [hl]
    refine ⟨rfl, rfl, rfl, rfl, fun h1 => ?_⟩
    have := hu h1
    simpa using this
  cases s3 with
  | nil =>
    cases hex with
    | true => simp [readExponent] at h
    | false =>
      simp only [readExponent, Bool.false_eq_true, if_false] at h
      obtain ⟨_, h1, h2, h3, h4⟩ := hfin _ _ _ h
      refine ⟨Or.inl ⟨rfl, rfl⟩, h1, h2, ?_, ?_⟩
      · rw [h3]
        simp [exponentSigned]
      · rintro (hu | hu)
        · exact h4 hu
        · cases hu
  | cons c s4 =>
    by_cases hlow : lower c = (if hex then 112 else 101)
    · have hc : c ≠ '_' := by
        rintro rfl
        rw [lower_underscore] at hlow
        cases hex <;> simp at hlow
      cases s4 with
      | nil => simp [readExponent, hlow] at h
      | cons c1 s5 =>
        have key : ∀ s6 : List Char, ∀ esign : Int, s6 = dropSign (c1 :: s5) →
            (match s6 with
              | [] => none
              | c2 :: _ =>
                if !isDigit c2 then none else
                let (e, u, rest) := scanExp 0 d.underscores s6
                readFinish s neg hex d.mantissa u
                  ((if hex then -(4 * d.frac : Nat) else -(d.frac : Nat) : Int) + e * esign) rest)
              = some l →
            exponentShape (c1 :: s5) = true ∧ l.hex = hex ∧ l.mantissa = d.mantissa ∧
            l.exp = (if hex then -((4 * d.frac : Nat) : Int) else -((d.frac : Nat) : Int)) +
              (exponentNumber (c1 :: s5) : Int) * esign ∧
            ((d.underscores = true ∨ '_' ∈ s6) → underscoreOK s = true) := by
          intro s6 esign hs6 hsome
          cases s6 with
          | nil => cases hsome
          | cons c2 r =>
            by_cases hdig : isDigit c2 = true
            · simp only [hdig, Bool.not_true, Bool.false_eq_true, if_false] at hsome
              obtain ⟨hr, h1, h2, h3, h4⟩ := hfin _ _ _ hsome
              obtain ⟨ds, hds, hall, hval, hund⟩ := scanExp_sound (c2 :: r) 0 d.underscores
              rw [hr, List.append_nil] at hds
              refine ⟨?_, h1, h2, ?_, ?_⟩
              · unfold exponentShape
                rw [← hs6]
                simp only [hdig, Bool.true_and]
                rw [hds]
                exact hall
              · rw [h3, hval]
                unfold exponentNumber
                rw [← hs6, hds]
              · intro hu
                apply h4
                cases hflag : (scanExp 0 d.underscores (c2 :: r)).2.1 with
                | true => rfl
                | false =>
                  obtain ⟨h5, h6⟩ := hund hflag
                  rcases hu with hu | hu
                  · rw [h5] at hu
                    cases hu
                  · rw [hds] at hu
                    exact absurd rfl (h6 _ hu)
            · simp [hdig] at hsome
        have hmem : ∀ s6 : List Char, (c1 :: s5 = s6 ∨ (c1 ≠ '_' ∧ s5 = s6)) →
            '_' ∈ c :: c1 :: s5 → '_' ∈ s6 := by
          intro s6 hs hin
          rcases List.mem_cons.mp hin with h0 | h0
          · exact absurd h0.symm hc
          · rcases hs with hs | ⟨hne, hs⟩
            · rw [← hs]
              exact h0
            · rcases List.mem_cons.mp h0 with h0 | h0
              · exact absurd h0.symm hne
              · rw [← hs]
                exact h0
        by_cases hp : c1 = '+'
        · subst hp
          simp only [readExponent, hlow, if_true] at h
          obtain ⟨k1, k2, k3, k4, k5⟩ := key s5 1 rfl h
          refine ⟨Or.inr ⟨c, _, rfl, hlow, k1⟩, k2, k3, ?_, ?_⟩
          · rw [k4]
            simp [exponentSigned]
          · rintro (hu | hu)
            · exact k5 (Or.inl hu)
            · exact k5 (Or.inr (hmem s5 (Or.inr ⟨by decide, rfl⟩) hu))
        · by_cases hm : c1 = '-'
          · subst hm
            simp only [readExponent, hlow, if_true] at h
            obtain ⟨k1, k2, k3, k4, k5⟩ := key s5 (-1) rfl h
            refine ⟨Or.inr ⟨c, _, rfl, hlow, k1⟩, k2, k3, ?_, ?_⟩
            · rw [k4]
              simp [exponentSigned]
            · rintro (hu | hu)
              · exact k5 (Or.inl hu)
              · exact k5 (Or.inr (hmem s5 (Or.inr ⟨by decide, rfl⟩) hu))
          · simp only [readExponent, hlow, if_true, hp, hm, if_false] at h
            obtain ⟨k1, k2, k3, k4, k5⟩ := key (c1 :: s5) 1
              (by simp [dropSign, isSign, hp, hm]) h
            refine ⟨Or.inr ⟨c, _, rfl, hlow, k1⟩, k2, k3, ?_, ?_⟩
            · rw [k4]
              simp [exponentSigned, hm]
            · rintro (hu | hu)
              · exact k5 (Or.inl hu)
              · exact k5 (Or.inr (hmem (c1 :: s5) (Or.inl rfl) hu))
    · exfalso
      cases hex with
      | true =>
        have hlow2 : ¬ lower c = 112 := by simpa using hlow
        simp [readExponent, hlow2] at h
      | false =>
        have hlow2 : ¬ lower c = 101 := by simpa using hlow
        simp only [readExponent, Bool.false_eq_true, if_false, hlow2] at h
        obtain ⟨hr, _⟩ := hfin _ _ _ h
        cases hr

theorem takeWhile_dropWhile_append (p : Char → Bool) (m s3 : List Char)
    (hm : ∀ c ∈ m, p c = true) (hs : ∀ c e, s3 = c :: e → p c = false) :
    (m ++ s3).takeWhile p = m ∧ (m ++ s3).dropWhile p = s3 := by
  induction m with
  | nil =>
    cases s3 with
    | nil => exact ⟨rfl, rfl⟩
    | cons c e =>
      have hc := hs c e rfl
      simp [List.takeWhile, List.dropWhile, hc]
  | cons a as ih =>
    have ha := hm a (List.mem_cons_self a as)
    obtain ⟨h1, h2⟩ := ih (fun c hc => hm c (List.mem_cons_of_mem a hc))
    simp only [List.cons_append, List.takeWhile, List.dropWhile, ha]
    exact ⟨congrArg (fun t => a :: t) h1, h2⟩

theorem isDigitOf_ten : isDigitOf 10 = isDigit := by
  funext c
  simp [isDigitOf]

theorem isDigitOf_sixteen : isDigitOf 16 = isHexDigit := by
  funext c
  simp [isDigitOf, isHexDigit]

theorem underscoresPlaced_of_none (digit : Char → Bool) (before : Bool) (cs : List Char)
    (h : ∀ c ∈ cs, c ≠ '_') : underscoresPlaced digit before cs = true := by
  induction cs generalizing before with
  | nil => rfl
  | cons c cs ih =>
    unfold underscoresPlaced
    rw [if_neg (h c (List.mem_cons_self c cs))]
    exact ih _ (fun a ha => h a (List.mem_cons_of_mem c ha))

/-- The underscores accepted by the loop of `underscoreOK` stand between
digits. -/
theorem underscoreScan_placed (hex : Bool) (cs : List Char) (saw : Char)
    (h : underscoreScan hex saw cs = true) :
    underscoresPlaced (fun c => isDigit c || (hex && isHexLetter c)) (saw == '0') cs = true := by
  induction cs generalizing saw with
  | nil => rfl
  | cons c cs ih =>
    unfold underscoreScan at h
    unfold underscoresPlaced
    by_cases hd : (isDigit c || (hex && isHexLetter c)) = true
    · rw [if_pos hd] at h
      have hc : c ≠ '_' := by
        rintro rfl
        have h1 : isDigit '_' = false := by decide
        have h2 : isHexLetter '_' = false := by decide
        simp [h1, h2] at hd
      rw [if_neg hc]
      simp only [hd]
      exact ih '0' h
    · rw [if_neg hd] at h
      by_cases hc : c = '_'
      · rw [if_pos hc] at h
        rw [if_pos hc]
        by_cases hsaw : (saw != '0') = true
        · rw [if_pos hsaw] at h
          cases h
        · rw [if_neg hsaw] at h
          have hbefore : (saw == '0') = true := by
            cases hb : (saw == '0') with
            | true => rfl
            | false => exact absurd (by simp [bne, hb]) hsaw
          cases cs with
          | nil => simp [underscoreScan] at h
          | cons d r =>
            have hdd : (isDigit d || (hex && isHexLetter d)) = true := by
              by_cases hdd : (isDigit d || (hex && isHexLetter d)) = true
              · exact hdd
              · have h' := h
                unfold underscoreScan at h'
                rw [if_neg hdd] at h'
                by_cases hd2 : d = '_'
                · simp [hd2] at h'
                · simp [hd2] at h'
            have hrest := ih '_' h
            have h0 : ('_' == '0') = false := by decide
            rw [h0] at hrest
            simp only [hbefore, hdd, Bool.true_and]
            exact hrest
      · rw [if_neg hc] at h
        rw [if_neg hc]
        by_cases hs : saw = '_'
        · rw [if_pos hs] at h
          cases h
        · rw [if_neg hs] at h
          have := ih '!' h
          have hdf : (isDigit c || (hex && isHexLetter c)) = false := by
            cases hv : (isDigit c || (hex && isHexLetter c)) with
            | true => exact absurd hv hd
            | false => rfl
          rw [hdf]
          exact this

theorem underscoreOK_decimal (s : List Char)
    (h : ∀ c ∈ dropSign s, ¬ (lower c = 98 ∨ lower c = 111 ∨ lower c = 120)) :
    underscoreOK s = underscoreScan false '^' (dropSign s) := by
  have body : ∀ b : List Char, (∀ c ∈ b, ¬ (lower c = 98 ∨ lower c = 111 ∨ lower c = 120)) →
      (match b with
        | c0 :: c1 :: rest =>
          if c0 = '0' ∧ (lower c1 = 98 ∨ lower c1 = 111 ∨ lower c1 = 120) then
            underscoreScan (lower c1 == 120) '0' rest
          else underscoreScan false '^' b
        | _ => underscoreScan false '^' b) = underscoreScan false '^' b := by
    intro b hb
    rcases b with _ | ⟨c0, _ | ⟨c1, rest⟩⟩
    · rfl
    · rfl
    · have := hb c1 (by simp)
      simp only []
      rw [if_neg (fun hc => this hc.2)]
  cases s with
  | nil => rfl
  | cons c r =>
    by_cases hsg : c = '-' ∨ c = '+'
    · have hd : dropSign (c :: r) = r := by
        rcases hsg with rfl | rfl <;> rfl
      rw [hd] at h ⊢
      have := body r h
      simp only [underscoreOK, hsg, if_true]
      exact this
    · have hd : dropSign (c :: r) = c :: r := by
        have h1 : c ≠ '-' := fun hc => hsg (Or.inl hc)
        have h2 : c ≠ '+' := fun hc => hsg (Or.inr hc)
        simp [dropSign, isSign, h1, h2]
      rw [hd] at h ⊢
      have := body (c :: r) h
      simp only [underscoreOK, hsg, if_false]
      exact this

theorem underscoreOK_hex (s : List Char) (c1 : Char) (body : List Char)
    (hs : dropSign s = '0' :: c1 :: body) (hx : lower c1 = 120) :
    underscoreOK s = underscoreScan true '0' body := by
  cases s with
  | nil => cases hs
  | cons c r =>
    by_cases hsg : c = '-' ∨ c = '+'
    · have hd : dropSign (c :: r) = r := by
        rcases hsg with rfl | rfl <;> rfl
      rw [hd] at hs
      subst hs
      simp [underscoreOK, hsg, hx]
    · have hd : dropSign (c :: r) = c :: r := by
        have h1 : c ≠ '-' := fun hc => hsg (Or.inl hc)
        have h2 : c ≠ '+' := fun hc => hsg (Or.inr hc)
        simp [dropSign, isSign, h1, h2]
      rw [hd] at hs
      cases hs
      simp [underscoreOK, hx]

/-- The magnitude of the value of a literal read by `readFloat`. -/
theorem abs_value (neg hex : Bool) (M : Nat) (E : Int) (rest : List Char) :
    |Literal.value ⟨neg, hex, M, E, rest⟩| = scaled M (if hex then 2 else 10) E := by
  have hb : (0 : ℚ) ≤ (if hex = true then (2 : ℚ) else 10) := by
    cases hex <;> norm_num
  have hm : (0 : ℚ) ≤ (if E < 0 then (M : ℚ) / (if hex = true then (2 : ℚ) else 10) ^ E.natAbs
      else (M : ℚ) * (if hex = true then (2 : ℚ) else 10) ^ E.natAbs) := by
    split
    · exact div_nonneg (Nat.cast_nonneg M) (pow_nonneg hb _)
    · exact mul_nonneg (Nat.cast_nonneg M) (pow_nonneg hb _)
  have habs : |Literal.value ⟨neg, hex, M, E, rest⟩| =
      (if E < 0 then (M : ℚ) / (if hex = true then (2 : ℚ) else 10) ^ E.natAbs
        else (M : ℚ) * (if hex = true then (2 : ℚ) else 10) ^ E.natAbs) := by
    unfold Literal.value
    cases neg
    · simp only [Bool.false_eq_true, if_false]
      exact abs_of_nonneg hm
    · simp only [if_true, abs_neg]
      exact abs_of_nonneg hm
  rw [habs]
  unfold scaled
  cases hex <;> split <;> simp

theorem lower_digit (c : Char) (h : isDigit c = true) : lower c < 98 := by
  have key : ∀ n < 58, n ||| 0x20 < 98 := by decide
  have hlt : c.toNat < 58 := by
    simp only [isDigit, Bool.and_eq_true, decide_eq_true_eq] at h
    omega
  exact key c.toNat hlt

theorem exponentShape_chars (e : List Char) (h : exponentShape e = true) :
    ∀ a ∈ e, a = '+' ∨ a = '-' ∨ isDigit a = true ∨ a = '_' := by
  unfold exponentShape at h
  have hall := (Bool.and_eq_true _ _).mp h |>.2
  have hd : ∀ a ∈ dropSign e, isDigit a = true ∨ a = '_' := by
    intro a ha
    have := List.all_eq_true.mp hall a ha
    simpa using this
  cases e with
  | nil => intro a ha; cases ha
  | cons c r =>
    intro a ha
    by_cases hs : isSign c = true
    · have hdrop : dropSign (c :: r) = r := by simp [dropSign, hs]
      rw [hdrop] at hd
      rcases List.mem_cons.mp ha with rfl | ha
      · simp only [isSign, Bool.or_eq_true, beq_iff_eq] at hs
        rcases hs with hs | hs
        · exact Or.inl hs
        · exact Or.inr (Or.inl hs)
      · exact Or.inr (Or.inr (hd a ha))
    · have hdrop : dropSign (c :: r) = c :: r := by simp [dropSign, hs]
      rw [hdrop] at hd
      exact Or.inr (Or.inr (hd a ha))

/-- The parts of a text that `readFloat` reads in full: after the sign and,
for a hexadecimal literal, the prefix, a mantissa `m` and the text `s3` of the
exponent, with what the result holds. -/
theorem readFloat_parts (s : List Char) (l : Literal) (h : readFloat s = some l)
    (hrest : l.rest = []) :
    ∃ (m s3 : List Char),
      (if l.hex = true then ∃ c1, (c1 = 'x' ∨ c1 = 'X') ∧ dropSign s = '0' :: c1 :: (m ++ s3)
        else dropSign s = m ++ s3) ∧
      m.all (fun c => isDigitOf (if l.hex = true then 16 else 10) c || c == '.' || c == '_') =
        true ∧
      m.any (isDigitOf (if l.hex = true then 16 else 10)) = true ∧
      m.count '.' ≤ 1 ∧
      ((l.hex = false ∧ s3 = []) ∨
        ∃ c e, s3 = c :: e ∧ lower c = (if l.hex = true then 112 else 101) ∧
          exponentShape e = true) ∧
      l.mantissa = mantissaNumber (if l.hex = true then 16 else 10) m ∧
      l.exp = (if l.hex = true then -((4 * fractionDigits 16 m : Nat) : Int)
          else -((fractionDigits 10 m : Nat) : Int)) + exponentSigned s3.tail ∧
      ((∃ c ∈ m ++ s3, c = '_') → underscoreOK s = true) := by
  rw [readFloat_steps] at h
  by_cases hs : s = []
  · rw [if_pos hs] at h
    cases h
  rw [if_neg hs] at h
  by_cases hsaw : (scanDigits (if (readBase (readSign s).2).1 then 16 else 10)
      ⟨false, false, false, 0, 0⟩ (readBase (readSign s).2).2).1.sawdigits = true
  swap
  · simp [hsaw] at h
  simp only [hsaw, Bool.not_true, Bool.false_eq_true, if_false] at h
  obtain ⟨m, hm, hall, hany, hcount, hmant, hfrac, hund⟩ := scanDigits_sound
    (if (readBase (readSign s).2).1 then 16 else 10) (readBase (readSign s).2).2
    ⟨false, false, false, 0, 0⟩
  have hany2 := (hany hsaw).resolve_left (by simp)
  simp only [Bool.false_eq_true, if_false, Nat.zero_add] at hcount hfrac
  obtain ⟨hexp, hhex, hM, hE, hU⟩ := readExponent_sound _ _ _ _ _ l h hrest
  rw [hmant] at hM
  rw [hfrac] at hE
  rw [readSign_snd] at hm hall hany2 hexp hhex hM hE hU hund
  generalize hs3 : (scanDigits (if (readBase (dropSign s)).1 = true then 16 else 10)
    ⟨false, false, false, 0, 0⟩ (readBase (dropSign s)).2).2 = s3 at hm hexp hE hU
  generalize hflag : (scanDigits (if (readBase (dropSign s)).1 = true then 16 else 10)
    ⟨false, false, false, 0, 0⟩ (readBase (dropSign s)).2).1.underscores = flag at hU hund
  have hunder : (∃ c ∈ m ++ s3, c = '_') → underscoreOK s = true := by
    rintro ⟨c, hc, rfl⟩
    rcases List.mem_append.mp hc with hc | hc
    · apply hU
      left
      cases flag with
      | true => rfl
      | false => exact absurd rfl ((hund rfl).2 _ hc)
    · exact hU (Or.inr hc)
  refine ⟨m, s3, ?_, ?_, ?_, hcount, ?_, ?_, ?_, hunder⟩
  · rw [hhex]
    cases hb : (readBase (dropSign s)).1 with
    | false =>
      rw [readBase_false _ hb] at hm
      simp only [Bool.false_eq_true, if_false]
      exact hm
    | true =>
      obtain ⟨c1, hc1, hs1⟩ := readBase_true _ hb
      simp only [if_true]
      exact ⟨c1, hc1, by rw [hs1, ← hm]⟩
  · rw [hhex]
    exact hall
  · rw [hhex]
    exact hany2
  · rw [hhex]
    exact hexp
  · rw [hhex]
    exact hM
  · rw [hhex, hE]
    cases (readBase (dropSign s)).1 <;> rfl

theorem placed_decimal :
    (fun c => isDigit c || (false && isHexLetter c)) = isDigit := by
  funext c
  simp

theorem placed_hex :
    (fun c => isDigit c || (true && isHexLetter c)) = isHexDigit := by
  funext c
  simp [isHexDigit]

/-- A text that `readFloat` reads in full is a decimal or a hexadecimal
literal with its underscores between digits, and the value read has the
magnitude the text denotes. -/
theorem readFloat_sound (s : List Char) (l : Literal) (h : readFloat s = some l)
    (hrest : l.rest = []) :
    (l.hex = false ∧ decimalShape s = true ∧
      underscoresPlaced isDigit false (dropSign s) = true ∧ |l.value| = decimalMagnitude s) ∨
    (l.hex = true ∧ hexShape s = true ∧
      underscoresPlaced isHexDigit true ((dropSign s).drop 2) = true ∧
      |l.value| = hexMagnitude s) := by
  obtain ⟨m, s3, hbody, hall, hany, hcount, hexp, hM, hE, hU⟩ := readFloat_parts s l h hrest
  obtain ⟨neg, hex, M, E, rest⟩ := l
  have habs := abs_value neg hex M E rest
  simp only at hbody hall hany hexp hM hE
  cases hex with
  | false =>
    left
    simp only [Bool.false_eq_true, if_false, isDigitOf_ten] at hbody hall hany hexp hM hE habs
    have hnotE : ∀ c ∈ m, (!(c == 'e' || c == 'E')) = true := by
      intro c hc
      have h1 := List.all_eq_true.mp hall c hc
      by_cases he : c = 'e'
      · subst he
        exact absurd h1 (by decide)
      · by_cases hE : c = 'E'
        · subst hE
          exact absurd h1 (by decide)
        · simp [he, hE]
    have hstop : ∀ c e, s3 = c :: e → (!(c == 'e' || c == 'E')) = false := by
      intro c e hce
      rcases hexp with ⟨_, hnil⟩ | ⟨c', e', hce', hlow, _⟩
      · rw [hnil] at hce
        cases hce
      · rw [hce] at hce'
        have hc : c = c' := (List.cons.inj hce').1
        rcases lower_eq_e c' hlow with h1 | h1 <;> simp [hc, h1]
    obtain ⟨ht, hd⟩ := takeWhile_dropWhile_append _ m _ hnotE hstop
    have hmant : mantissaShape isDigit m = true := by
      simp only [mantissaShape, hall, hany, Bool.and_self, Bool.true_and, decide_eq_true_eq]
      exact hcount
    refine ⟨rfl, ?_, ?_, ?_⟩
    · simp only [decimalShape]
      rw [hbody, ht, hd, hmant, Bool.true_and]
      rcases hexp with ⟨_, hnil⟩ | ⟨c', e', hce', _, hshape⟩
      · rw [hnil]
      · rw [hce']
        exact hshape
    · by_cases hu : ∃ c ∈ m ++ s3, c = '_'
      · have hok := hU hu
        have hchars : ∀ c ∈ dropSign s, ¬ (lower c = 98 ∨ lower c = 111 ∨ lower c = 120) := by
          have hdig : ∀ c : Char, isDigit c = true →
              ¬ (lower c = 98 ∨ lower c = 111 ∨ lower c = 120) := by
            intro c hc
            have := lower_digit c hc
            omega
          intro c hc
          rw [hbody] at hc
          rcases List.mem_append.mp hc with hc | hc
          · have h1 := List.all_eq_true.mp hall c hc
            simp only [Bool.or_eq_true, beq_iff_eq] at h1
            rcases h1 with (h1 | h1) | h1
            · exact hdig c h1
            · subst h1
              decide
            · subst h1
              decide
          · rcases hexp with ⟨_, hnil⟩ | ⟨c', e', hce', hlow, hshape⟩
            · rw [hnil] at hc
              cases hc
            · rw [hce'] at hc
              rcases List.mem_cons.mp hc with rfl | hc
              · omega
              · rcases exponentShape_chars e' hshape c hc with h1 | h1 | h1 | h1
                · subst h1
                  decide
                · subst h1
                  decide
                · exact hdig c h1
                · subst h1
                  decide
        rw [underscoreOK_decimal s hchars] at hok
        have := underscoreScan_placed false _ _ hok
        rw [placed_decimal] at this
        exact this
      · rw [hbody]
        apply underscoresPlaced_of_none
        intro c hc hcu
        exact hu ⟨c, hc, hcu⟩
    · rw [habs, hM, hE]
      simp only [decimalMagnitude]
      rw [hbody, ht, hd]
      congr 1
      omega
  | true =>
    right
    simp only [if_true, isDigitOf_sixteen] at hbody hall hany hexp hM hE habs
    obtain ⟨c1, hc1, hs1⟩ := hbody
    have hnotP : ∀ c ∈ m, (!(c == 'p' || c == 'P')) = true := by
      intro c hc
      have h1 := List.all_eq_true.mp hall c hc
      by_cases hp : c = 'p'
      · subst hp
        exact absurd h1 (by decide)
      · by_cases hP : c = 'P'
        · subst hP
          exact absurd h1 (by decide)
        · simp [hp, hP]
    rcases hexp with ⟨hfalse, _⟩ | ⟨c', e', hce', hlow, hshape⟩
    · cases hfalse
    have hstop : ∀ c e, s3 = c :: e → (!(c == 'p' || c == 'P')) = false := by
      intro c e hce
      rw [hce] at hce'
      have hc : c = c' := (List.cons.inj hce').1
      rcases lower_eq_p c' hlow with h1 | h1 <;> simp [hc, h1]
    obtain ⟨ht, hd⟩ := takeWhile_dropWhile_append _ m _ hnotP hstop
    have hmant : mantissaShape isHexDigit m = true := by
      simp only [mantissaShape, hall, hany, Bool.and_self, Bool.true_and, decide_eq_true_eq]
      exact hcount
    have hdrop : (dropSign s).drop 2 = m ++ s3 := by
      rw [hs1]
      rfl
    refine ⟨rfl, ?_, ?_, ?_⟩
    · simp only [hexShape]
      rw [hs1]
      simp only []
      rw [ht, hd, hce']
      rcases hc1 with h1 | h1 <;> simp [h1, hmant, hshape]
    · rw [hdrop]
      by_cases hu : ∃ c ∈ m ++ s3, c = '_'
      · have hok := hU hu
        have hx : lower c1 = 120 := by
          rcases hc1 with rfl | rfl <;> decide
        rw [underscoreOK_hex s c1 (m ++ s3) hs1 hx] at hok
        have := underscoreScan_placed true _ _ hok
        rw [placed_hex] at this
        exact this
      · apply underscoresPlaced_of_none
        intro c hc hcu
        exact hu ⟨c, hc, hcu⟩
    · rw [habs, hM, hE]
      simp only [hexMagnitude]
      rw [hdrop, ht, hd]
      congr 1
      omega

theorem commonPrefixLen_spec (s w : List Char) :
    commonPrefixLenIgnoreCase s w ≤ s.length ∧
    (s.take (commonPrefixLenIgnoreCase s w)).map foldCase =
      w.take (commonPrefixLenIgnoreCase s w) := by
  induction s generalizing w with
  | nil => exact ⟨Nat.le_refl _, by simp [commonPrefixLenIgnoreCase]⟩
  | cons c cs ih =>
    cases w with
    | nil => exact ⟨Nat.zero_le _, by simp [commonPrefixLenIgnoreCase]⟩
    | cons p w =>
      have hstep : commonPrefixLenIgnoreCase (c :: cs) (p :: w) =
          if foldCase c = p then commonPrefixLenIgnoreCase cs w + 1 else 0 := rfl
      rw [hstep]
      by_cases hc : foldCase c = p
      · rw [if_pos hc]
        obtain ⟨h1, h2⟩ := ih w
        refine ⟨by simp only [List.length_cons]; omega, ?_⟩
        rw [List.take_succ_cons, List.take_succ_cons, List.map_cons, hc, h2]
      · rw [if_neg hc]
        exact ⟨Nat.zero_le _, rfl⟩

theorem special_cons (c : Char) (rest : List Char) :
    special (c :: rest) =
      if c = '+' ∨ c = '-' then specialInfinity (c == '-') 1 rest
      else if c = 'i' ∨ c = 'I' then specialInfinity false 0 (c :: rest)
      else if c = 'n' ∨ c = 'N' then
        if commonPrefixLenIgnoreCase (c :: rest) "nan".data = 3 then some (Float64.nan, 3)
        else none
      else none :=
  rfl

/-- The word read by the infinity branch of `special`, when it is the whole
text. -/
theorem specialInfinity_word (neg : Bool) (nsign : Nat) (body : List Char) (v : Float64)
    (n : Nat) (h : specialInfinity neg nsign body = some (v, n))
    (hn : n = nsign + body.length) :
    body.map foldCase = "inf".data ∨ body.map foldCase = "infinity".data := by
  obtain ⟨hle, htake⟩ := commonPrefixLen_spec body "infinity".data
  unfold specialInfinity at h
  simp only at h
  generalize commonPrefixLenIgnoreCase body "infinity".data = k at h hle htake
  by_cases hk : 3 < k ∧ k < 8
  · simp only [hk, and_self, if_true, true_or] at h
    cases h
    omega
  · simp only [hk, if_false] at h
    by_cases h38 : k = 3 ∨ k = 8
    · rw [if_pos h38] at h
      cases h
      have hlen : k = body.length := by omega
      rw [hlen, List.take_length] at htake
      rcases h38 with h3 | h8
      · left
        rw [htake, ← hlen, h3]
        rfl
      · right
        rw [htake, ← hlen, h8]
        rfl
    · rw [if_neg h38] at h
      cases h

theorem foldCase_sign (c : Char) (h : c = '+' ∨ c = '-') : foldCase c = c := by
  rcases h with rfl | rfl <;> rfl

/-- A text that `special` reads in full is one of the special words. -/
theorem special_sound (s : List Char) (v : Float64) (n : Nat)
    (h : special s = some (v, n)) (hn : n = s.length) : specialWord s = true := by
  cases s with
  | nil => cases h
  | cons c rest =>
    rw [special_cons] at h
    by_cases hsign : c = '+' ∨ c = '-'
    · rw [if_pos hsign] at h
      have hw := specialInfinity_word _ 1 rest v n h
        (by rw [hn, List.length_cons]; omega)
      have hdrop : dropSign ((c :: rest).map foldCase) = rest.map foldCase := by
        rw [List.map_cons, foldCase_sign c hsign]
        rcases hsign with rfl | rfl <;> rfl
      unfold specialWord
      simp only [hdrop]
      rcases hw with hw | hw <;> simp [hw]
    · rw [if_neg hsign] at h
      by_cases hi : c = 'i' ∨ c = 'I'
      · rw [if_pos hi] at h
        have hw := specialInfinity_word _ 0 (c :: rest) v n h (by rw [hn]; omega)
        have hdrop : dropSign ((c :: rest).map foldCase) = (c :: rest).map foldCase := by
          rw [List.map_cons]
          rcases hi with rfl | rfl <;> rfl
        unfold specialWord
        simp only [hdrop]
        rcases hw with hw | hw <;> simp [hw]
      · rw [if_neg hi] at h
        by_cases hnn : c = 'n' ∨ c = 'N'
        · rw [if_pos hnn] at h
          by_cases h3 : commonPrefixLenIgnoreCase (c :: rest) "nan".data = 3
          · rw [if_pos h3] at h
            cases h
            obtain ⟨_, htake⟩ := commonPrefixLen_spec (c :: rest) "nan".data
            rw [h3, hn, List.take_length] at htake
            unfold specialWord
            simp only [htake]
            rw [← hn]
            rfl
          · rw [if_neg h3] at h
            cases h
        · rw [if_neg hnn] at h
          cases h

/-- A text that `ParseFloat` accepts is a number as `numberShape` reads it. -/
theorem ParseFloat_sound (t : String) (v : Float64) (h : ParseFloat t = some v) :
    numberShape t = true := by
  unfold ParseFloat at h
  unfold numberShape
  cases hsp : special t.data with
  | some p =>
    obtain ⟨val, n⟩ := p
    rw [hsp] at h
    simp only at h
    by_cases hn : n = t.length
    · have := special_sound t.data val n hsp hn
      simp [this]
    · rw [if_neg hn] at h
      cases h
  | none =>
    rw [hsp] at h
    simp only at h
    cases hr : readFloat t.data with
    | none =>
      rw [hr] at h
      cases h
    | some l =>
      rw [hr] at h
      simp only at h
      by_cases hrest : l.rest = []
      · by_cases hover : overflowThreshold ≤ |l.value|
        · simp [hrest, hover] at h
        · rcases readFloat_sound t.data l hr hrest with ⟨_, h1, h2, h3⟩ | ⟨_, h1, h2, h3⟩
          · rw [h3] at hover
            simp [decimalNumber, h1, h2, lt_of_not_le hover]
          · rw [h3] at hover
            simp [hexNumber, h1, h2, lt_of_not_le hover]
      · simp [hrest] at h

/-! ### Reading a base-10 literal -/

theorem digitChar_scan (d : Fin 10) :
    isDigit (digitChar d) = true ∧ (digitChar d).toNat - 48 = d.val ∧
    digitChar d ≠ '_' ∧ digitChar d ≠ '.' := by
  revert d
  decide

theorem digitChar_head (d : Fin 10) :
    digitChar d ≠ '+' ∧ digitChar d ≠ '-' ∧ ¬ (digitChar d = 'i' ∨ digitChar d = 'I') ∧
    ¬ (digitChar d = 'n' ∨ digitChar d = 'N') ∧ foldCase (digitChar d) ≠ 'i' := by
  revert d
  decide

theorem digitChar_plain (d : Fin 10) :
    lower (digitChar d) ≠ 120 ∧ isDelimiter (digitChar d) = false := by
  revert d
  decide

/-- The digit loop over decimal digits. -/
theorem scanDigits_digits (ds : List (Fin 10)) (d : Digits) (rest : List Char) :
    scanDigits 10 d (ds.map digitChar ++ rest) =
      scanDigits 10
        { sawdot := d.sawdot, sawdigits := d.sawdigits || !ds.isEmpty,
          underscores := d.underscores, mantissa := digitsFrom d.mantissa ds,
          frac := if d.sawdot then d.frac + ds.length else d.frac } rest := by
  induction ds generalizing d with
  | nil =>
    cases d
    simp [digitsFrom]
  | cons x xs ih =>
    obtain ⟨h1, h2, h3, h4⟩ := digitChar_scan x
    rw [List.map_cons, List.cons_append, scanDigits]
    simp only [h3, h4, h1, h2, if_false, if_true]
    rw [ih]
    congr 1
    cases hdot : d.sawdot
    · simp [digitsFrom, hdot]
    · simp [digitsFrom, hdot]
      omega

/-- The digit loop stops at the end of the text and at an exponent letter. -/
theorem scanDigits_stop (d : Digits) (rest : List Char)
    (h : rest = [] ∨ ∃ c r, rest = c :: r ∧ (c = 'e' ∨ c = 'E')) :
    scanDigits 10 d rest = (d, rest) := by
  rcases h with rfl | ⟨c, r, rfl, hc⟩
  · rfl
  · rcases hc with rfl | rfl <;> rfl

theorem le_digitsFrom (ds : List (Fin 10)) (n : Nat) : n ≤ digitsFrom n ds := by
  induction ds generalizing n with
  | nil => exact Nat.le_refl _
  | cons x xs ih =>
    have h := ih (n * 10 + x.val)
    have h2 : digitsFrom n (x :: xs) = digitsFrom (n * 10 + x.val) xs := rfl
    rw [h2]
    omega

/-- The exponent loop over decimal digits. -/
theorem scanExp_digits (ds : List (Fin 10)) (e : Nat) (u : Bool) :
    scanExp e u (ds.map digitChar) = (readFrom e ds, u, []) := by
  induction ds generalizing e with
  | nil => rfl
  | cons x xs ih =>
    obtain ⟨h1, h2, h3, _⟩ := digitChar_scan x
    rw [List.map_cons, scanExp]
    simp only [h3, h1, h2, if_false, if_true]
    exact ih _

/-- An exponent number below 100000 is read as written. -/
theorem readFrom_small (ds : List (Fin 10)) (e : Nat) (h : digitsFrom e ds < 100000) :
    readFrom e ds = digitsFrom e ds := by
  induction ds generalizing e with
  | nil => rfl
  | cons x xs ih =>
    have hstep : digitsFrom e (x :: xs) = digitsFrom (e * 10 + x.val) xs := rfl
    rw [hstep] at h ⊢
    have hle := le_digitsFrom xs (e * 10 + x.val)
    have he : e < 10000 := by omega
    have hread : readFrom e (x :: xs) = readFrom (e * 10 + x.val) xs := by
      simp [readFrom, he]
    rw [hread]
    exact ih _ h

theorem exponentText_stop (l : DecimalLiteral) :
    l.exponentText = [] ∨ ∃ c r, l.exponentText = c :: r ∧ (c = 'e' ∨ c = 'E') := by
  unfold DecimalLiteral.exponentText
  cases l.exponent with
  | none => exact Or.inl rfl
  | some e =>
    right
    cases hu : e.upper
    · exact ⟨'e', signText e.sign ++ e.digits.map digitChar,
        by simp [ExponentPart.text, hu], Or.inl rfl⟩
    · exact ⟨'E', signText e.sign ++ e.digits.map digitChar,
        by simp [ExponentPart.text, hu], Or.inr rfl⟩

theorem digitsFrom_append (n : Nat) (as bs : List (Fin 10)) :
    digitsFrom (digitsFrom n as) bs = digitsFrom n (as ++ bs) := by
  simp [digitsFrom, List.foldl_append]

/-- The digit loop over a literal without its sign reads the mantissa and
stops at the exponent. -/
theorem scanDigits_literal (l : DecimalLiteral) :
    scanDigits 10 ⟨false, false, false, 0, 0⟩ (l.mantissaText ++ l.exponentText) =
      (⟨l.fracDigits.isSome, !(l.intDigits ++ l.frac).isEmpty, false,
        digitsValue (l.intDigits ++ l.frac), l.frac.length⟩, l.exponentText) := by
  unfold DecimalLiteral.mantissaText DecimalLiteral.frac digitsValue
  cases l.fracDigits with
  | none =>
    simp only [List.append_nil, Option.getD_none, Option.isSome_none]
    rw [scanDigits_digits, scanDigits_stop _ _ (exponentText_stop l)]
    simp
  | some fs =>
    simp only [Option.getD_some, Option.isSome_some, List.append_assoc, List.cons_append]
    rw [scanDigits_digits]
    simp only [Bool.false_eq_true, if_false, Bool.false_or]
    rw [scanDigits]
    simp only [Char.reduceEq, if_false, if_true, Bool.false_eq_true]
    rw [scanDigits_digits, scanDigits_stop _ _ (exponentText_stop l)]
    simp only [if_true, Nat.zero_add, digitsFrom_append]
    congr 2
    cases l.intDigits <;> cases fs <;> simp

/-- The characters a literal is written with. -/
theorem literal_chars (l : DecimalLiteral) :
    ∀ c ∈ signText l.sign ++ (l.mantissaText ++ l.exponentText),
      (∃ d, c = digitChar d) ∨ c = '.' ∨ c = 'e' ∨ c = 'E' ∨ c = '+' ∨ c = '-' := by
  have hsign : ∀ sg : Option Bool, ∀ c ∈ signText sg, c = '+' ∨ c = '-' := by
    intro sg c hc
    rcases sg with _ | _ | _
    · cases hc
    · exact Or.inl (List.mem_singleton.mp hc)
    · exact Or.inr (List.mem_singleton.mp hc)
  have hdig : ∀ ds : List (Fin 10), ∀ c ∈ ds.map digitChar, ∃ d, c = digitChar d := by
    intro ds c hc
    obtain ⟨d, _, rfl⟩ := List.mem_map.mp hc
    exact ⟨d, rfl⟩
  intro c hc
  rcases l with ⟨sg, ints, fracs, ex⟩
  rcases List.mem_append.mp hc with hc | hc
  · rcases hsign _ c hc with h | h
    · exact Or.inr (Or.inr (Or.inr (Or.inr (Or.inl h))))
    · exact Or.inr (Or.inr (Or.inr (Or.inr (Or.inr h))))
  · rcases List.mem_append.mp hc with hc | hc
    · rcases List.mem_append.mp hc with hc | hc
      · exact Or.inl (hdig _ c hc)
      · cases fracs with
        | none => cases hc
        | some fs =>
          rcases List.mem_cons.mp hc with h | h
          · exact Or.inr (Or.inl h)
          · exact Or.inl (hdig _ c h)
    · cases ex with
      | none => cases hc
      | some e =>
        rcases List.mem_cons.mp hc with h | h
        · cases hu : e.upper
          · rw [hu] at h
            exact Or.inr (Or.inr (Or.inl h))
          · rw [hu] at h
            exact Or.inr (Or.inr (Or.inr (Or.inl h)))
        · rcases List.mem_append.mp h with h | h
          · rcases hsign _ c h with h | h
            · exact Or.inr (Or.inr (Or.inr (Or.inr (Or.inl h))))
            · exact Or.inr (Or.inr (Or.inr (Or.inr (Or.inr h))))
          · exact Or.inl (hdig _ c h)

theorem literal_char_plain (c : Char)
    (h : (∃ d, c = digitChar d) ∨ c = '.' ∨ c = 'e' ∨ c = 'E' ∨ c = '+' ∨ c = '-') :
    lower c ≠ 120 ∧ isDelimiter c = false := by
  rcases h with ⟨d, rfl⟩ | rfl | rfl | rfl | rfl | rfl
  · exact digitChar_plain d
  all_goals decide

/-- A well-formed literal without its sign starts with a digit or a point. -/
theorem literal_head (l : DecimalLiteral) (hw : l.wellFormed) :
    ∃ c r, l.mantissaText ++ l.exponentText = c :: r ∧ (c = '.' ∨ ∃ d, c = digitChar d) := by
  rcases l with ⟨sg, ints, fracs, ex⟩
  cases ints with
  | cons x xs => exact ⟨digitChar x, _, rfl, Or.inr ⟨x, rfl⟩⟩
  | nil =>
    cases fracs with
    | some fs => exact ⟨'.', _, rfl, Or.inl rfl⟩
    | none => exact absurd rfl hw.1

theorem head_facts (c : Char) (h : c = '.' ∨ ∃ d, c = digitChar d) :
    c ≠ '+' ∧ c ≠ '-' ∧ ¬ (c = 'i' ∨ c = 'I') ∧ ¬ (c = 'n' ∨ c = 'N') ∧ foldCase c ≠ 'i' := by
  rcases h with rfl | ⟨d, rfl⟩
  · decide
  · exact digitChar_head d

/-- The sign read by `readFloat` from a literal. -/
theorem readSign_literal (sg : Option Bool) (c : Char) (r : List Char)
    (hc : c ≠ '+' ∧ c ≠ '-') :
    readSign (signText sg ++ c :: r) = (decide (sg = some true), c :: r) := by
  rcases sg with _ | _ | _
  · simp [signText, readSign, hc.1, hc.2]
  · rfl
  · rfl

theorem readBase_plain (s1 : List Char) (h : ∀ c ∈ s1, lower c ≠ 120) :
    readBase s1 = (false, s1) := by
  rcases s1 with _ | ⟨c0, _ | ⟨c1, _ | ⟨c2, rest⟩⟩⟩
  · rfl
  · rfl
  · rfl
  · rw [readBase_cons, if_neg]
    intro hc
    exact h c1 (by simp) hc.2

/-- A text that starts, after an optional sign, with a digit or a point is not
a special word. -/
theorem special_literal (sg : Option Bool) (c : Char) (r : List Char)
    (hc : c ≠ '+' ∧ c ≠ '-' ∧ ¬ (c = 'i' ∨ c = 'I') ∧ ¬ (c = 'n' ∨ c = 'N') ∧ foldCase c ≠ 'i') :
    special (signText sg ++ c :: r) = none := by
  obtain ⟨h1, h2, h3, h4, h5⟩ := hc
  have hinf : ∀ neg : Bool, specialInfinity neg 1 (c :: r) = none := by
    intro neg
    have hk : commonPrefixLenIgnoreCase (c :: r) "infinity".data = 0 := by
      show (if foldCase c = 'i' then _ else 0) = 0
      rw [if_neg h5]
    simp [specialInfinity, hk]
  rcases sg with _ | _ | _
  · show special (c :: r) = none
    rw [special_cons]
    simp [h1, h2, h3, h4]
  · show special ('+' :: c :: r) = none
    rw [special_cons, if_pos (Or.inl rfl)]
    exact hinf _
  · show special ('-' :: c :: r) = none
    rw [special_cons, if_pos (Or.inr rfl)]
    exact hinf _

/-- The exponent `readFloat` reads from a literal. -/
theorem readExponent_literal (s : List Char) (neg sawdot sawdigits : Bool) (M fr : Nat)
    (l : DecimalLiteral) (hw : ∀ e ∈ l.exponent, e.digits ≠ []) :
    readExponent s neg false ⟨sawdot, sawdigits, false, M, fr⟩ l.exponentText =
      some ⟨neg, false, M,
        (match l.exponent with
          | none => 0
          | some e => e.readValue) - (fr : Int), []⟩ := by
  rcases l with ⟨sg, ints, fracs, _ | ⟨upper, esg, ds⟩⟩
  · simp [DecimalLiteral.exponentText, readExponent, readFinish]
  · have hds : ds ≠ [] := hw _ rfl
    cases ds with
    | nil => exact absurd rfl hds
    | cons x xs =>
      obtain ⟨hd1, _, _, _⟩ := digitChar_scan x
      obtain ⟨hp, hm, _⟩ := digitChar_head x
      have hscan := scanExp_digits (x :: xs) 0 false
      rw [List.map_cons] at hscan
      have hlow : lower (if upper = true then 'E' else 'e') = 101 := by
        cases upper <;> rfl
      have hfin : ∀ esign : Int,
          (if (!isDigit (digitChar x)) = true then none
            else
              match scanExp 0 false (digitChar x :: xs.map digitChar) with
              | (e, u, rest) => readFinish s neg false M u (-(fr : Int) + (e : Int) * esign) rest) =
          some ⟨neg, false, M, -(fr : Int) + (readFrom 0 (x :: xs) : Int) * esign, []⟩ := by
        intro esign
        rw [hscan]
        simp [hd1, readFinish]
      rcases esg with _ | _ | _
      · simp only [DecimalLiteral.exponentText, ExponentPart.text, signText, List.nil_append,
          List.map_cons, readExponent, hlow, Bool.false_eq_true, if_false, if_true, hp, hm]
        rw [hfin 1]
        simp [ExponentPart.readValue]
        ring
      · simp only [DecimalLiteral.exponentText, ExponentPart.text, signText, List.cons_append,
          List.nil_append, List.map_cons, readExponent, hlow, Bool.false_eq_true, if_false,
          if_true]
        rw [hfin 1]
        simp [ExponentPart.readValue]
        ring
      · simp only [DecimalLiteral.exponentText, ExponentPart.text, signText, List.cons_append,
          List.nil_append, List.map_cons, readExponent, hlow, Bool.false_eq_true, if_false,
          if_true, Char.reduceEq]
        rw [hfin (-1)]
        simp [ExponentPart.readValue]
        ring

/-- The value of a decimal literal read by `readFloat`, as a power of ten. -/
theorem value_decimal (neg : Bool) (M : Nat) (E : Int) :
    Literal.value ⟨neg, false, M, E, []⟩ = (if neg = true then -1 else 1) * scaled M 10 E := by
  have hm : (if E < 0 then (M : ℚ) / 10 ^ E.natAbs else (M : ℚ) * 10 ^ E.natAbs) =
      scaled M 10 E := by
    unfold scaled
    split <;> simp
  unfold Literal.value
  simp only [Bool.false_eq_true, if_false]
  rw [hm]
  cases neg <;> simp

/-- A well-formed literal is read in full by `readFloat`, with its digits and
its scale as read. -/
theorem readFloat_literal (l : DecimalLiteral) (hw : l.wellFormed) :
    readFloat l.text.data =
      some ⟨decide (l.sign = some true), false, digitsValue (l.intDigits ++ l.frac),
        l.readScale, []⟩ := by
  obtain ⟨c, r, hbody, hc⟩ := literal_head l hw
  obtain ⟨hp, hm, _⟩ := head_facts c hc
  have htext : l.text.data = signText l.sign ++ c :: r := by
    rw [← hbody]
    rfl
  have hplain : ∀ a ∈ c :: r, lower a ≠ 120 := by
    intro a ha
    rw [← hbody] at ha
    exact (literal_char_plain a (literal_chars l a (List.mem_append_right _ ha))).1
  have hne : signText l.sign ++ c :: r ≠ [] := by simp
  have hdig : (!(l.intDigits ++ l.frac).isEmpty) = true := by
    have := hw.1
    cases h : l.intDigits ++ l.frac with
    | nil => exact absurd h this
    | cons a as => rfl
  rw [readFloat_steps, htext, if_neg hne, readSign_literal _ c r ⟨hp, hm⟩]
  simp only []
  rw [readBase_plain (c :: r) hplain]
  simp only [Bool.false_eq_true, if_false]
  rw [← hbody, scanDigits_literal]
  simp only [hdig, Bool.not_true, Bool.false_eq_true, if_false]
  rw [readExponent_literal _ _ _ _ _ _ l hw.2]
  rfl

/-- A well-formed base-10 literal is accepted by `ParseFloat` exactly when the
magnitude read from it is below the overflow threshold. -/
theorem ParseFloat_literal (l : DecimalLiteral) (hw : l.wellFormed) :
    (overflowThreshold ≤ |l.readValue| → ParseFloat l.text = none) ∧
    (|l.readValue| < overflowThreshold → ∃ x, ParseFloat l.text = some x) := by
  obtain ⟨c, r, hbody, hc⟩ := literal_head l hw
  have htext : l.text.data = signText l.sign ++ c :: r := by
    rw [← hbody]
    rfl
  have hsp : special l.text.data = none := by
    rw [htext]
    exact special_literal _ c r (head_facts c hc)
  have hval : Literal.value ⟨decide (l.sign = some true), false,
      digitsValue (l.intDigits ++ l.frac), l.readScale, []⟩ = l.readValue := by
    rw [value_decimal]
    unfold DecimalLiteral.readValue
    simp
  unfold ParseFloat
  rw [hsp, readFloat_literal l hw]
  simp only [ne_eq, not_true_eq_false, if_false, hval]
  exact ⟨fun hov => if_pos hov, fun hlt => ⟨_, if_neg (not_le.mpr hlt)⟩⟩

/-- A literal whose exponent is written with a number below 100000 is read as
the number it denotes. -/
theorem readValue_small (l : DecimalLiteral)
    (hsmall : ∀ e ∈ l.exponent, digitsValue e.digits < 100000) : l.readValue = l.value := by
  have hscale : l.readScale = l.scale := by
    unfold DecimalLiteral.readScale DecimalLiteral.scale
    cases hex : l.exponent with
    | none => rfl
    | some e =>
      have h := hsmall e (by rw [hex]; rfl)
      simp only [ExponentPart.readValue, ExponentPart.value, digitsValue,
        readFrom_small e.digits 0 h]
  unfold DecimalLiteral.readValue DecimalLiteral.value
  rw [hscale]

/-- A text without delimiters is a single token. -/
theorem tokens_single (text : String) (hne : text.data ≠ [])
    (h : ∀ c ∈ text.data, isDelimiter c = false) : tokens text = [text] := by
  unfold tokens
  have hs : text.data.splitOnP isDelimiter = [text.data] :=
    List.splitOnP_eq_single isDelimiter text.data (fun c hc => by simp [h c hc])
  rw [hs]
  simp [hne]

/-! ### Every number is read -/

/-- The digit loop reads a mantissa to its end, and reports its digits. -/
theorem scanDigits_complete (base : Nat) (m s3 : List Char) (d : Digits)
    (hall : m.all (fun c => isDigitOf base c || c == '.' || c == '_') = true)
    (hcount : m.count '.' ≤ (if d.sawdot = true then 0 else 1))
    (hstop : ∀ c e, s3 = c :: e → c ≠ '_' ∧ c ≠ '.' ∧ isDigitOf base c = false) :
    (scanDigits base d (m ++ s3)).2 = s3 ∧
    (scanDigits base d (m ++ s3)).1.sawdigits = (d.sawdigits || m.any (isDigitOf base)) := by
  induction m generalizing d with
  | nil =>
    cases s3 with
    | nil => exact ⟨rfl, by simp [scanDigits]⟩
    | cons c e =>
      obtain ⟨h1, h2, h3⟩ := hstop c e rfl
      have h4 : ¬ isDigit c = true := by
        intro h
        simp [isDigitOf, h] at h3
      have h5 : ¬ (base = 16 ∧ isHexLetter c = true) := by
        rintro ⟨hb, hl⟩
        simp [isDigitOf, hb, hl] at h3
      rw [List.nil_append]
      unfold scanDigits
      rw [if_neg h1, if_neg h2, if_neg h4, if_neg h5]
      exact ⟨rfl, by simp⟩
  | cons c cs ih =>
    rw [List.all_cons, Bool.and_eq_true] at hall
    obtain ⟨hc, hall⟩ := hall
    rw [List.cons_append]
    unfold scanDigits
    by_cases h1 : c = '_'
    · rw [if_pos h1]
      subst h1
      rw [List.count_cons_of_ne (by decide)] at hcount
      obtain ⟨ha, hb⟩ := ih { d with underscores := true } hall hcount
      refine ⟨ha, ?_⟩
      rw [hb, List.any_cons, isDigitOf_underscore]
      simp
    · rw [if_neg h1]
      by_cases h2 : c = '.'
      · subst h2
        rw [if_pos rfl]
        rw [List.count_cons_self] at hcount
        by_cases h3 : d.sawdot = true
        · rw [if_pos h3] at hcount
          omega
        · rw [if_neg h3] at hcount ⊢
          obtain ⟨ha, hb⟩ := ih { d with sawdot := true } hall (by simp; omega)
          refine ⟨ha, ?_⟩
          rw [hb, List.any_cons, isDigitOf_point]
          simp
      · rw [if_neg h2]
        rw [List.count_cons_of_ne (fun h => h2 h.symm)] at hcount
        by_cases h4 : isDigit c = true
        · rw [if_pos h4]
          have hdig : isDigitOf base c = true := by simp [isDigitOf, h4]
          obtain ⟨ha, hb⟩ := ih
            { d with sawdigits := true, mantissa := d.mantissa * base + (c.toNat - 48),
                     frac := if d.sawdot then d.frac + 1 else d.frac } hall hcount
          refine ⟨ha, ?_⟩
          rw [hb, List.any_cons, hdig]
          simp
        · rw [if_neg h4]
          have h5 : base = 16 ∧ isHexLetter c = true := by
            simpa [isDigitOf, h4, h1, h2] using hc
          have hdig : isDigitOf base c = true := by simp [isDigitOf, h5.1, h5.2]
          rw [if_pos h5]
          obtain ⟨ha, hb⟩ := ih
            { d with sawdigits := true, mantissa := d.mantissa * 16 + (lower c - 97 + 10),
                     frac := if d.sawdot then d.frac + 1 else d.frac } hall hcount
          refine ⟨ha, ?_⟩
          rw [hb, List.any_cons, hdig]
          simp

/-- The exponent loop reads digits and underscores to their end. -/
theorem scanExp_complete (ds : List Char) (e : Nat) (u : Bool)
    (h : ds.all (fun c => isDigit c || c == '_') = true) : (scanExp e u ds).2.2 = [] := by
  induction ds generalizing e u with
  | nil => rfl
  | cons c cs ih =>
    rw [List.all_cons, Bool.and_eq_true] at h
    unfold scanExp
    by_cases h1 : c = '_'
    · rw [if_pos h1]
      exact ih _ _ h.2
    · rw [if_neg h1]
      have h2 : isDigit c = true := by simpa [h1] using h.1
      rw [if_pos h2]
      exact ih _ _ h.2

/-- The exponent of a number is read to the end of the text, when the
underscores of the text are in their places. -/
theorem readExponent_complete (s : List Char) (neg hex : Bool) (d : Digits) (s3 : List Char)
    (hs3 : (hex = false ∧ s3 = []) ∨
      ∃ c e, s3 = c :: e ∧ lower c = (if hex then 112 else 101) ∧ exponentShape e = true)
    (hok : underscoreOK s = true) :
    ∃ l, readExponent s neg hex d s3 = some l ∧ l.rest = [] ∧ l.hex = hex := by
  have hfin : ∀ (u : Bool) (ex : Int),
      readFinish s neg hex d.mantissa u ex [] = some ⟨neg, hex, d.mantissa, ex, []⟩ := by
    intro u ex
    simp [readFinish, hok]
  rcases hs3 with ⟨hh, rfl⟩ | ⟨c, e, rfl, hlow, hshape⟩
  · subst hh
    have hstep : readExponent s neg false d [] =
        readFinish s neg false d.mantissa d.underscores (-(d.frac : Nat)) [] := rfl
    rw [hstep, hfin]
    exact ⟨_, rfl, rfl, rfl⟩
  · have key : ∀ s6 : List Char, ∀ esign : Int, s6 = dropSign e → ∀ o : Option Literal,
        o = (match s6 with
          | [] => none
          | c2 :: _ =>
            if !isDigit c2 then none else
            let (e, u, rest) := scanExp 0 d.underscores s6
            readFinish s neg hex d.mantissa u
              ((if hex then -(4 * d.frac : Nat) else -(d.frac : Nat) : Int) + e * esign) rest) →
        ∃ l, o = some l ∧ l.rest = [] ∧ l.hex = hex := by
      intro s6 esign hs6 o ho
      subst ho
      unfold exponentShape at hshape
      rw [← hs6] at hshape
      cases s6 with
      | nil => simp at hshape
      | cons c2 r =>
        simp only [Bool.and_eq_true] at hshape
        obtain ⟨hdig, hall⟩ := hshape
        have hrest := scanExp_complete (c2 :: r) 0 d.underscores hall
        simp only [hdig, Bool.not_true, Bool.false_eq_true, if_false]
        rcases hsc : scanExp 0 d.underscores (c2 :: r) with ⟨e1, u, rest⟩
        rw [hsc] at hrest
        simp only at hrest
        subst hrest
        simp only []
        rw [hfin]
        exact ⟨_, rfl, rfl, rfl⟩
    cases e with
    | nil => simp [exponentShape, dropSign] at hshape
    | cons c1 s5 =>
      by_cases hp : c1 = '+'
      · subst hp
        simp only [readExponent, hlow, if_true]
        exact key s5 1 rfl _ rfl
      · by_cases hm : c1 = '-'
        · subst hm
          simp only [readExponent, hlow, if_true]
          exact key s5 (-1) rfl _ rfl
        · simp only [readExponent, hlow, if_true, hp, hm, if_false]
          exact key (c1 :: s5) 1 (by simp [dropSign, isSign, hp, hm]) _ rfl

/-- Underscores that stand between digits pass the loop of `underscoreOK`. -/
theorem underscoreScan_of_placed (hex : Bool) (cs : List Char) (saw : Char) (hsaw : saw ≠ '_')
    (h : underscoresPlaced (fun c => isDigit c || (hex && isHexLetter c)) (saw == '0') cs = true) :
    underscoreScan hex saw cs = true := by
  induction cs generalizing saw with
  | nil => simp [underscoreScan, hsaw]
  | cons c cs ih =>
    unfold underscoresPlaced at h
    unfold underscoreScan
    by_cases hd : (isDigit c || (hex && isHexLetter c)) = true
    · have hc : c ≠ '_' := by
        rintro rfl
        have h1 : isDigit '_' = false := by decide
        have h2 : isHexLetter '_' = false := by decide
        simp [h1, h2] at hd
      rw [if_neg hc] at h
      rw [if_pos hd]
      apply ih '0' (by decide)
      simpa [hd] using h
    · rw [if_neg hd]
      by_cases hu : c = '_'
      · rw [if_pos hu] at h ⊢
        simp only [Bool.and_eq_true, beq_iff_eq] at h
        obtain ⟨⟨h0, hnext⟩, hrest⟩ := h
        subst h0
        simp only [bne_self_eq_false, Bool.false_eq_true, if_false]
        cases cs with
        | nil => cases hnext
        | cons d cs2 =>
          simp only at hnext
          have := ih '!' (by decide) (by simpa using hrest)
          unfold underscoreScan at this ⊢
          rw [if_pos hnext] at this ⊢
          exact this
      · rw [if_neg hu] at h ⊢
        rw [if_neg hsaw]
        apply ih '!' (by decide)
        have hd2 : (isDigit c || (hex && isHexLetter c)) = false := by
          simpa using hd
        simpa [hd2] using h

theorem foldCase_eq_i (c : Char) (h : foldCase c = 'i') : c = 'i' ∨ c = 'I' := by
  unfold foldCase at h
  by_cases hu : 65 ≤ c.toNat ∧ c.toNat ≤ 90
  · rw [if_pos hu] at h
    have key : ∀ n ≤ 90, 65 ≤ n → Char.ofNat (n + 32) = 'i' → n = 73 := by decide
    exact Or.inr (char_eq_of_toNat c 73 (key c.toNat hu.2 hu.1 h))
  · rw [if_neg hu] at h
    exact Or.inl h

theorem foldCase_eq_n (c : Char) (h : foldCase c = 'n') : c = 'n' ∨ c = 'N' := by
  unfold foldCase at h
  by_cases hu : 65 ≤ c.toNat ∧ c.toNat ≤ 90
  · rw [if_pos hu] at h
    have key : ∀ n ≤ 90, 65 ≤ n → Char.ofNat (n + 32) = 'n' → n = 78 := by decide
    exact Or.inr (char_eq_of_toNat c 78 (key c.toNat hu.2 hu.1 h))
  · rw [if_neg hu] at h
    exact Or.inl h

theorem isSign_foldCase (c : Char) : isSign (foldCase c) = isSign c := by
  unfold foldCase
  by_cases hu : 65 ≤ c.toNat ∧ c.toNat ≤ 90
  · rw [if_pos hu]
    have key : ∀ n ≤ 90, 65 ≤ n → isSign (Char.ofNat (n + 32)) = false := by decide
    rw [key c.toNat hu.2 hu.1]
    have hp : c ≠ '+' := by
      rintro rfl
      exact absurd hu (by decide)
    have hm : c ≠ '-' := by
      rintro rfl
      exact absurd hu (by decide)
    simp [isSign, hp, hm]
  · rw [if_neg hu]

theorem dropSign_map (s : List Char) :
    dropSign (s.map foldCase) = (dropSign s).map foldCase := by
  cases s with
  | nil => rfl
  | cons c r =>
    simp only [List.map_cons, dropSign, isSign_foldCase]
    split <;> rfl

/-- A text that is a word up to the case of its letters matches every word
that starts with this word, in full. -/
theorem commonPrefixLen_full (s w v : List Char) (h : s.map foldCase = w) :
    commonPrefixLenIgnoreCase s (w ++ v) = s.length := by
  induction s generalizing w with
  | nil =>
    subst h
    cases v <;> rfl
  | cons c cs ih =>
    subst h
    show (if foldCase c = foldCase c then
      commonPrefixLenIgnoreCase cs (cs.map foldCase ++ v) + 1 else 0) = _
    rw [if_pos rfl, ih _ rfl]
    rfl

/-- The infinity branch of `special` reads the words "inf" and "infinity". -/
theorem specialInfinity_complete (neg : Bool) (nsign : Nat) (body : List Char)
    (h : body.map foldCase = "inf".data ∨ body.map foldCase = "infinity".data) :
    specialInfinity neg nsign body = some (Float64.inf neg, nsign + body.length) := by
  rcases h with h | h
  · have hk : commonPrefixLenIgnoreCase body "infinity".data = body.length :=
      commonPrefixLen_full body "inf".data "inity".data h
    have hlen : body.length = 3 := by
      have := congrArg List.length h
      simpa using this
    unfold specialInfinity
    simp [hk, hlen]
  · have hk : commonPrefixLenIgnoreCase body "infinity".data = body.length := by
      have := commonPrefixLen_full body "infinity".data [] h
      simpa using this
    have hlen : body.length = 8 := by
      have := congrArg List.length h
      simpa using this
    unfold specialInfinity
    simp [hk, hlen]

/-- A special word is read in full by `special`. -/
theorem special_complete (s : List Char) (h : specialWord s = true) :
    ∃ v, special s = some (v, s.length) := by
  unfold specialWord at h
  simp only [Bool.or_eq_true, beq_iff_eq] at h
  rw [dropSign_map] at h
  cases s with
  | nil =>
    exfalso
    revert h
    decide
  | cons c rest =>
    rw [special_cons]
    have hinf : (dropSign (c :: rest)).map foldCase = "inf".data ∨
        (dropSign (c :: rest)).map foldCase = "infinity".data →
        ∃ v, (if c = '+' ∨ c = '-' then specialInfinity (c == '-') 1 rest
          else if c = 'i' ∨ c = 'I' then specialInfinity false 0 (c :: rest)
          else if c = 'n' ∨ c = 'N' then
            if commonPrefixLenIgnoreCase (c :: rest) "nan".data = 3 then some (Float64.nan, 3)
            else none
          else none) = some (v, (c :: rest).length) := by
      intro hw
      by_cases hsign : c = '+' ∨ c = '-'
      · have hd : dropSign (c :: rest) = rest := by
          rcases hsign with rfl | rfl <;> rfl
        rw [hd] at hw
        rw [if_pos hsign, specialInfinity_complete _ 1 rest hw, List.length_cons, Nat.add_comm]
        exact ⟨_, rfl⟩
      · have hd : dropSign (c :: rest) = c :: rest := by
          have h1 : c ≠ '+' := fun h => hsign (Or.inl h)
          have h2 : c ≠ '-' := fun h => hsign (Or.inr h)
          simp [dropSign, isSign, h1, h2]
        rw [hd] at hw
        have hi : c = 'i' ∨ c = 'I' := by
          apply foldCase_eq_i
          rcases hw with hw | hw
          · exact (List.cons.inj hw).1
          · exact (List.cons.inj hw).1
        rw [if_neg hsign, if_pos hi, specialInfinity_complete _ 0 (c :: rest) hw, Nat.zero_add]
        exact ⟨_, rfl⟩
    rcases h with (h | h) | h
    · have hn : c = 'n' ∨ c = 'N' := foldCase_eq_n c (List.cons.inj h).1
      have hsign : ¬ (c = '+' ∨ c = '-') := by
        rcases hn with rfl | rfl <;> decide
      have hi : ¬ (c = 'i' ∨ c = 'I') := by
        rcases hn with rfl | rfl <;> decide
      have hk : commonPrefixLenIgnoreCase (c :: rest) "nan".data = (c :: rest).length := by
        have := commonPrefixLen_full (c :: rest) "nan".data [] h
        simpa using this
      have hlen : (c :: rest).length = 3 := by
        have := congrArg List.length h
        simpa using this
      rw [if_neg hsign, if_neg hi, if_pos hn, hk, hlen, if_pos rfl]
      exact ⟨_, rfl⟩
    · exact hinf (Or.inl h)
    · exact hinf (Or.inr h)

/-- A text that starts, after an optional sign, with a digit, a point or an
underscore is not a special word. -/
theorem special_none (s : List Char) (c : Char) (r : List Char) (hs : dropSign s = c :: r)
    (hc : isDigit c = true ∨ c = '.' ∨ c = '_') : special s = none := by
  have hfacts : c ≠ '+' ∧ c ≠ '-' ∧ ¬ (c = 'i' ∨ c = 'I') ∧ ¬ (c = 'n' ∨ c = 'N') ∧
      foldCase c ≠ 'i' := by
    rcases hc with hc | rfl | rfl
    · have hb : 48 ≤ c.toNat ∧ c.toNat ≤ 57 := by
        simpa [isDigit] using hc
      have hne : ∀ x : Char, ¬ (48 ≤ x.toNat ∧ x.toNat ≤ 57) → c ≠ x := by
        rintro x hx rfl
        exact hx hb
      have hfold : foldCase c = c := by
        unfold foldCase
        rw [if_neg (by omega)]
      refine ⟨hne _ (by decide), hne _ (by decide), ?_, ?_, ?_⟩
      · rintro (h | h)
        · exact hne _ (by decide) h
        · exact hne _ (by decide) h
      · rintro (h | h)
        · exact hne _ (by decide) h
        · exact hne _ (by decide) h
      · rw [hfold]
        exact hne _ (by decide)
    · decide
    · decide
  cases s with
  | nil => cases hs
  | cons a t =>
    by_cases hp : a = '+'
    · subst hp
      have ht : t = c :: r := hs
      subst ht
      exact special_literal (some false) c r hfacts
    · by_cases hm : a = '-'
      · subst hm
        have ht : t = c :: r := hs
        subst ht
        exact special_literal (some true) c r hfacts
      · have hd : dropSign (a :: t) = a :: t := by simp [dropSign, isSign, hp, hm]
        rw [hd] at hs
        rw [hs]
        exact special_literal none c r hfacts

/-- The parts of a text of the shape of a base-10 literal. -/
theorem decimalShape_parts (s : List Char) (h : decimalShape s = true) :
    ∃ m s3, dropSign s = m ++ s3 ∧ mantissaShape isDigit m = true ∧
      (s3 = [] ∨ ∃ c e, s3 = c :: e ∧ (c = 'e' ∨ c = 'E') ∧ exponentShape e = true) := by
  unfold decimalShape at h
  simp only [Bool.and_eq_true] at h
  obtain ⟨hm, hx⟩ := h
  refine ⟨_, _, (List.takeWhile_append_dropWhile (fun c => !(c == 'e' || c == 'E'))
    (dropSign s)).symm, hm, ?_⟩
  have hhead := List.head?_dropWhile_not (fun c => !(c == 'e' || c == 'E')) (dropSign s)
  generalize (dropSign s).dropWhile (fun c => !(c == 'e' || c == 'E')) = x at hx hhead
  cases x with
  | nil => exact Or.inl rfl
  | cons c e =>
    right
    have hc : c = 'e' ∨ c = 'E' := by
      have h2 : ¬ c = 'e' → c = 'E' := by simpa using hhead
      by_cases h3 : c = 'e'
      · exact Or.inl h3
      · exact Or.inr (h2 h3)
    exact ⟨c, e, rfl, hc, hx⟩

/-- The parts of a text of the shape of a hexadecimal literal. -/
theorem hexShape_parts (s : List Char) (h : hexShape s = true) :
    ∃ c1 m c e, dropSign s = '0' :: c1 :: (m ++ c :: e) ∧ (c1 = 'x' ∨ c1 = 'X') ∧
      mantissaShape isHexDigit m = true ∧ (c = 'p' ∨ c = 'P') ∧ exponentShape e = true := by
  unfold hexShape at h
  rcases hd : dropSign s with _ | ⟨c0, _ | ⟨c1, b⟩⟩
  · rw [hd] at h
    cases h
  · rw [hd] at h
    cases h
  · rw [hd] at h
    simp only [Bool.and_eq_true, Bool.or_eq_true, beq_iff_eq] at h
    obtain ⟨⟨⟨h0, h1⟩, hm⟩, hx⟩ := h
    have hsplit := (List.takeWhile_append_dropWhile (fun c => !(c == 'p' || c == 'P')) b).symm
    have hhead := List.head?_dropWhile_not (fun c => !(c == 'p' || c == 'P')) b
    generalize b.dropWhile (fun c => !(c == 'p' || c == 'P')) = x at hx hhead hsplit
    cases x with
    | nil => cases hx
    | cons c e =>
      have hc : c = 'p' ∨ c = 'P' := by
        have h2 : ¬ c = 'p' → c = 'P' := by simpa using hhead
        by_cases h3 : c = 'p'
        · exact Or.inl h3
        · exact Or.inr (h2 h3)
      refine ⟨c1, _, c, e, ?_, h1, hm, hc, hx⟩
      rw [h0, ← hsplit]

/-- The characters of a base-10 literal are not letters of a base prefix. -/
theorem decimal_chars (m s3 : List Char)
    (hall : m.all (fun c => isDigit c || c == '.' || c == '_') = true)
    (hs3 : s3 = [] ∨ ∃ c e, s3 = c :: e ∧ (c = 'e' ∨ c = 'E') ∧ exponentShape e = true) :
    ∀ c ∈ m ++ s3, ¬ (lower c = 98 ∨ lower c = 111 ∨ lower c = 120) := by
  have hdig : ∀ c : Char, isDigit c = true →
      ¬ (lower c = 98 ∨ lower c = 111 ∨ lower c = 120) := by
    intro c hc
    have := lower_digit c hc
    omega
  intro c hc
  rcases List.mem_append.mp hc with hc | hc
  · have h1 := List.all_eq_true.mp hall c hc
    simp only [Bool.or_eq_true, beq_iff_eq] at h1
    rcases h1 with (h1 | h1) | h1
    · exact hdig c h1
    · subst h1
      decide
    · subst h1
      decide
  · rcases hs3 with hnil | ⟨c1, e1, hce, hlow, hshape⟩
    · rw [hnil] at hc
      cases hc
    · rw [hce] at hc
      rcases List.mem_cons.mp hc with hc | hc
      · rcases hlow with h1 | h1
        · rw [hc, h1]
          decide
        · rw [hc, h1]
          decide
      · rcases exponentShape_chars e1 hshape c hc with h1 | h1 | h1 | h1
        · subst h1
          decide
        · subst h1
          decide
        · exact hdig c h1
        · subst h1
          decide

/-- A base-10 literal with its underscores between digits is read in full by
`readFloat`, and is not a special word. -/
theorem readFloat_decimal (s : List Char) (hshape : decimalShape s = true)
    (hplaced : underscoresPlaced isDigit false (dropSign s) = true) :
    special s = none ∧ ∃ l, readFloat s = some l ∧ l.rest = [] ∧ l.hex = false := by
  obtain ⟨m, s3, hbody, hm, hs3⟩ := decimalShape_parts s hshape
  unfold mantissaShape at hm
  simp only [Bool.and_eq_true, decide_eq_true_eq] at hm
  obtain ⟨⟨hall, hany⟩, hcount⟩ := hm
  have hexp : (false = false ∧ s3 = []) ∨ ∃ c e, s3 = c :: e ∧
      lower c = (if false = true then 112 else 101) ∧ exponentShape e = true := by
    rcases hs3 with h0 | ⟨c, e, hce, hc, he⟩
    · exact Or.inl ⟨rfl, h0⟩
    · exact Or.inr ⟨c, e, hce, by rcases hc with rfl | rfl <;> rfl, he⟩
  have hchars : ∀ c ∈ dropSign s, ¬ (lower c = 98 ∨ lower c = 111 ∨ lower c = 120) := by
    rw [hbody]
    exact decimal_chars m s3 hall hs3
  have hok : underscoreOK s = true := by
    rw [underscoreOK_decimal s hchars]
    apply underscoreScan_of_placed false _ '^' (by decide)
    rw [placed_decimal]
    exact hplaced
  have hne : s ≠ [] := by
    rintro rfl
    obtain ⟨c, hcm, _⟩ := List.any_eq_true.mp hany
    have hnil : m ++ s3 = [] := hbody.symm
    rw [(List.append_eq_nil.mp hnil).1] at hcm
    cases hcm
  have hbase : readBase (dropSign s) = (false, dropSign s) :=
    readBase_plain _ (fun c hc h => hchars c hc (Or.inr (Or.inr h)))
  have hstop : ∀ c e, s3 = c :: e → c ≠ '_' ∧ c ≠ '.' ∧ isDigitOf 10 c = false := by
    intro c e hce
    rcases hs3 with h0 | ⟨c1, e1, hce1, hc, _⟩
    · rw [h0] at hce
      cases hce
    · rw [hce1] at hce
      have hcc : c = c1 := (List.cons.inj hce).1.symm
      rcases hc with h1 | h1
      · rw [hcc, h1]
        decide
      · rw [hcc, h1]
        decide
  obtain ⟨hrest, hsaw⟩ := scanDigits_complete 10 m s3 ⟨false, false, false, 0, 0⟩
    (by rw [isDigitOf_ten]; exact hall) (by simpa using hcount) hstop
  rw [isDigitOf_ten, hany] at hsaw
  obtain ⟨l, hl, hr, hh⟩ := readExponent_complete s (readSign s).1 false
    (scanDigits 10 ⟨false, false, false, 0, 0⟩ (m ++ s3)).1 s3 hexp hok
  refine ⟨?_, l, ?_, hr, hh⟩
  · cases m with
    | nil => cases hany
    | cons c0 m1 =>
      apply special_none s c0 (m1 ++ s3) hbody
      have h1 := List.all_eq_true.mp hall c0 (List.mem_cons_self _ _)
      simpa [or_assoc] using h1
  · rw [readFloat_steps, if_neg hne, readSign_snd, hbase]
    simp only [Bool.false_eq_true, if_false]
    rw [hbody, hsaw, hrest]
    simp only [Bool.false_or, Bool.not_true, Bool.false_eq_true, if_false]
    exact hl

/-- A hexadecimal literal with its underscores between digits is read in full
by `readFloat`, and is not a special word. -/
theorem readFloat_hex (s : List Char) (hshape : hexShape s = true)
    (hplaced : underscoresPlaced isHexDigit true ((dropSign s).drop 2) = true) :
    special s = none ∧ ∃ l, readFloat s = some l ∧ l.rest = [] ∧ l.hex = true := by
  obtain ⟨c1, m, c, e, hbody, hc1, hm, hc, he⟩ := hexShape_parts s hshape
  unfold mantissaShape at hm
  simp only [Bool.and_eq_true, decide_eq_true_eq] at hm
  obtain ⟨⟨hall, hany⟩, hcount⟩ := hm
  have hx : lower c1 = 120 := by
    rcases hc1 with rfl | rfl <;> rfl
  have hexp : (true = false ∧ c :: e = []) ∨ ∃ c2 e2, c :: e = c2 :: e2 ∧
      lower c2 = (if true = true then 112 else 101) ∧ exponentShape e2 = true :=
    Or.inr ⟨c, e, rfl, by rcases hc with rfl | rfl <;> rfl, he⟩
  have hok : underscoreOK s = true := by
    rw [underscoreOK_hex s c1 (m ++ c :: e) hbody hx]
    apply underscoreScan_of_placed true _ '0' (by decide)
    rw [placed_hex]
    rw [hbody] at hplaced
    exact hplaced
  have hne : s ≠ [] := by
    rintro rfl
    cases hbody
  have hstop : ∀ c2 e2, c :: e = c2 :: e2 → c2 ≠ '_' ∧ c2 ≠ '.' ∧ isDigitOf 16 c2 = false := by
    intro c2 e2 hce
    have hcc : c2 = c := (List.cons.inj hce).1.symm
    rcases hc with h1 | h1
    · rw [hcc, h1]
      decide
    · rw [hcc, h1]
      decide
  obtain ⟨hrest, hsaw⟩ := scanDigits_complete 16 m (c :: e) ⟨false, false, false, 0, 0⟩
    (by rw [isDigitOf_sixteen]; exact hall) (by simpa using hcount) hstop
  rw [isDigitOf_sixteen, hany] at hsaw
  obtain ⟨l, hl, hr, hh⟩ := readExponent_complete s (readSign s).1 true
    (scanDigits 16 ⟨false, false, false, 0, 0⟩ (m ++ c :: e)).1 (c :: e) hexp hok
  have hbase : readBase (dropSign s) = (true, m ++ c :: e) := by
    rw [hbody]
    cases m with
    | nil => cases hany
    | cons c0 m1 =>
      rw [List.cons_append, readBase_cons, if_pos ⟨rfl, hx⟩]
  refine ⟨special_none s '0' _ hbody (Or.inl (by decide)), l, ?_, hr, hh⟩
  rw [readFloat_steps, if_neg hne, readSign_snd, hbase]
  simp only [if_true]
  rw [hsaw, hrest]
  simp only [Bool.false_or, Bool.not_true, Bool.false_eq_true, if_false]
  exact hl

/-- Every number, as `numberShape` reads it, is accepted by `ParseFloat`. -/
theorem ParseFloat_complete (t : String) (h : numberShape t = true) :
    (ParseFloat t).isSome = true := by
  unfold numberShape at h
  simp only [Bool.or_eq_true] at h
  rcases h with (h | h) | h
  · unfold decimalNumber at h
    simp only [Bool.and_eq_true, decide_eq_true_eq] at h
    obtain ⟨⟨hshape, hplaced⟩, hmag⟩ := h
    obtain ⟨hsp, l, hl, hrest, hhex⟩ := readFloat_decimal t.data hshape hplaced
    rcases readFloat_sound t.data l hl hrest with ⟨_, _, _, hv⟩ | ⟨hx, _⟩
    · rw [← hv] at hmag
      unfold ParseFloat
      rw [hsp, hl]
      simp only [hrest, ne_eq, not_true_eq_false, if_false]
      rw [if_neg (not_le.mpr hmag)]
      rfl
    · rw [hhex] at hx
      cases hx
  · unfold hexNumber at h
    simp only [Bool.and_eq_true, decide_eq_true_eq] at h
    obtain ⟨⟨hshape, hplaced⟩, hmag⟩ := h
    obtain ⟨hsp, l, hl, hrest, hhex⟩ := readFloat_hex t.data hshape hplaced
    rcases readFloat_sound t.data l hl hrest with ⟨hx, _⟩ | ⟨_, _, _, hv⟩
    · rw [hhex] at hx
      cases hx
    · rw [← hv] at hmag
      unfold ParseFloat
      rw [hsp, hl]
      simp only [hrest, ne_eq, not_true_eq_false, if_false]
      rw [if_neg (not_le.mpr hmag)]
      rfl
  · obtain ⟨v, hv⟩ := special_complete t.data h
    unfold ParseFloat
    rw [hv]
    simp only []
    rw [if_pos (show t.data.length = t.length from rfl)]
    rfl

/-- The tokens `ParseFloat` accepts are the numbers of `numberShape`, no more
and no less. -/
theorem ParseFloat_isSome (t : String) : (ParseFloat t).isSome = numberShape t := by
  cases hn : numberShape t with
  | true => exact ParseFloat_complete t hn
  | false =>
    cases hp : ParseFloat t with
    | none => rfl
    | some v =>
      have := ParseFloat_sound t v hp
      rw [hn] at this
      cases this

end FloatLemmas

/-! ## The tokens read as numbers: claims -/

section FloatClaims

/-- C13, as stated, fails: the tokens "0x1p-2", "Inf", "Infinity" and "NaN" do
not have the shape of a base-10 literal, and `processRequest` accepts each of
them as a number instead of reporting it as invalid; so it does "1_000",
which is written with an underscore, not with digits only. -/
theorem processRequest_nondecimal_counterexample :
    (decimalShape "0x1p-2".data = false ∧
      processRequest ParseFloat (formRequest "0x1p-2") = ([Float64.num (1 / 4)], "", true)) ∧
    (decimalShape "Inf".data = false ∧
      processRequest ParseFloat (formRequest "Inf") = ([Float64.inf false], "", true)) ∧
    (decimalShape "Infinity".data = false ∧
      processRequest ParseFloat (formRequest "Infinity") = ([Float64.inf false], "", true)) ∧
    (decimalShape "NaN".data = false ∧
      processRequest ParseFloat (formRequest "NaN") = ([Float64.nan], "", true)) ∧
    ('_' ∈ "1_000".data ∧
      processRequest ParseFloat (formRequest "1_000") = ([Float64.num 1000], "", true)) :=
  ⟨⟨by decide, by decide!⟩, ⟨by decide, by decide!⟩, ⟨by decide, by decide!⟩,
    ⟨by decide, by decide!⟩, ⟨by decide, by decide!⟩⟩

/-- A failing field makes the loop report a failure. -/
theorem processFields_failed {F : Type} (ParseFloat : String → Option F) (acc : List F)
    (fields : List String) (h : ∃ t ∈ fields, ParseFloat t = none) :
    (processFields ParseFloat acc fields).2.2 = false := by
  induction fields generalizing acc with
  | nil =>
    obtain ⟨t, ht, _⟩ := h
    cases ht
  | cons u us ih =>
    unfold processFields
    cases hp : ParseFloat u with
    | none => rfl
    | some x =>
      obtain ⟨t, ht, hnone⟩ := h
      rcases List.mem_cons.mp ht with rfl | ht
      · rw [hp] at hnone
        cases hnone
      · exact ih _ ⟨t, ht, hnone⟩

/-- C13, amended: every token that is not a number as `numberShape` reads it
is rejected by `processRequest` as a parse failure: the result is ok = false
with a non-empty message, which quotes this token when it is the first one
that does not parse.  A number is a base-10 floating-point literal (optional
sign, digits with at most one point, optional exponent) or a hexadecimal one
(optional sign, `0x` or `0X`, hexadecimal digits with at most one point,
exponent `p` or `P`), either with underscores only between two digits (or
between the prefix `0x` and a digit) and of a magnitude below
`2^1024 - 2^970`, or one of the words inf, infinity (with an optional sign)
and nan in any letter case.  Every such number is read by the parser, so that
no token that fails to parse is left out. -/
theorem processRequest_rejects_non_numbers (r : Request) (t : String)
    (hmem : t ∈ tokens (requestText r)) (ht : numberShape t = false) :
    ParseFloat t = none ∧
    (processRequest ParseFloat r).2.2 = false ∧
    (processRequest ParseFloat r).2.1 ≠ "" ∧
    (∀ pre post, tokens (requestText r) = pre ++ t :: post →
      (∀ u ∈ pre, (ParseFloat u).isSome = true) →
      (processRequest ParseFloat r).2.1 = "'" ++ t ++ "' is invalid") ∧
    (∀ u, numberShape u = true → (ParseFloat u).isSome = true) := by
  have hnone : ParseFloat t = none := by
    have hsome := ParseFloat_isSome t
    rw [ht] at hsome
    cases hp : ParseFloat t with
    | none => rfl
    | some v =>
      rw [hp] at hsome
      cases hsome
  rw [processRequest_eq]
  refine ⟨hnone, processFields_failed ParseFloat [] _ ⟨t, hmem, hnone⟩,
    (processFields_message ParseFloat [] _).mpr ⟨t, hmem, hnone⟩, ?_,
    fun u hu => (ParseFloat_isSome u).trans hu⟩
  intro pre post htoks hpre
  obtain ⟨vals, hvals⟩ := exists_values ParseFloat pre hpre
  rw [htoks, processFields_invalid ParseFloat pre t post vals hvals hnone]

/-- C13 amended, on the text "1_000 0x1p-2 Inf 1__0": the literal with an
underscore between digits, the hexadecimal literal and the special word are
read, the literal with two underscores in a row is rejected. -/
theorem processRequest_rejects_non_numbers_witness :
    ParseFloat "1__0" = none ∧
    (processRequest ParseFloat (formRequest "1_000 0x1p-2 Inf 1__0")).2.2 = false ∧
    (processRequest ParseFloat (formRequest "1_000 0x1p-2 Inf 1__0")).2.1 =
      "'1__0' is invalid" :=
  ⟨(processRequest_rejects_non_numbers (formRequest "1_000 0x1p-2 Inf 1__0") "1__0"
      (by decide) (by decide)).1,
    (processRequest_rejects_non_numbers (formRequest "1_000 0x1p-2 Inf 1__0") "1__0"
      (by decide) (by decide)).2.1,
    (processRequest_rejects_non_numbers (formRequest "1_000 0x1p-2 Inf 1__0") "1__0"
      (by decide) (by decide)).2.2.2.1 ["1_000", "0x1p-2", "Inf"] [] (by decide)
      (by decide!)⟩

/-- C14, as stated, fails: "1e999" is a well-formed base-10 literal, and
`processRequest` rejects it as invalid. -/
theorem processRequest_range_counterexample :
    (⟨none, [1], none, some ⟨false, none, [9, 9, 9]⟩⟩ : DecimalLiteral).text = "1e999" ∧
    decimalShape "1e999".data = true ∧
    processRequest ParseFloat (formRequest "1e999") = ([], "'1e999' is invalid", false) :=
  ⟨by decide, by decide, by decide!⟩

/-- C14, amended: `processRequest` restricts the magnitude of a token from
above only.  A well-formed base-10 literal (optional sign, digits with an
optional fractional part, optional exponent) is rejected as invalid when the
magnitude read from it is at or beyond `2^1024 - 2^970`, and is accepted as
one number, with no message, when that magnitude is below the threshold,
however small it is.  The magnitude read is that of the number the literal
denotes whenever the exponent is written with a number below 100000. -/
theorem processRequest_decimal_range (l : DecimalLiteral) (hw : l.wellFormed) :
    (overflowThreshold ≤ |l.readValue| →
      processRequest ParseFloat (formRequest l.text) =
        ([], "'" ++ l.text ++ "' is invalid", false)) ∧
    (|l.readValue| < overflowThreshold →
      ∃ x, processRequest ParseFloat (formRequest l.text) = ([x], "", true)) ∧
    ((∀ e ∈ l.exponent, digitsValue e.digits < 100000) → l.readValue = l.value) := by
  obtain ⟨c, r, hbody, _⟩ := literal_head l hw
  have hne : l.text.data ≠ [] := by
    show signText l.sign ++ (l.mantissaText ++ l.exponentText) ≠ []
    rw [hbody]
    simp
  have hplain : ∀ a ∈ l.text.data, isDelimiter a = false :=
    fun a ha => (literal_char_plain a (literal_chars l a ha)).2
  have htext : requestText (formRequest l.text) = l.text := by
    simp [requestText, formRequest]
  rw [processRequest_eq, htext, tokens_single l.text hne hplain, processFields]
  obtain ⟨hrej, hacc⟩ := ParseFloat_literal l hw
  refine ⟨?_, ?_, readValue_small l⟩
  · intro hov
    rw [hrej hov]
  · intro hlt
    obtain ⟨x, hx⟩ := hacc hlt
    rw [hx]
    exact ⟨x, rfl⟩

/-- C14 amended, on the literals "1e308", "-2.5e-400" and "1e-100000", which
are accepted, and "1e309" and "1e100000", which are rejected. -/
theorem processRequest_decimal_range_witness :
    (∃ x, processRequest ParseFloat (formRequest "1e308") = ([x], "", true)) ∧
    (∃ x, processRequest ParseFloat (formRequest "-2.5e-400") = ([x], "", true)) ∧
    (∃ x, processRequest ParseFloat (formRequest "1e-100000") = ([x], "", true)) ∧
    processRequest ParseFloat (formRequest "1e309") = ([], "'1e309' is invalid", false) ∧
    processRequest ParseFloat (formRequest "1e100000") =
      ([], "'1e100000' is invalid", false) :=
  ⟨(processRequest_decimal_range ⟨none, [1], none, some ⟨false, none, [3, 0, 8]⟩⟩
      ⟨by decide, by simp⟩).2.1 (by decide!),
    (processRequest_decimal_range ⟨some true, [2], some [5], some ⟨false, some true, [4, 0, 0]⟩⟩
      ⟨by decide, by simp⟩).2.1 (by decide!),
    (processRequest_decimal_range ⟨none, [1], none, some ⟨false, some true, [1, 0, 0, 0, 0, 0]⟩⟩
      ⟨by decide, by simp⟩).2.1 (by decide!),
    (processRequest_decimal_range ⟨none, [1], none, some ⟨false, none, [3, 0, 9]⟩⟩
      ⟨by decide, by simp⟩).1 (by decide!),
    (processRequest_decimal_range ⟨none, [1], none, some ⟨false, none, [1, 0, 0, 0, 0, 0]⟩⟩
      ⟨by decide, by simp⟩).1 (by decide!)⟩

end FloatClaims

end Statistics
